import Mathlib

/-! go-itsdangerous: signing, framing and verification of tokens

A shallow embedding of `itsdangerous.go`, `algorithm.go` and `signature.go`.

* A Go `[]byte` (and a Go `string`, which is a byte sequence) is a `List (Fin 256)`;
  the nil slice and the empty slice are both `[]` (the package never compares a
  slice with nil, and `len`, `append` and slicing treat the two alike).
* A Go function returning `([]byte, error)` returns a pair `Bytes × Option Error`;
  a function that can hit a run-time panic returns an `Outcome` of such a pair.
* A `hash.Hash` instance is its digest function, its block size, whether its dynamic
  type can be compared with `==`, and the bytes written since the last `Reset`;
  methods that write to the shared digest return the updated instance next to their
  result (explicit state passing).
* The standard library is modelled from its documented behaviour:
  `encoding/base64` (URLEncoding, padded, not strict), `crypto/hmac` (as from Go 1.16:
  `hmac.New` panics when the function it is given returns the same comparable value
  twice), `crypto/sha1` (SHA-1 in full, so that tokens can be evaluated),
  `crypto/subtle`, `bytes`, `encoding/binary`.
  `compress/zlib` is a parameter (`Zlib`).
* The clock read by `getTimestamp` is an explicit argument.
* Slices are values, except in the last section of the definitions, where the
  unsigning functions are given again on windows of the caller's backing array
  (`Slice`, `base64DecodeM`, `UnsignM`), to follow what `append` inside `base64Decode`
  writes into that array.
-/

namespace itsdangerous

/-! ## Bytes -/

abbrev Byte := Fin 256

abbrev Bytes := List Byte

/-- Bytes of an ASCII string literal. -/
def ascii (s : String) : Bytes := s.toList.map (fun c => Fin.ofNat c.toNat)

/-- Go error values returned by the package and by the library calls it makes. -/
inductive Error where
  /-- errors.New("unknown key derivation method") -/
  | unknownKeyDerivation
  /-- fmt.Errorf("no %s found in value", s.Sep) -/
  | noSepFound (sep : Bytes)
  /-- fmt.Errorf("signature %s does not match", sig) -/
  | signatureMismatch (sig : Bytes)
  /-- errors.New("timestamp missing") -/
  | timestampMissing
  /-- fmt.Errorf("signature age %d > %d seconds", age, maxAge) -/
  | signatureAge (age maxAge : Nat)
  /-- base64.CorruptInputError -/
  | corruptInput
  /-- an error of compress/zlib (NewReader or the read) -/
  | zlibError
  /-- io.EOF from binary.Read: no byte to read -/
  | eof
  /-- io.ErrUnexpectedEOF from binary.Read: fewer bytes than the value needs -/
  | unexpectedEOF
deriving DecidableEq, Repr

/-- What a call does: it returns `a`, or it panics at run time. -/
inductive Outcome (α : Type) where
  | ret (a : α)
  | panic
deriving DecidableEq, Repr

/-! ## package bytes -/

/-- bytes.HasPrefix(s, sep). -/
def HasPrefix : Bytes → Bytes → Bool
  | _, [] => true
  | [], _ :: _ => false
  | c :: s, d :: sep => c == d && HasPrefix s sep

/-- bytes.Index(s, sep): index of the first instance of sep in s, `none` for -1. -/
def Index : Bytes → Bytes → Option Nat
  | [], sep => if HasPrefix [] sep then some 0 else none
  | c :: s, sep =>
    if HasPrefix (c :: s) sep then some 0
    else (Index s sep).map (· + 1)

/-- bytes.Contains(b, subslice) = (Index(b, subslice) != -1). -/
def Contains (b subslice : Bytes) : Bool := (Index b subslice).isSome

/-- bytes.LastIndex(s, sep): index of the last instance of sep in s, `none` for -1
(for an empty sep the result is len(s)). -/
def LastIndex : Bytes → Bytes → Option Nat
  | [], sep => if HasPrefix [] sep then some 0 else none
  | c :: s, sep =>
    match LastIndex s sep with
    | some i => some (i + 1)
    | none => if HasPrefix (c :: s) sep then some 0 else none

/-! ## package encoding/base64: URLEncoding (padded with '=', not strict) -/

/-- The alphabet of base64.URLEncoding. -/
def encodeURL : Bytes :=
  ascii "ABCDEFGHIJKLMNOPQRSTUVWXYZabcdefghijklmnopqrstuvwxyz0123456789-_"

/-- The padding character '='. -/
def padChar : Byte := 61

/-- Character of a 6-bit value. -/
def encChar (i : Nat) : Byte := encodeURL.getD i 0

/-- The decode map of the alphabet: the 6-bit value of a character, `none` for 0xff. -/
def decodeMap (c : Byte) : Option Nat :=
  if c ∈ encodeURL then some (encodeURL.indexOf c) else none

/-- URLEncoding.Encode: the padded encoding, EncodedLen(len(src)) bytes long. -/
def URLEncode : Bytes → Bytes
  | a :: b :: c :: rest =>
    encChar (a.val / 4) :: encChar (a.val % 4 * 16 + b.val / 16) ::
      encChar (b.val % 16 * 4 + c.val / 64) :: encChar (c.val % 64) :: URLEncode rest
  | [a, b] =>
    [encChar (a.val / 4), encChar (a.val % 4 * 16 + b.val / 16), encChar (b.val % 16 * 4), padChar]
  | [a] => [encChar (a.val / 4), encChar (a.val % 4 * 16), padChar, padChar]
  | [] => []

/-- The bytes of one quantum, from the 2, 3 or 4 six-bit values read for it. -/
def quantum : List Nat → Bytes
  | [p, q] => [Fin.ofNat (p * 4 + q / 16)]
  | [p, q, r] => [Fin.ofNat (p * 4 + q / 16), Fin.ofNat (q % 16 * 16 + r / 4)]
  | [p, q, r, s] =>
    [Fin.ofNat (p * 4 + q / 16), Fin.ofNat (q % 16 * 16 + r / 4), Fin.ofNat (r % 4 * 64 + s)]
  | _ => []

/-- Skip over newlines. -/
def skipNewlines : Bytes → Bytes
  | [] => []
  | c :: rest => if c = 10 ∨ c = 13 then skipNewlines rest else c :: rest

/-- The decoding loop of URLEncoding.Decode; `acc` holds the six-bit values read so far
for the current quantum (j = acc.length). `none` is a CorruptInputError.
Carriage returns and newlines are skipped; a quantum may end in padding, after which
only newlines may follow; the bits of the last character that do not fill a byte are
dropped without a check (the encoding is not strict). -/
def decodeLoop : List Nat → Bytes → Option Bytes
  | [], [] => some []
  | _ :: _, [] => none
  | acc, c :: rest =>
    match decodeMap c with
    | some v =>
      if acc.length = 3 then (decodeLoop [] rest).map (quantum (acc ++ [v]) ++ ·)
      else decodeLoop (acc ++ [v]) rest
    | none =>
      if c = 10 ∨ c = 13 then decodeLoop acc rest
      else if c ≠ padChar then none
      else
        match acc.length with
        | 0 => none
        | 1 => none
        | 2 =>
          match skipNewlines rest with
          | [] => none
          | c2 :: rest2 =>
            if c2 ≠ padChar then none
            else if skipNewlines rest2 = [] then some (quantum acc) else none
        | _ => if skipNewlines rest = [] then some (quantum acc) else none

/-- URLEncoding.Decode(dst, src): the decoded bytes dst[:n], or a CorruptInputError. -/
def URLDecode (src : Bytes) : Option Bytes := decodeLoop [] src

/-! ## package compress/zlib (a parameter) -/

/-- The zlib writer and reader the package calls.
`compress b` is what `zw.Write(b); zw.Close()` leaves in the buffer, with the error of Close;
`decompress c` is the result of `zlib.NewReader` followed by `ioutil.ReadAll`. -/
structure Zlib where
  compress : Bytes → Bytes × Option Error
  decompress : Bytes → Bytes × Option Error

/-! ## itsdangerous.go -/

/-- The loop `for i := len(dst) - 1; i > 0; i-- { if dst[i] == '=' { dst = dst[:i] } }`,
entered with i = n. -/
def stripLoop : Nat → Bytes → Bytes
  | 0, dst => dst
  | i + 1, dst => stripLoop i (if dst.get? (i + 1) = some padChar then dst.take (i + 1) else dst)

def base64Encode (b : Bytes) : Bytes :=
  let dst := URLEncode b
  stripLoop (dst.length - 1) dst

def ZBase64Encode (z : Zlib) (b : Bytes) : Bytes :=
  let (cb, err) := z.compress b
  let isCompressed := err.isNone && decide (cb.length < b.length + 1)
  let b := if isCompressed then cb else b
  let dst := base64Encode b
  if isCompressed then (46 : Byte) :: dst else dst

/-- The loop `for i := 0; i < len(b)%4; i++ { b = append(b, '=') }`, whose bound is read
again on every round. It runs at most three rounds (i < len(b) % 4 ≤ 3), so the gas 4 it
is entered with is never used up: it stops with its condition false (`padLoop_exit`).
Returns the final i and b. -/
def padLoop : Nat → Nat → Bytes → Nat × Bytes
  | 0, i, b => (i, b)
  | gas + 1, i, b => if i < b.length % 4 then padLoop gas (i + 1) (b ++ [padChar]) else (i, b)

/-- base64Decode. `b[0]` panics (index out of range) when b is empty.
On a failed read of the zlib stream the source returns the bytes read so far next to the
error; the pair is kept as it is. -/
def base64Decode (z : Zlib) (b : Bytes) : Outcome (Bytes × Option Error) :=
  match b with
  | [] => .panic
  | b0 :: tl =>
    let decompress := b0 == 46
    let b := if decompress then tl else b0 :: tl
    let b := (padLoop 4 0 b).2
    match URLDecode b with
    | none => .ret ([], some .corruptInput)
    | some dst =>
      if decompress then .ret (z.decompress dst)
      else .ret (dst, none)

/-- getTimestamp: uint32(time.Now().Unix()), the clock being `unix` seconds. -/
def getTimestamp (unix : Nat) : Nat := unix % 4294967296

/-! ## package hash, crypto/sha1, crypto/hmac, crypto/subtle, encoding/binary -/

/-- A hash.Hash instance: the digest function, BlockSize(), whether `==` on two interface
values that hold this instance returns (the dynamic type is comparable: a pointer, as
`sha1.New()` returns) or panics (a struct type with a slice, map or function field), and
the bytes written since the last Reset. -/
structure Hash where
  digest : Bytes → Bytes
  BlockSize : Nat
  comparable : Bool
  written : Bytes

def Hash.Reset (h : Hash) : Hash := { h with written := [] }

def Hash.Write (h : Hash) (p : Bytes) : Hash := { h with written := h.written ++ p }

/-- Sum(nil): the digest of the bytes written so far; the state is not changed. -/
def Hash.Sum (h : Hash) : Bytes := h.digest h.written

namespace sha1

def rotl (n : Nat) (x : Nat) : Nat := (x * 2 ^ n + x / 2 ^ (32 - n)) % 4294967296

def be32 : Bytes → Nat
  | a :: b :: c :: d :: _ => ((a.val * 256 + b.val) * 256 + c.val) * 256 + d.val
  | _ => 0

def words : Nat → Bytes → List Nat
  | 0, _ => []
  | n + 1, p => be32 p :: words n (p.drop 4)

def f (t b c d : Nat) : Nat :=
  if t < 20 then (b &&& c) ||| ((4294967295 - b) &&& d)
  else if t < 40 then b ^^^ c ^^^ d
  else if t < 60 then (b &&& c) ||| (b &&& d) ||| (c &&& d)
  else b ^^^ c ^^^ d

def k (t : Nat) : Nat :=
  if t < 20 then 0x5A827999 else if t < 40 then 0x6ED9EBA1
  else if t < 60 then 0x8F1BBCDC else 0xCA62C1D6

/-- The chaining value. -/
structure St where
  a : Nat
  b : Nat
  c : Nat
  d : Nat
  e : Nat

/-- The message-schedule word sixteen places after the head of the window `w`. -/
def next (w : List Nat) : Nat :=
  rotl 1 (w.getD 13 0 ^^^ w.getD 8 0 ^^^ w.getD 2 0 ^^^ w.getD 0 0)

/-- The rounds t, t+1, ... (n of them); `w` holds the schedule words from t on. -/
def rounds : Nat → Nat → List Nat → St → St
  | 0, _, _, s => s
  | n + 1, t, w, s =>
    let tmp := (rotl 5 s.a + f t s.b s.c s.d + s.e + w.getD 0 0 + k t) % 4294967296
    rounds n (t + 1) (w.drop 1 ++ [next w]) ⟨tmp, s.a, rotl 30 s.b, s.c, s.d⟩

def block (h : St) (p : Bytes) : St :=
  let r := rounds 80 0 (words 16 p) h
  ⟨(h.a + r.a) % 4294967296, (h.b + r.b) % 4294967296, (h.c + r.c) % 4294967296,
   (h.d + r.d) % 4294967296, (h.e + r.e) % 4294967296⟩

def blocks : Nat → St → Bytes → St
  | 0, h, _ => h
  | n + 1, h, p => blocks n (block h p) (p.drop 64)

/-- The n low bytes of x, most significant first. -/
def beBytes (n : Nat) (x : Nat) : Bytes :=
  (List.range n).map (fun i => Fin.ofNat (x / 256 ^ (n - 1 - i)))

def pad (m : Bytes) : Bytes :=
  m ++ [128] ++ List.replicate ((119 - m.length % 64) % 64) 0 ++ beBytes 8 (8 * m.length)

def init : St := ⟨0x67452301, 0xEFCDAB89, 0x98BADCFE, 0x10325476, 0xC3D2E1F0⟩

/-- SHA-1 (FIPS 180-4) of a byte string. -/
def sum (m : Bytes) : Bytes :=
  let p := pad m
  let h := blocks (p.length / 64) init p
  beBytes 4 h.a ++ beBytes 4 h.b ++ beBytes 4 h.c ++ beBytes 4 h.d ++ beBytes 4 h.e

/-- sha1.New(): a pointer to a fresh digest. -/
def New : Hash := ⟨sum, 64, true, []⟩

end sha1

namespace hmac

/-- The key block of `hmac.New`: the key, zero-filled to the block size (cut at the
block size, as `copy` does), every byte xored with `x`. -/
def keyPad (blocksize : Nat) (key : Bytes) (x : Byte) : Bytes :=
  ((key ++ List.replicate (blocksize - key.length) 0).take blocksize).map (· ^^^ x)

/-- What `hmac.New(func() hash.Hash { return d }, key)`, `Write(msg)` and `Sum(nil)` do
once New has accepted the function. The function returns the one instance `d` for both the
inner and the outer hash, so every step acts on `d`: New writes a key longer than the block
to `d` as the caller left it and takes the sum for the key, then writes the inner pad to
`d`, without a Reset; Write writes to `d`; Sum takes the inner digest, resets `d`, writes
the outer pad and the inner digest, and sums. Returns the MAC and the state of `d`. -/
def steps (d : Hash) (key msg : Bytes) : Bytes × Hash :=
  let d := if key.length > d.BlockSize then d.Write key else d
  let key := if key.length > d.BlockSize then d.Sum else key
  let ipad := keyPad d.BlockSize key 0x36
  let opad := keyPad d.BlockSize key 0x5c
  let d := d.Write ipad
  let d := d.Write msg
  let inner := d.Sum
  let d := (d.Reset.Write opad).Write inner
  (d.Sum, d)

/-- The outcome of `h := hmac.New(func() hash.Hash { return d }, key); h.Write(msg);
h.Sum(nil)` and the state it leaves the digest `d` in. `hmac.New` calls the function twice
and compares the two values: they are the same instance, so when its type is comparable New
panics ("hash generation function does not produce unique values") before it writes
anything; when it is not, the comparison itself panics, New recovers and goes on
(`steps`). -/
def sumWith (d : Hash) (key msg : Bytes) : Outcome Bytes × Hash :=
  if d.comparable then (.panic, d)
  else (.ret (steps d key msg).1, (steps d key msg).2)

end hmac

/-- subtle.ConstantTimeCompare(x, y): 1 when the two slices have equal length and
contents, 0 otherwise (0 at once when the lengths differ). -/
def ConstantTimeCompare (x y : Bytes) : Nat :=
  if x.length ≠ y.length then 0
  else
    let v : Byte := (List.zipWith (· ^^^ ·) x y).foldl (· ||| ·) 0
    if v = 0 then 1 else 0

/-- binary.Write(buf, binary.BigEndian, x) for a uint32 x: four bytes, high byte first. -/
def putUint32 (x : Nat) : Bytes :=
  [Fin.ofNat (x / 16777216), Fin.ofNat (x / 65536), Fin.ofNat (x / 256), Fin.ofNat x]

/-- binary.Read(buf, binary.BigEndian, &timestamp) for a uint32: the first four bytes,
io.EOF when there is none, io.ErrUnexpectedEOF when there are fewer than four. -/
def readUint32 : Bytes → Nat × Option Error
  | a :: b :: c :: d :: _ => (((a.val * 256 + b.val) * 256 + c.val) * 256 + d.val, none)
  | [] => (0, some .eof)
  | _ => (0, some .unexpectedEOF)

/-! ## algorithm.go -/

/-- SigningAlgorithm: the two methods of the interface. A method may write to the digest
instance of the Signature that calls it (the default algorithm shares that instance),
so it takes the digest and returns it next to its result. -/
structure SigningAlgorithm where
  GetSignature : Hash → Bytes → Bytes → Outcome Bytes × Hash
  VerifySignature : Hash → Bytes → Bytes → Bytes → Outcome Bool × Hash

/-- HMACAlgorithm.GetSignature, on the digest `d` = a.DigestMethod. -/
def HMACAlgorithm.GetSignature (d : Hash) (key value : Bytes) : Outcome Bytes × Hash :=
  let d := d.Reset
  hmac.sumWith d key value

/-- HMACAlgorithm.VerifySignature. -/
def HMACAlgorithm.VerifySignature (d : Hash) (key value sig : Bytes) : Outcome Bool × Hash :=
  match HMACAlgorithm.GetSignature d key value with
  | (.panic, d) => (.panic, d)
  | (.ret expected, d) =>
    let eq := ConstantTimeCompare sig expected
    (.ret (eq == 1), d)

/-- The value `&HMACAlgorithm{DigestMethod: digest}` where `digest` is the digest of the
Signature that holds the algorithm. -/
def HMACAlgorithm : SigningAlgorithm :=
  ⟨HMACAlgorithm.GetSignature, HMACAlgorithm.VerifySignature⟩

/-! ## signature.go -/

structure Signature where
  SecretKey : Bytes
  Sep : Bytes
  Salt : Bytes
  KeyDerivation : String
  DigestMethod : Hash
  Algorithm : SigningAlgorithm

/-- DeriveKey: the key and error it returns, and the digest it leaves. -/
def Signature.DeriveKey (s : Signature) : Outcome (Bytes × Option Error) × Hash :=
  let d := s.DigestMethod.Reset
  if s.KeyDerivation = "concat" then
    let h := d
    let h := h.Write s.Salt
    let h := h.Write s.SecretKey
    (.ret (h.Sum, none), h)
  else if s.KeyDerivation = "django-concat" then
    let h := d
    let h := h.Write s.Salt
    let h := h.Write (ascii "signer")
    let h := h.Write s.SecretKey
    (.ret (h.Sum, none), h)
  else if s.KeyDerivation = "hmac" then
    match hmac.sumWith d s.SecretKey s.Salt with
    | (.panic, d) => (.panic, d)
    | (.ret key, d) => (.ret (key, none), d)
  else if s.KeyDerivation = "none" then
    (.ret (s.SecretKey, none), d)
  else
    (.ret ([], some .unknownKeyDerivation), d)

/-- Get returns the signature for the given value. -/
def Signature.Get (s : Signature) (value : Bytes) : Outcome (Bytes × Option Error) × Hash :=
  match s.DeriveKey with
  | (.panic, d) => (.panic, d)
  | (.ret (_, some err), d) => (.ret ([], some err), d)
  | (.ret (key, none), d) =>
    match s.Algorithm.GetSignature d key value with
    | (.panic, d) => (.panic, d)
    | (.ret sig, d) => (.ret (base64Encode sig, none), d)

/-- Verify verifies the signature for the given value. -/
def Signature.Verify (z : Zlib) (s : Signature) (value sig : Bytes) :
    Outcome (Bool × Option Error) × Hash :=
  match s.DeriveKey with
  | (.panic, d) => (.panic, d)
  | (.ret (_, some err), d) => (.ret (false, some err), d)
  | (.ret (key, none), d) =>
    match base64Decode z sig with
    | .panic => (.panic, d)
    | .ret (_, some err) => (.ret (false, some err), d)
    | .ret (signed, none) =>
      match s.Algorithm.VerifySignature d key value signed with
      | (.panic, d) => (.panic, d)
      | (.ret ok, d) => (.ret (ok, none), d)

def sepJoin (value sep sig : Bytes) : Bytes := value ++ sep ++ sig

/-- Sign the given string. -/
def Signature.Sign (s : Signature) (value : Bytes) : Outcome (Bytes × Option Error) × Hash :=
  match s.Get value with
  | (.panic, d) => (.panic, d)
  | (.ret (_, some err), d) => (.ret ([], some err), d)
  | (.ret (sig, none), d) => (.ret (sepJoin value s.Sep sig, none), d)

/-- Unsign the given string. The slice expressions `signed[:li]` and
`signed[li+len(s.Sep):]` panic for li = -1. -/
def Signature.Unsign (z : Zlib) (s : Signature) (signed : Bytes) :
    Outcome (Bytes × Option Error) × Hash :=
  if !Contains signed s.Sep then (.ret ([], some (.noSepFound s.Sep)), s.DigestMethod)
  else
    match LastIndex signed s.Sep with
    | none => (.panic, s.DigestMethod)
    | some li =>
      let value := signed.take li
      let sig := signed.drop (li + s.Sep.length)
      match s.Verify z value sig with
      | (.panic, d) => (.panic, d)
      | (.ret (ok, _), d) =>
        if ok == true then (.ret (value, none), d)
        else (.ret ([], some (.signatureMismatch sig)), d)

/-- SignB64 first Base64 encodes the (optionally compressed) value before signing. -/
def Signature.SignB64 (z : Zlib) (s : Signature) (value : Bytes) :
    Outcome (Bytes × Option Error) × Hash :=
  s.Sign (ZBase64Encode z value)

/-- UnsignB64 Base64 decodes the (optionally compressed) value after unsigning. -/
def Signature.UnsignB64 (z : Zlib) (s : Signature) (signed : Bytes) :
    Outcome (Bytes × Option Error) × Hash :=
  match s.Unsign z signed with
  | (.panic, d) => (.panic, d)
  | (.ret (_, some err), d) => (.ret ([], some err), d)
  | (.ret (b, none), d) => (base64Decode z b, d)

/-- NewSignature creates a new Signature; a nil digest or algorithm is `none`. -/
def NewSignature (secret salt sep : Bytes) (derivation : String) (digest : Option Hash)
    (algo : Option SigningAlgorithm) : Signature :=
  let salt := if salt = [] then ascii "itsdangerous.Signer" else salt
  let sep := if sep = [] then ascii "." else sep
  let derivation := if derivation = "" then "django-concat" else derivation
  let digest := match digest with
    | none => sha1.New
    | some d => d
  let algo := match algo with
    | none => HMACAlgorithm
    | some a => a
  { SecretKey := secret
    Salt := salt
    Sep := sep
    KeyDerivation := derivation
    DigestMethod := digest
    Algorithm := algo }

/-- TimestampSignature works like the regular Signature but also records the time
of the signing and can be used to expire signatures. -/
structure TimestampSignature extends Signature

/-- Sign the given string, the clock reading `unix`. -/
def TimestampSignature.Sign (s : TimestampSignature) (unix : Nat) (value : Bytes) :
    Outcome (Bytes × Option Error) × Hash :=
  let buf := putUint32 (getTimestamp unix)
  let ts := base64Encode buf
  let val := sepJoin value s.Sep ts
  match s.toSignature.Get val with
  | (.panic, d) => (.panic, d)
  | (.ret (_, some err), d) => (.ret ([], some err), d)
  | (.ret (sig, none), d) => (.ret (sepJoin val s.Sep sig, none), d)

def TimestampSignature.SignB64 (z : Zlib) (s : TimestampSignature) (unix : Nat)
    (value : Bytes) : Outcome (Bytes × Option Error) × Hash :=
  s.Sign unix (ZBase64Encode z value)

/-- Unsign the given string, the clock reading `unix`. -/
def TimestampSignature.Unsign (z : Zlib) (s : TimestampSignature) (unix : Nat)
    (value : Bytes) (maxAge : Nat) : Outcome (Bytes × Option Error) × Hash :=
  match s.toSignature.Unsign z value with
  | (.panic, d) => (.panic, d)
  | (.ret (_, some err), d) => (.ret ([], some err), d)
  | (.ret (result, none), d) =>
    if !Contains result s.Sep then (.ret ([], some .timestampMissing), d)
    else
      match LastIndex result s.Sep with
      | none => (.panic, d)
      | some li =>
        let val := result.take li
        let ts := result.drop (li + s.Sep.length)
        match base64Decode z ts with
        | .panic => (.panic, d)
        | .ret (_, some err) => (.ret ([], some err), d)
        | .ret (sig, none) =>
          match readUint32 sig with
          | (_, some err) => (.ret ([], some err), d)
          | (timestamp, none) =>
            let age := (getTimestamp unix + 4294967296 - timestamp) % 4294967296
            if maxAge > 0 ∧ age > maxAge then (.ret ([], some (.signatureAge age maxAge)), d)
            else (.ret (val, none), d)

def TimestampSignature.UnsignB64 (z : Zlib) (s : TimestampSignature) (unix : Nat)
    (signed : Bytes) (maxAge : Nat) : Outcome (Bytes × Option Error) × Hash :=
  match s.Unsign z unix signed maxAge with
  | (.panic, d) => (.panic, d)
  | (.ret (_, some err), d) => (.ret ([], some err), d)
  | (.ret (b, none), d) => (base64Decode z b, d)

/-- NewTimestampSignature creates a new TimestampSignature. -/
def NewTimestampSignature (secret salt sep : Bytes) (derivation : String)
    (digest : Option Hash) (algo : Option SigningAlgorithm) : TimestampSignature :=
  { toSignature := NewSignature secret salt sep derivation digest algo }

/-! ## Definitions used in the statements -/

/-- URLEncode without the padding characters. -/
def rawEncode : Bytes → Bytes
  | a :: b :: c :: rest =>
    encChar (a.val / 4) :: encChar (a.val % 4 * 16 + b.val / 16) ::
      encChar (b.val % 16 * 4 + c.val / 64) :: encChar (c.val % 64) :: rawEncode rest
  | [a, b] => [encChar (a.val / 4), encChar (a.val % 4 * 16 + b.val / 16), encChar (b.val % 16 * 4)]
  | [a] => [encChar (a.val / 4), encChar (a.val % 4 * 16)]
  | [] => []

/-- The key-derivation methods DeriveKey has a case for. -/
def Recognised (derivation : String) : Prop :=
  derivation = "concat" ∨ derivation = "django-concat" ∨ derivation = "hmac" ∨
    derivation = "none"

instance (derivation : String) : Decidable (Recognised derivation) := by
  unfold Recognised
  infer_instance

/-- The Signature `s` with its digest instance in the state `d` (the state a previous call
left it in). -/
def Signature.withDigest (s : Signature) (d : Hash) : Signature := { s with DigestMethod := d }

/-- Adler-32 checksum of RFC 1950. -/
def adler32 (b : Bytes) : Nat :=
  let r := b.foldl
    (fun (p : Nat × Nat) x => ((p.1 + x.val) % 65521, (p.2 + (p.1 + x.val) % 65521) % 65521))
    (1, 0)
  r.2 * 65536 + r.1

/-- A zlib restricted to stored blocks: the writer puts any input shorter than 65536 bytes
in one stored deflate block (header 78 01, block header 01, LEN, NLEN, the bytes, Adler-32),
and the reader inflates exactly the streams of that shape. Every zlib reader inflates such a
stream to the same bytes. -/
def storedZlib : Zlib where
  compress b :=
    if b.length < 65536 then
      ([0x78, 0x01, 0x01, Fin.ofNat b.length, Fin.ofNat (b.length / 256),
          Fin.ofNat (255 - b.length % 256), Fin.ofNat (255 - b.length / 256)]
        ++ b ++ putUint32 (adler32 b), none)
    else ([], some .zlibError)
  decompress c :=
    match c with
    | h0 :: h1 :: h2 :: l0 :: l1 :: n0 :: n1 :: rest =>
      if h0 = 0x78 ∧ h1 = 0x01 ∧ h2 = 0x01 ∧ n0.val = 255 - l0.val ∧ n1.val = 255 - l1.val ∧
          rest.length = l0.val + 256 * l1.val + 4 ∧
          (readUint32 (rest.drop (l0.val + 256 * l1.val))).1
            = adler32 (rest.take (l0.val + 256 * l1.val)) then
        (rest.take (l0.val + 256 * l1.val), none)
      else ([], some .zlibError)
    | _ => ([], some .zlibError)

/-- Codec `decode` in the words of the specification: re-pad to a multiple of 4 by
appending '=' and base64-decode; no marker, no decompression. -/
def plainDecode (b : Bytes) : Bytes × Option Error :=
  match URLDecode (b ++ List.replicate ((4 - b.length % 4) % 4) padChar) with
  | some dst => (dst, none)
  | none => ([], some .corruptInput)

/-- Codec `compressDecode` in the words of the specification: if the first byte is the
marker, strip it, base64-decode the remainder, then decompress; else plain base64-decode. -/
def compressDecode (z : Zlib) (b : Bytes) : Bytes × Option Error :=
  match b with
  | [] => plainDecode []
  | b0 :: tl =>
    if b0 = 46 then
      match plainDecode tl with
      | (dst, none) => z.decompress dst
      | (_, some err) => ([], some err)
    else plainDecode (b0 :: tl)

/-- The byte string `b` with bit `k` of its byte `i` flipped. -/
def flipBit (b : Bytes) (i k : Nat) : Bytes := b.set i (b.getD i 0 ^^^ Fin.ofNat (2 ^ k))

/-- The TimestampSignature `t` with its digest instance in the state `d`. -/
def TimestampSignature.withDigest (t : TimestampSignature) (d : Hash) : TimestampSignature :=
  { toSignature := t.toSignature.withDigest d }

/-- Whether two characters are alphabet characters whose six-bit values have the same four
high bits. -/
def sameHighBits (c c' : Byte) : Bool :=
  match decodeMap c, decodeMap c' with
  | some s, some s' => s / 4 == s' / 4
  | _, _ => false

/-- HMAC of RFC 2104 over the digest function `H` with block size `B`: a key longer than
the block is hashed first, the key is zero-filled to the block (and cut at the block, as
`copy` does), and the result is H((K xor opad) ‖ H((K xor ipad) ‖ msg)). -/
def HMAC (H : Bytes → Bytes) (B : Nat) (key msg : Bytes) : Bytes :=
  let k0 := if key.length > B then H key else key
  let k := (k0 ++ List.replicate (B - k0.length) 0).take B
  H (k.map (· ^^^ 0x5c) ++ H (k.map (· ^^^ 0x36) ++ msg))

/-- The digest instance of `s` after `w` has been written to it since its last Reset. -/
def Signature.written (s : Signature) (w : Bytes) : Signature :=
  s.withDigest
    ⟨s.DigestMethod.digest, s.DigestMethod.BlockSize, s.DigestMethod.comparable, w⟩

/-- The same hash.Hash instance with possibly other bytes written to it: the digest
function, the block size and the dynamic type agree. -/
def Hash.same (d d' : Hash) : Prop :=
  d.digest = d'.digest ∧ d.BlockSize = d'.BlockSize ∧ d.comparable = d'.comparable

/-- A digest a caller can hand to NewSignature: a SHA-1 instance held in a value of a type
that cannot be compared with `==` (a struct with a slice field around `sha1.New()`, say),
after `w` has been written to it. `hmac.New` accepts the function that returns it twice. -/
def sha1.Wrapped (w : Bytes) : Hash := ⟨sha1.sum, 64, false, w⟩

/-! ## Slices as windows on a backing array

The functions below are the unsigning functions again, with the input token kept in its
backing array `mem` and every slice of it a window (offset, length, capacity) on that
array, as in Go: `s[a:]` and `s[:b]` keep the array, and `append` writes in place while the
capacity lasts. Slices the callee allocates (`make`, the decoded bytes) stay values. -/

/-- A slice header on the backing array: offset, len and cap. -/
structure Slice where
  off : Nat
  len : Nat
  cap : Nat
deriving DecidableEq, Repr

/-- The bytes the slice shows of the backing array. -/
def Slice.bytes (mem : Bytes) (s : Slice) : Bytes := (mem.drop s.off).take s.len

/-- The slice expression `s[a:]`: the capacity shrinks with the offset. -/
def Slice.sliceFrom (s : Slice) (a : Nat) : Slice := ⟨s.off + a, s.len - a, s.cap - a⟩

/-- The slice expression `s[:b]`: the capacity stays that of `s`. -/
def Slice.sliceTo (s : Slice) (b : Nat) : Slice := ⟨s.off, b, s.cap⟩

/-- The nil slice. -/
def Slice.nil : Slice := ⟨0, 0, 0⟩

/-- The local slice `b` of base64Decode: a window on the caller's array, or, once `append`
has run out of capacity, an array of its own. -/
inductive Buf where
  | window (s : Slice)
  | fresh (b : Bytes)
deriving DecidableEq, Repr

def Buf.bytes (mem : Bytes) : Buf → Bytes
  | .window s => s.bytes mem
  | .fresh b => b

/-- The statement `b = append(b, x)`: with len(b) < cap(b) the byte is written into the
backing array right after the window, otherwise the bytes are copied to a new array. -/
def Buf.append (mem : Bytes) (b : Buf) (x : Byte) : Bytes × Buf :=
  match b with
  | .window s =>
    if s.len < s.cap then (mem.set (s.off + s.len) x, .window ⟨s.off, s.len + 1, s.cap⟩)
    else (mem, .fresh (s.bytes mem ++ [x]))
  | .fresh l => (mem, .fresh (l ++ [x]))

/-- The padding loop of base64Decode on the backing array (see `padLoop`). -/
def padLoopM : Nat → Nat → Bytes → Buf → Bytes × Buf
  | 0, _, mem, b => (mem, b)
  | gas + 1, i, mem, b =>
    if i < (b.bytes mem).length % 4 then
      padLoopM gas (i + 1) (b.append mem padChar).1 (b.append mem padChar).2
    else (mem, b)

/-- The function base64Decode on a window `b` of the array `mem`: its result and the array
it leaves. -/
def base64DecodeM (z : Zlib) (mem : Bytes) (b : Slice) :
    Outcome (Bytes × Option Error) × Bytes :=
  if b.len = 0 then (.panic, mem)
  else
    let decompress := mem.getD b.off 0 == 46
    let b := if decompress then b.sliceFrom 1 else b
    let r := padLoopM 4 0 mem (.window b)
    match URLDecode (r.2.bytes r.1) with
    | none => (.ret ([], some .corruptInput), r.1)
    | some dst =>
      if decompress then (.ret (z.decompress dst), r.1)
      else (.ret (dst, none), r.1)

/-- Signature.Verify on windows of `mem`. -/
def Signature.VerifyM (z : Zlib) (s : Signature) (mem : Bytes) (value sig : Slice) :
    Outcome (Bool × Option Error) × Hash × Bytes :=
  match s.DeriveKey with
  | (.panic, d) => (.panic, d, mem)
  | (.ret (_, some err), d) => (.ret (false, some err), d, mem)
  | (.ret (key, none), d) =>
    match base64DecodeM z mem sig with
    | (.panic, mem) => (.panic, d, mem)
    | (.ret (_, some err), mem) => (.ret (false, some err), d, mem)
    | (.ret (signed, none), mem) =>
      match s.Algorithm.VerifySignature d key (value.bytes mem) signed with
      | (.panic, d) => (.panic, d, mem)
      | (.ret ok, d) => (.ret (ok, none), d, mem)

/-- Signature.Unsign on the window `signed` of `mem`; the value it returns is a window on
the same array. -/
def Signature.UnsignM (z : Zlib) (s : Signature) (mem : Bytes) (signed : Slice) :
    Outcome (Slice × Option Error) × Hash × Bytes :=
  if !Contains (signed.bytes mem) s.Sep then
    (.ret (Slice.nil, some (.noSepFound s.Sep)), s.DigestMethod, mem)
  else
    match LastIndex (signed.bytes mem) s.Sep with
    | none => (.panic, s.DigestMethod, mem)
    | some li =>
      let value := signed.sliceTo li
      let sig := signed.sliceFrom (li + s.Sep.length)
      match s.VerifyM z mem value sig with
      | (.panic, d, mem) => (.panic, d, mem)
      | (.ret (ok, _), d, mem) =>
        if ok == true then (.ret (value, none), d, mem)
        else (.ret (Slice.nil, some (.signatureMismatch (sig.bytes mem))), d, mem)

/-- Signature.UnsignB64 on the window `signed` of `mem`. -/
def Signature.UnsignB64M (z : Zlib) (s : Signature) (mem : Bytes) (signed : Slice) :
    Outcome (Bytes × Option Error) × Hash × Bytes :=
  match s.UnsignM z mem signed with
  | (.panic, d, mem) => (.panic, d, mem)
  | (.ret (_, some err), d, mem) => (.ret ([], some err), d, mem)
  | (.ret (b, none), d, mem) => ((base64DecodeM z mem b).1, d, (base64DecodeM z mem b).2)

/-- TimestampSignature.Unsign on the window `value` of `mem`, the clock reading `unix`. -/
def TimestampSignature.UnsignM (z : Zlib) (s : TimestampSignature) (unix : Nat)
    (mem : Bytes) (value : Slice) (maxAge : Nat) :
    Outcome (Slice × Option Error) × Hash × Bytes :=
  match s.toSignature.UnsignM z mem value with
  | (.panic, d, mem) => (.panic, d, mem)
  | (.ret (_, some err), d, mem) => (.ret (Slice.nil, some err), d, mem)
  | (.ret (result, none), d, mem) =>
    if !Contains (result.bytes mem) s.Sep then
      (.ret (Slice.nil, some .timestampMissing), d, mem)
    else
      match LastIndex (result.bytes mem) s.Sep with
      | none => (.panic, d, mem)
      | some li =>
        let val := result.sliceTo li
        let ts := result.sliceFrom (li + s.Sep.length)
        match base64DecodeM z mem ts with
        | (.panic, mem) => (.panic, d, mem)
        | (.ret (_, some err), mem) => (.ret (Slice.nil, some err), d, mem)
        | (.ret (sig, none), mem) =>
          match readUint32 sig with
          | (_, some err) => (.ret (Slice.nil, some err), d, mem)
          | (timestamp, none) =>
            let age := (getTimestamp unix + 4294967296 - timestamp) % 4294967296
            if maxAge > 0 ∧ age > maxAge then
              (.ret (Slice.nil, some (.signatureAge age maxAge)), d, mem)
            else (.ret (val, none), d, mem)

/-- TimestampSignature.UnsignB64 on the window `signed` of `mem`. -/
def TimestampSignature.UnsignB64M (z : Zlib) (s : TimestampSignature) (unix : Nat)
    (mem : Bytes) (signed : Slice) (maxAge : Nat) :
    Outcome (Bytes × Option Error) × Hash × Bytes :=
  match s.UnsignM z unix mem signed maxAge with
  | (.panic, d, mem) => (.panic, d, mem)
  | (.ret (_, some err), d, mem) => (.ret ([], some err), d, mem)
  | (.ret (b, none), d, mem) => ((base64DecodeM z mem b).1, d, (base64DecodeM z mem b).2)

/-- The window lies inside the array: len ≤ cap and the capacity ends within `mem`. -/
def Slice.valid (mem : Bytes) (s : Slice) : Prop := s.len ≤ s.cap ∧ s.off + s.cap ≤ mem.length

def Buf.valid (mem : Bytes) : Buf → Prop
  | .window s => s.valid mem
  | .fresh _ => True

/-! # Theorems -/

/-! ## package bytes -/

theorem HasPrefix_iff (s sep : Bytes) : HasPrefix s sep = true ↔ ∃ t, s = sep ++ t := by
  induction sep generalizing s with
  | nil => simp [HasPrefix]
  | cons d sep ih =>
    cases s with
    | nil => simp [HasPrefix]
    | cons c s =>
      simp only [HasPrefix, Bool.and_eq_true, beq_iff_eq, ih, List.cons_append, List.cons.injEq]
      constructor
      · rintro ⟨h, t, ht⟩
        exact ⟨t, h, ht⟩
      · rintro ⟨t, h, ht⟩
        exact ⟨h, t, ht⟩

theorem HasPrefix_self_append (sep t : Bytes) : HasPrefix (sep ++ t) sep = true :=
  (HasPrefix_iff _ _).2 ⟨t, rfl⟩

theorem HasPrefix_length {s sep : Bytes} (h : HasPrefix s sep = true) : sep.length ≤ s.length := by
  obtain ⟨t, rfl⟩ := (HasPrefix_iff _ _).1 h
  simp

/-- LastIndex finds nothing exactly when sep starts at no position of s. -/
theorem LastIndex_eq_none (s sep : Bytes) :
    LastIndex s sep = none ↔ ∀ j, j ≤ s.length → HasPrefix (s.drop j) sep = false := by
  induction s with
  | nil =>
    simp only [LastIndex, List.length_nil, Nat.le_zero_eq, forall_eq, List.drop_nil]
    cases HasPrefix [] sep <;> simp
  | cons c s ih =>
    simp only [LastIndex]
    constructor
    · intro h j hj
      cases hl : LastIndex s sep with
      | some i => simp [hl] at h
      | none =>
        simp only [hl] at h
        cases j with
        | zero =>
          cases hp : HasPrefix (c :: s) sep with
          | true => simp [hp] at h
          | false => simpa using hp
        | succ j =>
          simp only [List.length_cons, Nat.add_le_add_iff_right] at hj
          simpa using (ih.1 hl) j hj
    · intro h
      have h1 : LastIndex s sep = none := by
        apply ih.2
        intro j hj
        simpa using h (j + 1) (by simpa using hj)
      have h0 : HasPrefix (c :: s) sep = false := by simpa using h 0 (Nat.zero_le _)
      simp [h1, h0]

/-- An index LastIndex finds is a position where sep starts, and sep starts at no later one. -/
theorem LastIndex_eq_some {s sep : Bytes} {i : Nat} (h : LastIndex s sep = some i) :
    i ≤ s.length ∧ HasPrefix (s.drop i) sep = true ∧
      ∀ j, i < j → j ≤ s.length → HasPrefix (s.drop j) sep = false := by
  induction s generalizing i with
  | nil =>
    simp only [LastIndex] at h
    cases hp : HasPrefix [] sep with
    | false => simp [hp] at h
    | true =>
      simp only [hp, if_true, Option.some.injEq] at h
      subst h
      refine ⟨Nat.le_refl _, by simpa using hp, ?_⟩
      intro j hj hj2
      simp at hj2
      omega
  | cons c s ih =>
    simp only [LastIndex] at h
    cases hl : LastIndex s sep with
    | some k =>
      simp only [hl, Option.some.injEq] at h
      subst h
      obtain ⟨h1, h2, h3⟩ := ih hl
      refine ⟨by simpa using h1, by simpa using h2, ?_⟩
      intro j hj hj2
      cases j with
      | zero => omega
      | succ j =>
        simp only [List.length_cons, Nat.add_le_add_iff_right] at hj2
        simpa using h3 j (by omega) hj2
    | none =>
      simp only [hl] at h
      cases hp : HasPrefix (c :: s) sep with
      | false => simp [hp] at h
      | true =>
        simp only [hp, if_true, Option.some.injEq] at h
        subst h
        refine ⟨Nat.zero_le _, by simpa using hp, ?_⟩
        intro j hj hj2
        cases j with
        | zero => omega
        | succ j =>
          simp only [List.length_cons, Nat.add_le_add_iff_right] at hj2
          simpa using ((LastIndex_eq_none s sep).1 hl) j hj2

/-- Index finds nothing exactly when sep starts at no position of s. -/
theorem Index_eq_none (s sep : Bytes) :
    Index s sep = none ↔ ∀ j, j ≤ s.length → HasPrefix (s.drop j) sep = false := by
  induction s with
  | nil =>
    simp only [Index, List.length_nil, Nat.le_zero_eq, forall_eq, List.drop_nil]
    cases HasPrefix [] sep <;> simp
  | cons c s ih =>
    simp only [Index]
    cases hp : HasPrefix (c :: s) sep with
    | true =>
      simp only [if_true, reduceCtorEq, false_iff, not_forall]
      exact ⟨0, Nat.zero_le _, by simpa using hp⟩
    | false =>
      simp only [Bool.false_eq_true, if_false, Option.map_eq_none', ih]
      constructor
      · intro h j hj
        cases j with
        | zero => simpa using hp
        | succ j =>
          simp only [List.length_cons, Nat.add_le_add_iff_right] at hj
          simpa using h j hj
      · intro h j hj
        simpa using h (j + 1) (by simpa using hj)

/-- Contains and LastIndex agree on whether sep occurs. -/
theorem Contains_iff_LastIndex (s sep : Bytes) :
    Contains s sep = true ↔ LastIndex s sep ≠ none := by
  rw [Ne, LastIndex_eq_none, ← Index_eq_none, Contains]
  cases Index s sep <;> simp

theorem LastIndex_append_of_some (a : Bytes) {b sep : Bytes} {i : Nat}
    (h : LastIndex b sep = some i) : LastIndex (a ++ b) sep = some (a.length + i) := by
  induction a with
  | nil => simpa using h
  | cons c a ih =>
    have e : a.length + i + 1 = a.length + 1 + i := by omega
    simp [LastIndex, ih, e]

/-! ## encoding/base64 -/

theorem encChar_mem {i : Nat} (h : i < 64) : encChar i ∈ encodeURL := by
  have : ∀ k : Fin 64, encChar k.val ∈ encodeURL := by decide
  exact this ⟨i, h⟩

theorem decodeMap_encChar {i : Nat} (h : i < 64) : decodeMap (encChar i) = some i := by
  have : ∀ k : Fin 64, decodeMap (encChar k.val) = some k.val := by decide
  exact this ⟨i, h⟩

theorem decodeMap_eq_some {c : Byte} {v : Nat} (h : decodeMap c = some v) :
    v < 64 ∧ encChar v = c ∧ c ∈ encodeURL := by
  unfold decodeMap at h
  split at h
  · rename_i hc
    simp only [Option.some.injEq] at h
    subst h
    refine ⟨?_, ?_, hc⟩
    · have : encodeURL.length = 64 := by decide
      rw [← this]
      exact List.indexOf_lt_length.2 hc
    · unfold encChar
      rw [List.getD_eq_getElem?_getD, List.getElem?_eq_getElem (List.indexOf_lt_length.2 hc)]
      simp
  · simp at h

theorem decodeMap_eq_none {c : Byte} : decodeMap c = none ↔ c ∉ encodeURL := by
  unfold decodeMap
  split <;> simp [*]

theorem URLEncode_eq (b : Bytes) :
    URLEncode b = rawEncode b ++ List.replicate ((3 - b.length % 3) % 3) padChar := by
  induction b using URLEncode.induct with
  | case1 a b c rest ih =>
    have e : (a :: b :: c :: rest).length % 3 = rest.length % 3 := by
      simp only [List.length_cons]
      omega
    simp only [URLEncode, rawEncode, ih, e, List.cons_append]
  | case2 a b => rfl
  | case3 a => rfl
  | case4 => rfl

theorem rawEncode_alpha (b : Bytes) : ∀ c ∈ rawEncode b, c ∈ encodeURL := by
  induction b using rawEncode.induct with
  | case1 a b c rest ih =>
    intro x hx
    simp only [rawEncode, List.mem_cons] at hx
    rcases hx with rfl | rfl | rfl | rfl | hx
    · exact encChar_mem (by omega)
    · exact encChar_mem (by omega)
    · exact encChar_mem (by omega)
    · exact encChar_mem (by omega)
    · exact ih x hx
  | case2 a b =>
    intro x hx
    simp only [rawEncode, List.mem_cons, List.mem_singleton, List.not_mem_nil, or_false] at hx
    rcases hx with rfl | rfl | rfl
    · exact encChar_mem (by omega)
    · exact encChar_mem (by omega)
    · exact encChar_mem (by omega)
  | case3 a =>
    intro x hx
    simp only [rawEncode, List.mem_cons, List.mem_singleton, List.not_mem_nil, or_false] at hx
    rcases hx with rfl | rfl
    · exact encChar_mem (by omega)
    · exact encChar_mem (by omega)
  | case4 => simp [rawEncode]

theorem rawEncode_length (b : Bytes) : (rawEncode b).length = (4 * b.length + 2) / 3 := by
  induction b using rawEncode.induct with
  | case1 a b c rest ih =>
    simp only [rawEncode, List.length_cons, ih]
    omega
  | case2 a b => simp [rawEncode]
  | case3 a => simp [rawEncode]
  | case4 => rfl

theorem rawEncode_ne_nil {b : Bytes} (h : b ≠ []) : rawEncode b ≠ [] := by
  intro e
  have := rawEncode_length b
  rw [e] at this
  cases b with
  | nil => exact h rfl
  | cons a t =>
    simp only [List.length_nil, List.length_cons] at this
    omega

theorem padChar_not_alpha : padChar ∉ encodeURL := by decide

/-- The loop of base64Encode cuts the padding off a string whose last bytes, and no others,
are padding characters. -/
theorem stripLoop_spec (core : Bytes) (hc : ∀ c ∈ core, c ≠ padChar) (hne : core ≠ []) :
    ∀ (i k : Nat), (k = 0 ∨ i + 1 = core.length + k) → i < core.length + k →
      stripLoop i (core ++ List.replicate k padChar) = core := by
  intro i
  induction i with
  | zero =>
    intro k hk _
    have : k = 0 := by
      rcases hk with h | h
      · exact h
      · have : 0 < core.length := List.length_pos.2 hne
        omega
    subst this
    simp [stripLoop]
  | succ i ih =>
    intro k hk hlt
    simp only [stripLoop]
    rcases Nat.eq_zero_or_pos k with h0 | hpos
    · subst h0
      simp only [List.replicate_zero, List.append_nil, Nat.add_zero] at hlt ⊢
      have hget : core.get? (i + 1) ≠ some padChar := by
        intro e
        exact hc _ (List.get?_mem e) rfl
      rw [if_neg hget]
      simpa using ih 0 (Or.inl rfl) (by simpa using (by omega : i < core.length))
    · have hk' : i + 1 + 1 = core.length + k := by
        rcases hk with h | h
        · omega
        · exact h
      have hget : (core ++ List.replicate k padChar).get? (i + 1) = some padChar := by
        rw [List.get?_eq_getElem?, List.getElem?_append_right (by omega)]
        rw [List.getElem?_replicate]
        simp
        omega
      rw [if_pos hget]
      have htake : (core ++ List.replicate k padChar).take (i + 1)
          = core ++ List.replicate (k - 1) padChar := by
        rw [List.take_append_eq_append_take]
        rw [List.take_of_length_le (by omega)]
        simp [List.take_replicate]
        omega
      rw [htake]
      exact ih (k - 1) (Or.inr (by omega)) (by omega)

theorem base64Encode_eq (b : Bytes) : base64Encode b = rawEncode b := by
  unfold base64Encode
  simp only
  rw [URLEncode_eq]
  by_cases hb : b = []
  · subst hb
    rfl
  · have hne := rawEncode_ne_nil hb
    have hpos : 0 < (rawEncode b).length := List.length_pos.2 hne
    apply stripLoop_spec (rawEncode b) _ hne
    · right
      simp only [List.length_append, List.length_replicate]
      omega
    · simp only [List.length_append, List.length_replicate]
      omega
    · intro c hc e
      subst e
      exact padChar_not_alpha (rawEncode_alpha b _ hc)

/-- The padding loop of base64Decode stops after (4 - len(b) % 4) % 4 rounds, with that
many padding characters appended. -/
theorem padLoop_spec (b : Bytes) :
    padLoop 4 0 b =
      ((4 - b.length % 4) % 4, b ++ List.replicate ((4 - b.length % 4) % 4) padChar) := by
  have h : b.length % 4 = 0 ∨ b.length % 4 = 1 ∨ b.length % 4 = 2 ∨ b.length % 4 = 3 := by
    omega
  rcases h with h | h | h | h
  · simp [padLoop, h]
  · have h1 : (b.length + 1) % 4 = 2 := by omega
    have h2 : (b.length + 1 + 1) % 4 = 3 := by omega
    have h3 : (b.length + 1 + 1 + 1) % 4 = 0 := by omega
    simp [padLoop, h, h1, h2, h3, List.replicate]
  · have h1 : (b.length + 1) % 4 = 3 := by omega
    have h2 : (b.length + 1 + 1) % 4 = 0 := by omega
    simp [padLoop, h, h1, h2, List.replicate]
  · have h1 : (b.length + 1) % 4 = 0 := by omega
    simp [padLoop, h, h1, List.replicate]

/-- The padding loop stops because its condition fails, not because the gas runs out. -/
theorem padLoop_exit (b : Bytes) :
    ¬ ((padLoop 4 0 b).1 < (padLoop 4 0 b).2.length % 4) := by
  rw [padLoop_spec]
  simp only [List.length_append, List.length_replicate]
  omega

theorem ofNat_eq_of_val (a : Byte) (n : Nat) (h : n = a.val) : (Fin.ofNat n : Byte) = a := by
  apply Fin.ext
  subst h
  simp [Fin.ofNat]

theorem padChar_decodeMap : decodeMap padChar = none := by decide

theorem decodeLoop_cons (acc : List Nat) (c : Byte) (rest : Bytes) :
    decodeLoop acc (c :: rest) =
      match decodeMap c with
      | some v =>
        if acc.length = 3 then (decodeLoop [] rest).map (quantum (acc ++ [v]) ++ ·)
        else decodeLoop (acc ++ [v]) rest
      | none =>
        if c = 10 ∨ c = 13 then decodeLoop acc rest
        else if c ≠ padChar then none
        else
          match acc.length with
          | 0 => none
          | 1 => none
          | 2 =>
            match skipNewlines rest with
            | [] => none
            | c2 :: rest2 =>
              if c2 ≠ padChar then none
              else if skipNewlines rest2 = [] then some (quantum acc) else none
          | _ => if skipNewlines rest = [] then some (quantum acc) else none := by
  cases acc <;> rfl

/-- A character of the alphabet adds its six-bit value to the quantum being read. -/
theorem decodeLoop_alpha {c : Byte} {v : Nat} (h : decodeMap c = some v) (acc : List Nat)
    (rest : Bytes) :
    decodeLoop acc (c :: rest) =
      if acc.length = 3 then (decodeLoop [] rest).map (quantum (acc ++ [v]) ++ ·)
      else decodeLoop (acc ++ [v]) rest := by
  rw [decodeLoop_cons, h]

theorem quantum_four (a b c : Byte) :
    quantum [a.val / 4, a.val % 4 * 16 + b.val / 16, b.val % 16 * 4 + c.val / 64, c.val % 64]
      = [a, b, c] := by
  simp only [quantum, List.cons.injEq, and_true]
  exact ⟨ofNat_eq_of_val _ _ (by omega), ofNat_eq_of_val _ _ (by omega),
    ofNat_eq_of_val _ _ (by omega)⟩

theorem quantum_three (a b : Byte) :
    quantum [a.val / 4, a.val % 4 * 16 + b.val / 16, b.val % 16 * 4] = [a, b] := by
  simp only [quantum, List.cons.injEq, and_true]
  exact ⟨ofNat_eq_of_val _ _ (by omega), ofNat_eq_of_val _ _ (by omega)⟩

theorem quantum_two (a : Byte) : quantum [a.val / 4, a.val % 4 * 16] = [a] := by
  simp only [quantum, List.cons.injEq, and_true]
  exact ofNat_eq_of_val _ _ (by omega)

theorem URLDecode_URLEncode (b : Bytes) : URLDecode (URLEncode b) = some b := by
  unfold URLDecode
  induction b using URLEncode.induct with
  | case1 a b c rest ih =>
    have h1 := decodeMap_encChar (i := a.val / 4) (by omega)
    have h2 := decodeMap_encChar (i := a.val % 4 * 16 + b.val / 16) (by omega)
    have h3 := decodeMap_encChar (i := b.val % 16 * 4 + c.val / 64) (by omega)
    have h4 := decodeMap_encChar (i := c.val % 64) (by omega)
    simp [URLEncode, decodeLoop_alpha h1, decodeLoop_alpha h2, decodeLoop_alpha h3,
      decodeLoop_alpha h4, ih, quantum_four]
  | case2 a b =>
    have h1 := decodeMap_encChar (i := a.val / 4) (by omega)
    have h2 := decodeMap_encChar (i := a.val % 4 * 16 + b.val / 16) (by omega)
    have h3 := decodeMap_encChar (i := b.val % 16 * 4) (by omega)
    have hp : padChar ≠ 10 ∧ padChar ≠ 13 := by decide
    simp [URLEncode, decodeLoop_alpha h1, decodeLoop_alpha h2, decodeLoop_alpha h3,
      decodeLoop_cons _ padChar, padChar_decodeMap, hp.1, hp.2, skipNewlines, quantum_three]
  | case3 a =>
    have h1 := decodeMap_encChar (i := a.val / 4) (by omega)
    have h2 := decodeMap_encChar (i := a.val % 4 * 16) (by omega)
    have hp : padChar ≠ 10 ∧ padChar ≠ 13 := by decide
    simp [URLEncode, decodeLoop_alpha h1, decodeLoop_alpha h2, decodeLoop_cons _ padChar,
      padChar_decodeMap, hp.1, hp.2, skipNewlines, quantum_two]
  | case4 => rfl

theorem dot_not_alpha : (46 : Byte) ∉ encodeURL := by decide

/-- What base64Decode does with a non-empty input that does not start with the marker. -/
theorem base64Decode_plain (z : Zlib) (b : Bytes) (hne : b ≠ []) (h0 : b.head? ≠ some 46) :
    base64Decode z b =
      match URLDecode (b ++ List.replicate ((4 - b.length % 4) % 4) padChar) with
      | none => .ret ([], some .corruptInput)
      | some dst => .ret (dst, none) := by
  cases b with
  | nil => exact absurd rfl hne
  | cons b0 tl =>
    have hb : (b0 == 46) = false := by
      simpa using h0
    simp only [base64Decode, hb, Bool.false_eq_true, if_false, padLoop_spec]

/-- What base64Decode does with an input that starts with the marker. -/
theorem base64Decode_marker (z : Zlib) (tl : Bytes) :
    base64Decode z (46 :: tl) =
      match URLDecode (tl ++ List.replicate ((4 - tl.length % 4) % 4) padChar) with
      | none => .ret ([], some .corruptInput)
      | some dst => .ret (z.decompress dst) := by
  simp only [base64Decode, beq_self_eq_true, if_true, padLoop_spec]

theorem rawEncode_pad (m : Bytes) :
    rawEncode m ++ List.replicate ((4 - (rawEncode m).length % 4) % 4) padChar = URLEncode m := by
  rw [URLEncode_eq, rawEncode_length]
  congr 2
  have h : m.length % 3 = 0 ∨ m.length % 3 = 1 ∨ m.length % 3 = 2 := by omega
  rcases h with h | h | h <;> omega

theorem rawEncode_head_ne_dot (m : Bytes) : (rawEncode m).head? ≠ some 46 := by
  intro h
  have hm : (46 : Byte) ∈ rawEncode m := List.mem_of_mem_head? h
  exact dot_not_alpha (rawEncode_alpha m _ hm)

/-- Decoding undoes base64Encode on every non-empty byte string. -/
theorem base64Decode_base64Encode (z : Zlib) (m : Bytes) (hne : m ≠ []) :
    base64Decode z (base64Encode m) = .ret (m, none) := by
  rw [base64Encode_eq, base64Decode_plain z _ (rawEncode_ne_nil hne) (rawEncode_head_ne_dot m),
    rawEncode_pad, URLDecode_URLEncode]

/-! ## crypto/subtle -/

theorem Byte_xor_eq_zero (a b : Byte) : a ^^^ b = 0 ↔ a = b := by
  constructor
  · intro h
    have h1 : (a ^^^ b).val = 0 := by rw [h]; rfl
    have h2 : (a ^^^ b).val = (a.val ^^^ b.val) % 256 := rfl
    have h3 : a.val ^^^ b.val < 256 := Nat.xor_lt_two_pow (n := 8) a.isLt b.isLt
    rw [h2, Nat.mod_eq_of_lt h3] at h1
    exact Fin.ext (Nat.xor_eq_zero.1 h1)
  · rintro rfl
    apply Fin.ext
    show (a.val ^^^ a.val) % 256 = 0
    simp

theorem Nat_or_eq_zero {a b : Nat} (h : a ||| b = 0) : a = 0 ∧ b = 0 := by
  have hb : ∀ i, (a ||| b).testBit i = false := by
    intro i
    rw [h]
    exact Nat.zero_testBit i
  simp only [Nat.testBit_or, Bool.or_eq_false_iff] at hb
  exact ⟨Nat.eq_of_testBit_eq (fun i => by simp [(hb i).1]),
    Nat.eq_of_testBit_eq (fun i => by simp [(hb i).2])⟩

theorem Byte_or_eq_zero (a b : Byte) : a ||| b = 0 ↔ a = 0 ∧ b = 0 := by
  have h2 : (a ||| b).val = (a.val ||| b.val) % 256 := rfl
  have h3 : a.val ||| b.val < 256 := Nat.or_lt_two_pow (n := 8) a.isLt b.isLt
  constructor
  · intro h
    have h1 : (a ||| b).val = 0 := by rw [h]; rfl
    rw [h2, Nat.mod_eq_of_lt h3] at h1
    have := Nat_or_eq_zero h1
    exact ⟨Fin.ext this.1, Fin.ext this.2⟩
  · rintro ⟨rfl, rfl⟩
    rfl

theorem foldl_or_eq_zero (l : List Byte) (v : Byte) :
    l.foldl (· ||| ·) v = 0 ↔ v = 0 ∧ ∀ x ∈ l, x = 0 := by
  induction l generalizing v with
  | nil => simp
  | cons x l ih =>
    simp only [List.foldl_cons, ih, Byte_or_eq_zero, List.mem_cons, forall_eq_or_imp]
    tauto

theorem zipWith_xor_zero (x y : Bytes) (h : x.length = y.length) :
    (∀ c ∈ List.zipWith (· ^^^ ·) x y, c = 0) ↔ x = y := by
  induction x generalizing y with
  | nil =>
    cases y with
    | nil => simp
    | cons b y => simp at h
  | cons a x ih =>
    cases y with
    | nil => simp at h
    | cons b y =>
      simp only [List.length_cons, Nat.add_right_cancel_iff] at h
      simp only [List.zipWith_cons_cons, List.mem_cons, forall_eq_or_imp, Byte_xor_eq_zero,
        ih y h, List.cons.injEq]

/-- ConstantTimeCompare returns 1 exactly on equal slices. -/
theorem ConstantTimeCompare_eq_one (x y : Bytes) : ConstantTimeCompare x y = 1 ↔ x = y := by
  unfold ConstantTimeCompare
  by_cases hl : x.length = y.length
  · simp only [hl, ne_eq, not_true_eq_false, if_false]
    have key : (List.zipWith (· ^^^ ·) x y).foldl (· ||| ·) (0 : Byte) = 0 ↔ x = y := by
      rw [foldl_or_eq_zero]
      simpa using zipWith_xor_zero x y hl
    by_cases hv : (List.zipWith (· ^^^ ·) x y).foldl (· ||| ·) (0 : Byte) = 0
    · rw [if_pos hv]
      exact ⟨fun _ => key.1 hv, fun _ => rfl⟩
    · rw [if_neg hv]
      exact ⟨fun h => absurd h (by decide), fun e => absurd (key.2 e) hv⟩
  · simp only [ne_eq, hl, not_false_eq_true, if_true]
    constructor
    · intro h
      omega
    · intro h
      exact absurd (congrArg List.length h) hl

/-! ## the separator and the right-most split -/

/-- A list with an element outside `P` splits at the last such element. -/
theorem split_at_last {α : Type} (P : α → Prop) (l : List α) (h : ∃ c ∈ l, ¬ P c) :
    ∃ a x b, l = a ++ x :: b ∧ ¬ P x ∧ ∀ y ∈ b, P y := by
  induction l with
  | nil => simp at h
  | cons c l ih =>
    by_cases ht : ∃ y ∈ l, ¬ P y
    · obtain ⟨a, x, b, hl, hx, hb⟩ := ih ht
      exact ⟨c :: a, x, b, by simp [hl], hx, hb⟩
    · have hall : ∀ y ∈ l, P y := by
        intro y hy
        by_contra hn
        exact ht ⟨y, hy, hn⟩
      obtain ⟨y, hy, hny⟩ := h
      have hc : ¬ P c := by
        rcases List.mem_cons.1 hy with rfl | hy'
        · exact hny
        · exact absurd (hall y hy') hny
      exact ⟨[], c, l, rfl, hc, hall⟩

/-- A separator with a byte outside the alphabet does not start again later in
`sep ++ e` when `e` is made of alphabet characters. -/
theorem no_later_start (sep e p t : Bytes) (hsep : ∃ c ∈ sep, c ∉ encodeURL)
    (he : ∀ c ∈ e, c ∈ encodeURL) (hp : p ≠ []) : sep ++ e ≠ p ++ sep ++ t := by
  obtain ⟨a, x, b, rfl, hx, hb⟩ := split_at_last (· ∈ encodeURL) sep hsep
  intro heq
  have hplen : 0 < p.length := List.length_pos.2 hp
  have hr : (p ++ (a ++ x :: b) ++ t)[p.length + a.length]? = some x := by
    rw [List.append_assoc, List.append_assoc, List.getElem?_append_right (by omega)]
    rw [List.getElem?_append_right (by omega)]
    have : p.length + a.length - p.length - a.length = 0 := by omega
    rw [this]
    simp
  have hl : (a ++ x :: b ++ e)[p.length + a.length]? = (b ++ e)[p.length - 1]? := by
    rw [List.append_assoc, List.getElem?_append_right (by omega)]
    have : p.length + a.length - a.length = (p.length - 1) + 1 := by omega
    rw [this]
    simp
  rw [heq, hr] at hl
  have hmem : x ∈ b ++ e := List.getElem?_mem hl.symm
  rcases List.mem_append.1 hmem with h | h
  · exact hx (hb x h)
  · exact hx (he x h)

/-- The right-most separator of `v ‖ sep ‖ e` is the one written between `v` and `e`,
when sep has a byte outside the base64 alphabet and `e` is made of alphabet characters. -/
theorem LastIndex_sepJoin (v sep e : Bytes) (hsep : ∃ c ∈ sep, c ∉ encodeURL)
    (he : ∀ c ∈ e, c ∈ encodeURL) : LastIndex (v ++ sep ++ e) sep = some v.length := by
  rw [List.append_assoc]
  have h0 : LastIndex (sep ++ e) sep = some 0 := by
    cases hs : sep with
    | nil =>
      rw [hs] at hsep
      simp at hsep
    | cons c sep' =>
      have hnone : LastIndex (sep' ++ e) (c :: sep') = none := by
        rw [LastIndex_eq_none]
        intro j _
        by_contra hpre
        simp only [Bool.not_eq_false] at hpre
        obtain ⟨t, ht⟩ := (HasPrefix_iff _ _).1 hpre
        apply no_later_start sep e (c :: (sep' ++ e).take j) t hsep he (by simp)
        rw [hs]
        simp only [List.cons_append, List.cons.injEq, true_and, List.append_assoc]
        rw [← List.cons_append, ← ht, List.take_append_drop]
      rw [List.cons_append, LastIndex, hnone]
      simp only
      rw [← List.cons_append, HasPrefix_self_append]
      rfl
  simpa using LastIndex_append_of_some v h0

theorem Contains_sepJoin (v sep e : Bytes) : Contains (v ++ sep ++ e) sep = true := by
  rw [Contains_iff_LastIndex, Ne, LastIndex_eq_none]
  intro h
  have := h v.length (by simp)
  rw [List.append_assoc, List.drop_left, HasPrefix_self_append] at this
  exact absurd this (by decide)

/-- The last place the separator starts in `v ‖ sep` is len(v), for every separator
(the empty one included). -/
theorem LastIndex_append_self (v sep : Bytes) : LastIndex (v ++ sep) sep = some v.length := by
  have h0 : LastIndex sep sep = some 0 := by
    cases sep with
    | nil => rfl
    | cons c sep' =>
      have hnone : LastIndex sep' (c :: sep') = none := by
        rw [LastIndex_eq_none]
        intro j _
        by_contra hpre
        simp only [Bool.not_eq_false] at hpre
        have := HasPrefix_length hpre
        simp at this
        omega
      rw [LastIndex, hnone]
      simp only
      have := HasPrefix_self_append (c :: sep') []
      rw [List.append_nil] at this
      rw [this]
      rfl
  simpa using LastIndex_append_of_some v h0

/-! ## the digest instance -/

theorem Hash.same_refl (d : Hash) : d.same d := ⟨rfl, rfl, rfl⟩

theorem Hash.same_symm {d d' : Hash} (h : d.same d') : d'.same d :=
  ⟨h.1.symm, h.2.1.symm, h.2.2.symm⟩

theorem Hash.same_trans {d d' d'' : Hash} (h : d.same d') (h' : d'.same d'') : d.same d'' :=
  ⟨h.1.trans h'.1, h.2.1.trans h'.2.1, h.2.2.trans h'.2.2⟩

theorem Hash.Reset_congr {d d' : Hash} (h : d.same d') : d.Reset = d'.Reset := by
  obtain ⟨h1, h2, h3⟩ := h
  cases d
  cases d'
  simp only [Hash.Reset] at *
  simp [h1, h2, h3]

theorem Hash.same_Reset (d : Hash) : d.Reset.same d := ⟨rfl, rfl, rfl⟩

theorem Hash.same_Write (d : Hash) (p : Bytes) : (d.Write p).same d := ⟨rfl, rfl, rfl⟩

theorem hmac.steps_same (d : Hash) (key msg : Bytes) : (hmac.steps d key msg).2.same d := by
  unfold hmac.steps Hash.same
  simp only [Hash.Reset, Hash.Write]
  split <;> simp

/-- The MAC is a value of the digest function. -/
theorem hmac.steps_mem_range (d : Hash) (key msg : Bytes) :
    ∃ x, (hmac.steps d key msg).1 = d.digest x := by
  unfold hmac.steps
  simp only [Hash.Sum, Hash.Reset, Hash.Write]
  split <;> exact ⟨_, rfl⟩

theorem hmac.sumWith_comparable {d : Hash} (h : d.comparable = true) (key msg : Bytes) :
    hmac.sumWith d key msg = (.panic, d) := by
  unfold hmac.sumWith
  rw [if_pos h]

theorem hmac.sumWith_accepted {d : Hash} (h : d.comparable = false) (key msg : Bytes) :
    hmac.sumWith d key msg = (.ret (hmac.steps d key msg).1, (hmac.steps d key msg).2) := by
  unfold hmac.sumWith
  rw [if_neg (by simp [h])]

theorem hmac.sumWith_same (d : Hash) (key msg : Bytes) : (hmac.sumWith d key msg).2.same d := by
  cases h : d.comparable with
  | true =>
    rw [hmac.sumWith_comparable h]
    exact Hash.same_refl d
  | false =>
    rw [hmac.sumWith_accepted h]
    exact hmac.steps_same d key msg

theorem HMACAlgorithm.GetSignature_congr {d d' : Hash} (h : d.same d') (key value : Bytes) :
    HMACAlgorithm.GetSignature d key value = HMACAlgorithm.GetSignature d' key value := by
  unfold HMACAlgorithm.GetSignature
  rw [Hash.Reset_congr h]

theorem HMACAlgorithm.GetSignature_same (d : Hash) (key value : Bytes) :
    (HMACAlgorithm.GetSignature d key value).2.same d := by
  unfold HMACAlgorithm.GetSignature
  exact Hash.same_trans (hmac.sumWith_same d.Reset key value) (Hash.same_Reset d)

/-- With a digest of a comparable type the default algorithm panics in hmac.New. -/
theorem HMACAlgorithm.GetSignature_comparable {d : Hash} (h : d.comparable = true)
    (key value : Bytes) : (HMACAlgorithm.GetSignature d key value).1 = .panic := by
  unfold HMACAlgorithm.GetSignature
  rw [hmac.sumWith_comparable (d := d.Reset) h]

/-- With a digest hmac.New accepts, the default algorithm returns a MAC, a value of the
digest function. -/
theorem HMACAlgorithm.GetSignature_accepted {d : Hash} (h : d.comparable = false)
    (key value : Bytes) :
    ∃ mac, (HMACAlgorithm.GetSignature d key value).1 = .ret mac ∧ ∃ x, mac = d.digest x := by
  unfold HMACAlgorithm.GetSignature
  rw [hmac.sumWith_accepted (d := d.Reset) h]
  exact ⟨_, rfl, hmac.steps_mem_range d.Reset key value⟩

/-- The default algorithm compares the candidate with the MAC it computes. -/
theorem HMACAlgorithm.VerifySignature_of_ret {d d' : Hash} {key value mac : Bytes}
    (h : HMACAlgorithm.GetSignature d key value = (.ret mac, d')) (sig : Bytes) :
    HMACAlgorithm.VerifySignature d key value sig = (.ret (decide (sig = mac)), d') := by
  unfold HMACAlgorithm.VerifySignature
  rw [h]
  simp only [Prod.mk.injEq, Outcome.ret.injEq, and_true]
  by_cases hs : sig = mac
  · simp [hs, (ConstantTimeCompare_eq_one mac mac).2 rfl]
  · have : ConstantTimeCompare sig mac ≠ 1 := fun e => hs ((ConstantTimeCompare_eq_one _ _).1 e)
    simp [hs, this]

theorem HMACAlgorithm.VerifySignature_of_panic {d : Hash} {key value : Bytes}
    (h : (HMACAlgorithm.GetSignature d key value).1 = .panic) (sig : Bytes) :
    (HMACAlgorithm.VerifySignature d key value sig).1 = .panic := by
  unfold HMACAlgorithm.VerifySignature
  rcases hg : HMACAlgorithm.GetSignature d key value with ⟨o, d'⟩
  rw [hg] at h
  simp only at h
  subst h
  rfl

theorem HMACAlgorithm.VerifySignature_same (d : Hash) (key value sig : Bytes) :
    (HMACAlgorithm.VerifySignature d key value sig).2.same d := by
  have := HMACAlgorithm.GetSignature_same d key value
  unfold HMACAlgorithm.VerifySignature
  rcases hg : HMACAlgorithm.GetSignature d key value with ⟨o, d'⟩
  rw [hg] at this
  cases o <;> exact this

theorem HMACAlgorithm_GetSignature_eq (d : Hash) (key value : Bytes) :
    SigningAlgorithm.GetSignature HMACAlgorithm d key value
      = HMACAlgorithm.GetSignature d key value := rfl

theorem HMACAlgorithm_VerifySignature_eq (d : Hash) (key value sig : Bytes) :
    SigningAlgorithm.VerifySignature HMACAlgorithm d key value sig
      = HMACAlgorithm.VerifySignature d key value sig := rfl

/-! ## DeriveKey -/

theorem DeriveKey_same (s : Signature) : s.DeriveKey.2.same s.DigestMethod := by
  unfold Signature.DeriveKey
  have := hmac.sumWith_same s.DigestMethod.Reset s.SecretKey s.Salt
  simp only
  split
  · exact ⟨rfl, rfl, rfl⟩
  · split
    · exact ⟨rfl, rfl, rfl⟩
    · split
      · rcases hg : hmac.sumWith s.DigestMethod.Reset s.SecretKey s.Salt with ⟨o, d'⟩
        rw [hg] at this
        cases o <;> exact Hash.same_trans this (Hash.same_Reset _)
      · split <;> exact ⟨rfl, rfl, rfl⟩

/-- DeriveKey resets the digest first: what the digest held before does not matter. -/
theorem DeriveKey_withDigest (s : Signature) {d : Hash} (h : d.same s.DigestMethod) :
    (s.withDigest d).DeriveKey = s.DeriveKey := by
  unfold Signature.DeriveKey Signature.withDigest
  simp only
  rw [Hash.Reset_congr h]

/-- On a recognised method DeriveKey returns a key and no error, unless the method is
"hmac" and the digest is of a comparable type. -/
theorem DeriveKey_ret {s : Signature} (hr : Recognised s.KeyDerivation)
    (hc : s.KeyDerivation = "hmac" → s.DigestMethod.comparable = false) :
    ∃ k, s.DeriveKey.1 = .ret (k, none) := by
  unfold Signature.DeriveKey
  rcases hr with h | h | h | h
  · simp [h]
  · simp [h]
  · simp only [h]
    simp only [String.reduceEq, if_false, if_true]
    rw [hmac.sumWith_accepted (d := s.DigestMethod.Reset) (hc h)]
    exact ⟨_, rfl⟩
  · simp [h]

/-- With the method "hmac" and a digest of a comparable type DeriveKey panics in hmac.New. -/
theorem DeriveKey_hmac_comparable {s : Signature} (h : s.KeyDerivation = "hmac")
    (hc : s.DigestMethod.comparable = true) : s.DeriveKey.1 = .panic := by
  unfold Signature.DeriveKey
  simp only [h]
  simp only [String.reduceEq, if_false, if_true]
  rw [hmac.sumWith_comparable (d := s.DigestMethod.Reset) hc]

/-- On a recognised method DeriveKey returns no error. -/
theorem DeriveKey_err {s : Signature} (hr : Recognised s.KeyDerivation) (k : Bytes)
    (e : Option Error) (h : s.DeriveKey.1 = .ret (k, e)) : e = none := by
  by_cases hc : s.KeyDerivation = "hmac" → s.DigestMethod.comparable = false
  · obtain ⟨k', hk'⟩ := DeriveKey_ret hr hc
    rw [hk'] at h
    simp only [Outcome.ret.injEq, Prod.mk.injEq] at h
    exact h.2.symm
  · have hh : s.KeyDerivation = "hmac" := by
      by_contra hn
      exact hc (fun a => absurd a hn)
    have hcmp : s.DigestMethod.comparable = true := by
      by_contra hn
      exact hc (fun _ => by simpa using hn)
    rw [DeriveKey_hmac_comparable hh hcmp] at h
    cases h

/-- A pair is its components. -/
theorem pair_eta {α β : Type} (p : α × β) {a : α} (h : p.1 = a) : p = (a, p.2) := by
  subst h
  rfl

/-! ## Get, Sign, Verify, Unsign -/

theorem Get_of_ret {s : Signature} {k mac : Bytes} {d d' : Hash} {value : Bytes}
    (hk : s.DeriveKey = (.ret (k, none), d))
    (hm : s.Algorithm.GetSignature d k value = (.ret mac, d')) :
    s.Get value = (.ret (base64Encode mac, none), d') := by
  unfold Signature.Get
  rw [hk]
  simp only
  rw [hm]

theorem Get_panic_of_key {s : Signature} (hk : s.DeriveKey.1 = .panic) (value : Bytes) :
    (s.Get value).1 = .panic := by
  unfold Signature.Get
  rw [pair_eta _ hk]

theorem Get_panic_of_mac {s : Signature} {k : Bytes} {d : Hash} {value : Bytes}
    (hk : s.DeriveKey = (.ret (k, none), d))
    (hm : (s.Algorithm.GetSignature d k value).1 = .panic) : (s.Get value).1 = .panic := by
  unfold Signature.Get
  rw [hk]
  simp only
  rw [pair_eta _ hm]

theorem Sign_of_Get {s : Signature} {sig : Bytes} {d : Hash} {value : Bytes}
    (h : s.Get value = (.ret (sig, none), d)) :
    s.Sign value = (.ret (value ++ s.Sep ++ sig, none), d) := by
  unfold Signature.Sign
  rw [h]
  rfl

theorem Sign_panic_of_Get {s : Signature} {value : Bytes} (h : (s.Get value).1 = .panic) :
    (s.Sign value).1 = .panic := by
  unfold Signature.Sign
  rw [pair_eta _ h]

theorem Sign_of_ret {s : Signature} {k mac : Bytes} {d d' : Hash} {value : Bytes}
    (hk : s.DeriveKey = (.ret (k, none), d))
    (hm : s.Algorithm.GetSignature d k value = (.ret mac, d')) :
    s.Sign value = (.ret (value ++ s.Sep ++ base64Encode mac, none), d') :=
  Sign_of_Get (Get_of_ret hk hm)

/-- Verify once DeriveKey has returned a key, by the outcome of base64Decode. -/
theorem Verify_of_ret (z : Zlib) {s : Signature} {k : Bytes} {d : Hash}
    (hk : s.DeriveKey = (.ret (k, none), d)) (value sig : Bytes) :
    s.Verify z value sig =
      match base64Decode z sig with
      | .panic => (.panic, d)
      | .ret (_, some err) => (.ret (false, some err), d)
      | .ret (signed, none) =>
        match s.Algorithm.VerifySignature d k value signed with
        | (.panic, d) => (.panic, d)
        | (.ret ok, d) => (.ret (ok, none), d) := by
  unfold Signature.Verify
  rw [hk]

theorem Verify_panic_of_key (z : Zlib) {s : Signature} (hk : s.DeriveKey.1 = .panic)
    (value sig : Bytes) : (s.Verify z value sig).1 = .panic := by
  unfold Signature.Verify
  rw [pair_eta _ hk]

/-- Unsign once the separator is known to occur last at `li`. -/
theorem Unsign_eq (z : Zlib) (s : Signature) (signed : Bytes) {li : Nat}
    (hl : LastIndex signed s.Sep = some li) :
    s.Unsign z signed =
      match s.Verify z (signed.take li) (signed.drop (li + s.Sep.length)) with
      | (.panic, d) => (.panic, d)
      | (.ret (ok, _), d) =>
        if ok == true then (.ret (signed.take li, none), d)
        else (.ret ([], some (.signatureMismatch (signed.drop (li + s.Sep.length)))), d) := by
  have hc : Contains signed s.Sep = true := by
    rw [Contains_iff_LastIndex, hl]
    simp
  unfold Signature.Unsign
  simp only [hc, Bool.not_true, Bool.false_eq_true, if_false, hl]

theorem sha1.beBytes_length (n x : Nat) : (sha1.beBytes n x).length = n := by
  simp [sha1.beBytes]

theorem sha1.sum_length (m : Bytes) : (sha1.sum m).length = 20 := by
  simp [sha1.sum, sha1.beBytes_length]

theorem sha1.sum_ne_nil (m : Bytes) : sha1.sum m ≠ [] := by
  intro h
  have := sha1.sum_length m
  rw [h] at this
  simp at this
/-- Unsign returns `v` on `v ‖ Sep ‖ e` when Sep has a byte outside the alphabet, `e` is a
non-empty run of alphabet characters, and the algorithm accepts what `e` decodes to. -/
theorem Unsign_sepJoin (z : Zlib) (s : Signature) (v e m : Bytes) {k : Bytes} {d d' : Hash}
    (hk : s.DeriveKey = (.ret (k, none), d)) (hsep : ∃ c ∈ s.Sep, c ∉ encodeURL)
    (he : ∀ c ∈ e, c ∈ encodeURL) (hdec : base64Decode z e = .ret (m, none))
    (hok : s.Algorithm.VerifySignature d k v m = (.ret true, d')) :
    s.Unsign z (v ++ s.Sep ++ e) = (.ret (v, none), d') := by
  rw [Unsign_eq z s _ (LastIndex_sepJoin v s.Sep e hsep he)]
  have ht : (v ++ s.Sep ++ e).take v.length = v := by
    rw [List.append_assoc, List.take_left]
  have hd : (v ++ s.Sep ++ e).drop (v.length + s.Sep.length) = e := by
    have : v.length + s.Sep.length = (v ++ s.Sep).length := by simp
    rw [this, List.drop_left]
  rw [ht, hd, Verify_of_ret z hk, hdec]
  simp only
  rw [hok]
  rfl

/-- With the default algorithm and a digest of a comparable type, Get panics on every
recognised method: in DeriveKey for "hmac", in GetSignature for the others. -/
theorem Get_panic_comparable {s : Signature} (halg : s.Algorithm = HMACAlgorithm)
    (hr : Recognised s.KeyDerivation) (hc : s.DigestMethod.comparable = true) (v : Bytes) :
    (s.Get v).1 = .panic := by
  by_cases hh : s.KeyDerivation = "hmac"
  · exact Get_panic_of_key (DeriveKey_hmac_comparable hh hc) v
  · obtain ⟨k, hk⟩ := DeriveKey_ret hr (fun a => absurd a hh)
    have hcd : s.DeriveKey.2.comparable = true := (DeriveKey_same s).2.2.trans hc
    apply Get_panic_of_mac (pair_eta _ hk)
    rw [halg]
    exact HMACAlgorithm.GetSignature_comparable hcd k v

/-- With the default algorithm and a digest of a comparable type, Verify panics on every
candidate that base64Decode decodes. -/
theorem Verify_panic_comparable (z : Zlib) {s : Signature} (halg : s.Algorithm = HMACAlgorithm)
    (hr : Recognised s.KeyDerivation) (hc : s.DigestMethod.comparable = true)
    (value sig m : Bytes) (hdec : base64Decode z sig = .ret (m, none)) :
    (s.Verify z value sig).1 = .panic := by
  by_cases hh : s.KeyDerivation = "hmac"
  · exact Verify_panic_of_key z (DeriveKey_hmac_comparable hh hc) value sig
  · obtain ⟨k, hk⟩ := DeriveKey_ret hr (fun a => absurd a hh)
    have hcd : s.DeriveKey.2.comparable = true := (DeriveKey_same s).2.2.trans hc
    rw [Verify_of_ret z (pair_eta _ hk), hdec]
    simp only
    rw [halg, HMACAlgorithm_VerifySignature_eq]
    have := HMACAlgorithm.VerifySignature_of_panic
      (HMACAlgorithm.GetSignature_comparable hcd k value) m
    rw [pair_eta _ this]

/-- With the default algorithm and a digest hmac.New accepts, DeriveKey returns a key,
GetSignature a MAC (a value of the digest function), and Sign the framed token. -/
theorem Sign_accepted {s : Signature} (halg : s.Algorithm = HMACAlgorithm)
    (hr : Recognised s.KeyDerivation) (hc : s.DigestMethod.comparable = false) (v : Bytes) :
    ∃ k mac, s.DeriveKey.1 = .ret (k, none) ∧
      HMACAlgorithm.GetSignature s.DeriveKey.2 k v
        = (.ret mac, (HMACAlgorithm.GetSignature s.DeriveKey.2 k v).2) ∧
      (∃ x, mac = s.DigestMethod.digest x) ∧
      s.Get v = (.ret (base64Encode mac, none), (HMACAlgorithm.GetSignature s.DeriveKey.2 k v).2) ∧
      s.Sign v
        = (.ret (v ++ s.Sep ++ base64Encode mac, none),
            (HMACAlgorithm.GetSignature s.DeriveKey.2 k v).2) := by
  obtain ⟨k, hk⟩ := DeriveKey_ret hr (fun _ => hc)
  have hcd : s.DeriveKey.2.comparable = false := (DeriveKey_same s).2.2.trans hc
  obtain ⟨mac, hm, x, hx⟩ := HMACAlgorithm.GetSignature_accepted hcd k v
  have hm' := pair_eta _ hm
  have hm'' : s.Algorithm.GetSignature s.DeriveKey.2 k v
      = (.ret mac, (HMACAlgorithm.GetSignature s.DeriveKey.2 k v).2) := by
    rw [halg]
    exact hm'
  refine ⟨k, mac, hk, hm', ⟨x, ?_⟩, Get_of_ret (pair_eta _ hk) hm'',
    Sign_of_ret (pair_eta _ hk) hm''⟩
  rw [hx, (DeriveKey_same s).1]

/-- The default algorithm leaves the digest the same instance. -/
theorem Sign_same (s : Signature) (v : Bytes) (halg : s.Algorithm = HMACAlgorithm) :
    (s.Sign v).2.same s.DigestMethod := by
  have hdk := DeriveKey_same s
  unfold Signature.Sign Signature.Get
  rcases hx : s.DeriveKey with ⟨o, d⟩
  rw [hx] at hdk
  simp only at hdk
  cases o with
  | panic => exact hdk
  | ret r =>
    obtain ⟨k, e⟩ := r
    cases e with
    | some err => exact hdk
    | none =>
      simp only
      rw [halg]
      have hg := HMACAlgorithm.GetSignature_same d k v
      rw [HMACAlgorithm_GetSignature_eq]
      rcases hy : HMACAlgorithm.GetSignature d k v with ⟨o', d'⟩
      rw [hy] at hg
      cases o' <;> exact Hash.same_trans hg hdk

/-- Round trip on a Signature that uses the default algorithm and a digest hmac.New
accepts, from any state of the digest. -/
theorem Unsign_Sign_accepted (z : Zlib) (s : Signature) (v : Bytes) (d : Hash)
    (halg : s.Algorithm = HMACAlgorithm) (hr : Recognised s.KeyDerivation)
    (hc : s.DigestMethod.comparable = false)
    (hsep : ∃ c ∈ s.Sep, c ∉ encodeURL) (hdig : ∀ x, s.DigestMethod.digest x ≠ [])
    (h : d.same s.DigestMethod) :
    ∃ tok, (s.Sign v).1 = .ret (tok, none) ∧
      ((s.withDigest d).Unsign z tok).1 = .ret (v, none) := by
  obtain ⟨k, mac, hk, hm, ⟨x, hx⟩, -, hs⟩ := Sign_accepted halg hr hc v
  refine ⟨_, by rw [hs], ?_⟩
  have hne : mac ≠ [] := by
    rw [hx]
    exact hdig x
  have hdk : (s.withDigest d).DeriveKey = s.DeriveKey := DeriveKey_withDigest s h
  have hv := HMACAlgorithm.VerifySignature_of_ret hm mac
  simp only [decide_True] at hv
  have key := Unsign_sepJoin z (s.withDigest d) v (base64Encode mac) mac
    (hdk.trans (pair_eta _ hk)) hsep
    (by rw [base64Encode_eq]; exact rawEncode_alpha _) (base64Decode_base64Encode z _ hne)
    (by
      have ha : (s.withDigest d).Algorithm = HMACAlgorithm := halg
      rw [ha]
      exact hv)
  have hsepeq : (s.withDigest d).Sep = s.Sep := rfl
  rw [hsepeq] at key
  rw [key]

theorem NewSignature_fields (secret salt sep : Bytes) (derivation : String)
    (digest : Option Hash) (algo : Option SigningAlgorithm) :
    (NewSignature secret salt sep derivation digest algo).SecretKey = secret ∧
    (NewSignature secret salt sep derivation digest algo).Salt
      = (if salt = [] then ascii "itsdangerous.Signer" else salt) ∧
    (NewSignature secret salt sep derivation digest algo).Sep
      = (if sep = [] then ascii "." else sep) ∧
    (NewSignature secret salt sep derivation digest algo).KeyDerivation
      = (if derivation = "" then "django-concat" else derivation) ∧
    (NewSignature secret salt sep derivation digest algo).DigestMethod
      = digest.getD sha1.New ∧
    (NewSignature secret salt sep derivation digest algo).Algorithm
      = algo.getD HMACAlgorithm := by
  cases digest <;> cases algo <;> exact ⟨rfl, rfl, rfl, rfl, rfl, rfl⟩

theorem ascii_dot : ascii "." = [46] := by decide

theorem default_Sep (secret : Bytes) (digest : Option Hash) :
    (NewSignature secret [] [] "" digest none).Sep = [46] := by
  rw [(NewSignature_fields secret [] [] "" digest none).2.2.1, if_pos rfl, ascii_dot]

theorem NewSignature_recognised (secret salt sep : Bytes) {derivation : String}
    (digest : Option Hash) (algo : Option SigningAlgorithm)
    (h : derivation = "" ∨ Recognised derivation) :
    Recognised (NewSignature secret salt sep derivation digest algo).KeyDerivation := by
  rw [(NewSignature_fields secret salt sep derivation digest algo).2.2.2.1]
  rcases h with h | h
  · subst h
    decide
  · have : derivation ≠ "" := by
      rintro rfl
      revert h
      decide
    rw [if_neg this]
    exact h

theorem NewSignature_sep (secret salt : Bytes) {sep : Bytes} (derivation : String)
    (digest : Option Hash) (algo : Option SigningAlgorithm)
    (h : sep = [] ∨ ∃ c ∈ sep, c ∉ encodeURL) :
    ∃ c ∈ (NewSignature secret salt sep derivation digest algo).Sep, c ∉ encodeURL := by
  rw [(NewSignature_fields secret salt sep derivation digest algo).2.2.1]
  rcases h with h | h
  · subst h
    exact ⟨46, by decide, dot_not_alpha⟩
  · have : sep ≠ [] := by
      rintro rfl
      simp at h
    rw [if_neg this]
    exact h

theorem NewSignature_digest_ne_nil (secret salt sep : Bytes) (derivation : String)
    {digest : Option Hash} (algo : Option SigningAlgorithm)
    (h : ∀ d, digest = some d → ∀ x, d.digest x ≠ []) :
    ∀ x, (NewSignature secret salt sep derivation digest algo).DigestMethod.digest x ≠ [] := by
  rw [(NewSignature_fields secret salt sep derivation digest algo).2.2.2.2.1]
  cases digest with
  | none => exact sha1.sum_ne_nil
  | some d => exact h d rfl

/-- The digest of NewSignature is of a comparable type when none is given (sha1.New()) or
the one given is. -/
theorem NewSignature_comparable (secret salt sep : Bytes) (derivation : String)
    {digest : Option Hash} (algo : Option SigningAlgorithm)
    (h : ∀ d, digest = some d → d.comparable = true) :
    (NewSignature secret salt sep derivation digest algo).DigestMethod.comparable = true := by
  rw [(NewSignature_fields secret salt sep derivation digest algo).2.2.2.2.1]
  cases digest with
  | none => rfl
  | some d => exact h d rfl

/-- Round trip for NewSignature with a digest hmac.New accepts: a recognised method (or the
default one), the default algorithm, a separator with a byte outside the alphabet (or the
default "."), a supplied digest of a non-comparable type whose sums are never empty. Sign(v)
returns a token and Unsign, on the same Signature after Sign, returns v. -/
theorem Unsign_Sign_NewSignature (z : Zlib) (secret salt sep : Bytes) (derivation : String)
    (d : Hash) (v : Bytes)
    (hder : derivation = "" ∨ Recognised derivation)
    (hsep : sep = [] ∨ ∃ c ∈ sep, c ∉ encodeURL)
    (hc : d.comparable = false) (hdig : ∀ x, d.digest x ≠ []) :
    ∃ tok, ((NewSignature secret salt sep derivation (some d) none).Sign v).1
        = .ret (tok, none) ∧
      (((NewSignature secret salt sep derivation (some d) none).withDigest
          ((NewSignature secret salt sep derivation (some d) none).Sign v).2).Unsign z tok).1
        = .ret (v, none) :=
  Unsign_Sign_accepted z _ v _ rfl (NewSignature_recognised secret salt sep (some d) none hder) hc
    (NewSignature_sep secret salt derivation (some d) none hsep) hdig
    (Sign_same _ v rfl)

/-- With the default algorithm and a digest of a comparable type, Unsign panics on
v ‖ Sep ‖ e for every segment e of alphabet characters that decodes. -/
theorem Unsign_panic_comparable (z : Zlib) (s : Signature) (v e m : Bytes)
    (halg : s.Algorithm = HMACAlgorithm) (hr : Recognised s.KeyDerivation)
    (hc : s.DigestMethod.comparable = true) (hsep : ∃ c ∈ s.Sep, c ∉ encodeURL)
    (he : ∀ c ∈ e, c ∈ encodeURL) (hdec : base64Decode z e = .ret (m, none)) :
    (s.Unsign z (v ++ s.Sep ++ e)).1 = .panic := by
  rw [Unsign_eq z _ _ (LastIndex_sepJoin v _ e hsep he)]
  have ht : (v ++ s.Sep ++ e).take v.length = v := by
    rw [List.append_assoc, List.take_left]
  have hd : (v ++ s.Sep ++ e).drop (v.length + s.Sep.length) = e := by
    have : v.length + s.Sep.length = (v ++ s.Sep).length := by simp
    rw [this, List.drop_left]
  rw [ht, hd, pair_eta _ (Verify_panic_comparable z halg hr hc v e m hdec)]

/-- C1 fails on the code: for a Signature built by NewSignature with a recognised
key-derivation method (or the default one), the default HMAC algorithm and the default
digest sha1.New() (or any supplied digest of a comparable type), Sign(v) panics for every v:
GetSignature hands hmac.New a function that returns the one digest instance twice (for the
method "hmac" DeriveKey does so first). No token is returned; and on the same Signature
Unsign panics on v ‖ Sep ‖ e for every segment e of alphabet characters that decodes. -/
theorem Sign_panics_on_comparable_digest (z : Zlib) (secret salt sep : Bytes)
    (derivation : String) (digest : Option Hash) (v : Bytes)
    (hder : derivation = "" ∨ Recognised derivation)
    (hsep : sep = [] ∨ ∃ c ∈ sep, c ∉ encodeURL)
    (hcmp : ∀ d, digest = some d → d.comparable = true) :
    ((NewSignature secret salt sep derivation digest none).Sign v).1 = .panic ∧
    ∀ e m : Bytes, (∀ c ∈ e, c ∈ encodeURL) → base64Decode z e = .ret (m, none) →
      ((NewSignature secret salt sep derivation digest none).Unsign z
        (v ++ (NewSignature secret salt sep derivation digest none).Sep ++ e)).1 = .panic := by
  have hr := NewSignature_recognised secret salt sep digest none hder
  have hs := NewSignature_sep secret salt derivation digest none hsep
  have hc := NewSignature_comparable secret salt sep derivation none hcmp
  have halg : (NewSignature secret salt sep derivation digest none).Algorithm = HMACAlgorithm :=
    (NewSignature_fields secret salt sep derivation digest none).2.2.2.2.2
  exact ⟨Sign_panic_of_Get (Get_panic_comparable halg hr hc v),
    fun e m he hdec => Unsign_panic_comparable z _ v e m halg hr hc hs he hdec⟩

set_option maxRecDepth 1000000 in
/-- The vector of TestSignatureSign is what Sign returns once the digest is one hmac.New
accepts. -/
theorem TestSignatureSign :
    ((NewSignature (ascii "secret-key") [] [] "" (some (sha1.Wrapped [])) none).Sign
        (ascii "my string")).1
      = .ret (ascii "my string.wh6tMHxLgJqB6oY1uT73iMlyrOA", none) := by
  decide

set_option maxRecDepth 1000000 in
/-- The vector of TestSignatureUnsign is read back once the digest is one hmac.New accepts,
for every zlib. -/
theorem TestSignatureUnsign (z : Zlib) :
    ((NewSignature (ascii "secret-key") [] [] "" (some (sha1.Wrapped [])) none).Unsign z
        (ascii "my string.wh6tMHxLgJqB6oY1uT73iMlyrOA")).1
      = .ret (ascii "my string", none) := by
  obtain ⟨tok, h1, h2⟩ := Unsign_Sign_accepted z
    (NewSignature (ascii "secret-key") [] [] "" (some (sha1.Wrapped [])) none)
    (ascii "my string") (sha1.Wrapped []) rfl (by decide) rfl ⟨46, by decide, dot_not_alpha⟩
    sha1.sum_ne_nil (Hash.same_refl _)
  have h : ((NewSignature (ascii "secret-key") [] [] "" (some (sha1.Wrapped [])) none).Sign
      (ascii "my string")).1 = .ret (ascii "my string.wh6tMHxLgJqB6oY1uT73iMlyrOA", none) := by
    decide
  rw [h] at h1
  simp only [Outcome.ret.injEq, Prod.mk.injEq, and_true] at h1
  rw [h1]
  exact h2

set_option maxRecDepth 1000000 in
/-- Witness for C1: the configuration and the value of TestSignatureSign, and the token of
TestSignatureUnsign. -/
theorem Sign_panics_on_comparable_digest_witness :
    ((NewSignature (ascii "secret-key") [] [] "" none none).Sign (ascii "my string")).1
      = .panic ∧
    ((NewSignature (ascii "secret-key") [] [] "" none none).Unsign storedZlib
      (ascii "my string" ++ (NewSignature (ascii "secret-key") [] [] "" none none).Sep ++
        ascii "wh6tMHxLgJqB6oY1uT73iMlyrOA")).1 = .panic :=
  ⟨(Sign_panics_on_comparable_digest storedZlib (ascii "secret-key") [] [] "" none
      (ascii "my string") (Or.inl rfl) (Or.inl rfl) (fun _ h => nomatch h)).1,
    (Sign_panics_on_comparable_digest storedZlib (ascii "secret-key") [] [] "" none
      (ascii "my string") (Or.inl rfl) (Or.inl rfl) (fun _ h => nomatch h)).2
      (ascii "wh6tMHxLgJqB6oY1uT73iMlyrOA")
      [194, 30, 173, 48, 124, 75, 128, 154, 129, 234, 134, 53, 185, 62, 247, 136, 201, 114,
        172, 224] (by decide) (by decide)⟩

/-- What Get and Sign return once DeriveKey has returned the key k and GetSignature the
MAC: Get(v) is base64Encode of the MAC and Sign(v) is v, the separator and Get(v) in a row,
so the token starts with the bytes of v unchanged. -/
theorem Sign_framing_returns (s : Signature) (v k mac : Bytes) (d d' : Hash)
    (hk : s.DeriveKey = (.ret (k, none), d))
    (hm : s.Algorithm.GetSignature d k v = (.ret mac, d')) :
    s.Get v = (.ret (base64Encode mac, none), d') ∧
    s.Sign v = (.ret (v ++ s.Sep ++ base64Encode mac, none), d') ∧
    (v ++ s.Sep ++ base64Encode mac).take v.length = v := by
  refine ⟨Get_of_ret hk hm, Sign_of_ret hk hm, ?_⟩
  rw [List.append_assoc, List.take_left]

/-- C6 fails on the code: for a Signature with a recognised key-derivation method, the
default algorithm and a digest of a comparable type (sha1.New(), the default), there is no
Get(v) and no Sign(v): with "concat", "django-concat" or "none" DeriveKey returns a key k
and Algorithm.GetSignature(k, v) panics in hmac.New; with "hmac" DeriveKey itself panics
there. Get and Sign panic for every v. -/
theorem Get_panics_on_comparable_digest (s : Signature) (v : Bytes)
    (hr : Recognised s.KeyDerivation) (halg : s.Algorithm = HMACAlgorithm)
    (hc : s.DigestMethod.comparable = true) :
    (s.KeyDerivation ≠ "hmac" →
      ∃ k d, s.DeriveKey = (.ret (k, none), d) ∧
        (s.Algorithm.GetSignature d k v).1 = .panic) ∧
    (s.KeyDerivation = "hmac" → s.DeriveKey.1 = .panic) ∧
    (s.Get v).1 = .panic ∧ (s.Sign v).1 = .panic := by
  refine ⟨?_, fun hh => DeriveKey_hmac_comparable hh hc, Get_panic_comparable halg hr hc v,
    Sign_panic_of_Get (Get_panic_comparable halg hr hc v)⟩
  intro hh
  obtain ⟨k, hk⟩ := DeriveKey_ret hr (fun a => absurd a hh)
  refine ⟨k, _, pair_eta _ hk, ?_⟩
  rw [halg]
  exact HMACAlgorithm.GetSignature_comparable ((DeriveKey_same s).2.2.trans hc) k v

/-- Witness for C6: the configuration and the value of TestSignatureSign. -/
theorem Get_panics_on_comparable_digest_witness :
    Recognised (NewSignature (ascii "secret-key") [] [] "" none none).KeyDerivation ∧
    (NewSignature (ascii "secret-key") [] [] "" none none).Algorithm = HMACAlgorithm ∧
    (NewSignature (ascii "secret-key") [] [] "" none none).DigestMethod.comparable = true ∧
    ((NewSignature (ascii "secret-key") [] [] "" none none).Get (ascii "my string")).1
      = .panic ∧
    ((NewSignature (ascii "secret-key") [] [] "" none none).Sign (ascii "my string")).1
      = .panic :=
  ⟨by decide, rfl, rfl,
    (Get_panics_on_comparable_digest (NewSignature (ascii "secret-key") [] [] "" none none)
      (ascii "my string") (by decide) rfl rfl).2.2⟩
/-! ## the empty segment -/

/-- On a recognised method DeriveKey panics or returns a key with no error. -/
theorem DeriveKey_cases {s : Signature} (hr : Recognised s.KeyDerivation) :
    s.DeriveKey.1 = .panic ∨ ∃ k, s.DeriveKey.1 = .ret (k, none) := by
  rcases hx : s.DeriveKey.1 with ⟨k, e⟩ | _
  · have := DeriveKey_err hr k e hx
    subst this
    exact Or.inr ⟨k, rfl⟩
  · exact Or.inl rfl

/-- With the separator last in the input, Verify is handed an empty signature segment and
base64Decode indexes it: Unsign panics. -/
theorem Unsign_trailing_sep (z : Zlib) (s : Signature) (v : Bytes)
    (hr : Recognised s.KeyDerivation) : (s.Unsign z (v ++ s.Sep)).1 = .panic := by
  rw [Unsign_eq z s _ (LastIndex_append_self v s.Sep)]
  have hd : (v ++ s.Sep).drop (v.length + s.Sep.length) = [] := by
    apply List.drop_of_length_le
    simp
  rw [hd]
  rcases DeriveKey_cases hr with hk | ⟨k, hk⟩
  · rw [pair_eta _ (Verify_panic_of_key z hk _ _)]
  · rw [Verify_of_ret z (pair_eta _ hk)]
    rfl

/-- C3: the claim fails. On a token that ends with the separator (an empty signature
segment, as in "abc."), with a recognised key-derivation method, Signature.Unsign,
Signature.UnsignB64 and TimestampSignature.Unsign all panic: Verify hands the empty segment
to base64Decode, which indexes `b[0]` (with the method "hmac" and a digest of a comparable
type DeriveKey has panicked before that). None of them returns a value or an error. -/
theorem Unsign_empty_signature_panics (z : Zlib) (t : TimestampSignature) (v : Bytes)
    (unix maxAge : Nat) (hr : Recognised t.KeyDerivation) :
    (t.toSignature.Unsign z (v ++ t.Sep)).1 = .panic ∧
    (t.toSignature.UnsignB64 z (v ++ t.Sep)).1 = .panic ∧
    (t.Unsign z unix (v ++ t.Sep) maxAge).1 = .panic := by
  have h := Unsign_trailing_sep z t.toSignature v hr
  refine ⟨h, ?_, ?_⟩
  · unfold Signature.UnsignB64
    rw [pair_eta _ h]
  · unfold TimestampSignature.Unsign
    rw [pair_eta _ h]

theorem Unsign_empty_signature_panics_witness :
    Recognised (NewTimestampSignature (ascii "secret-key") [] [] "" none none).KeyDerivation ∧
    (((NewTimestampSignature (ascii "secret-key") [] [] "" none none).toSignature.Unsign
        storedZlib (ascii "abc" ++
          (NewTimestampSignature (ascii "secret-key") [] [] "" none none).Sep)).1 = .panic ∧
    ((NewTimestampSignature (ascii "secret-key") [] [] "" none none).toSignature.UnsignB64
        storedZlib (ascii "abc" ++
          (NewTimestampSignature (ascii "secret-key") [] [] "" none none).Sep)).1 = .panic ∧
    ((NewTimestampSignature (ascii "secret-key") [] [] "" none none).Unsign storedZlib 0
        (ascii "abc" ++ (NewTimestampSignature (ascii "secret-key") [] [] "" none none).Sep)
        0).1 = .panic) :=
  ⟨by decide, Unsign_empty_signature_panics storedZlib
    (NewTimestampSignature (ascii "secret-key") [] [] "" none none) (ascii "abc") 0 0
    (by decide)⟩

/-- C5: the claim fails at "abc." under the default configuration. The separator "." occurs,
last at index 3, so value = "abc" and sig = ""; DeriveKey returns a key (the default method
is "django-concat"), Verify("abc", "") panics in base64Decode, and so does Unsign: it
returns neither the value nor an error. -/
theorem Unsign_abc_dot (z : Zlib) :
    Contains (ascii "abc.") (NewSignature (ascii "secret-key") [] [] "" none none).Sep = true ∧
    LastIndex (ascii "abc.") (NewSignature (ascii "secret-key") [] [] "" none none).Sep
      = some 3 ∧
    (∃ k, (NewSignature (ascii "secret-key") [] [] "" none none).DeriveKey.1
      = .ret (k, none)) ∧
    base64Decode z [] = .panic ∧
    ((NewSignature (ascii "secret-key") [] [] "" none none).Verify z (ascii "abc") []).1
      = .panic ∧
    ((NewSignature (ascii "secret-key") [] [] "" none none).Unsign z (ascii "abc.")).1
      = .panic := by
  have hk := DeriveKey_ret (s := NewSignature (ascii "secret-key") [] [] "" none none)
    (by decide) (fun h => absurd h (by decide))
  refine ⟨by decide, by decide, hk, rfl, ?_, ?_⟩
  · obtain ⟨k, hk⟩ := hk
    rw [Verify_of_ret z (pair_eta _ hk)]
    rfl
  · have h := Unsign_trailing_sep z (NewSignature (ascii "secret-key") [] [] "" none none)
      (ascii "abc") (by decide)
    have e : ascii "abc" ++ (NewSignature (ascii "secret-key") [] [] "" none none).Sep
        = ascii "abc." := by decide
    rw [e] at h
    exact h
/-- What Unsign does, by the right-most split: without the separator it returns the
"no separator" error; with it, `li` being the last index where the separator starts,
value = signed[:li] and sig = signed[li+len(Sep):], it returns value when Verify returns
true, the mismatch error when Verify returns false, and panics when Verify panics. -/
theorem Unsign_rightmost_split (z : Zlib) (s : Signature) (signed : Bytes) :
    (Contains signed s.Sep = false →
      (s.Unsign z signed).1 = .ret ([], some (.noSepFound s.Sep))) ∧
    (Contains signed s.Sep = true →
      ∃ li, LastIndex signed s.Sep = some li ∧ li + s.Sep.length ≤ signed.length ∧
        signed = signed.take li ++ s.Sep ++ signed.drop (li + s.Sep.length) ∧
        (∀ j, li < j → j ≤ signed.length → HasPrefix (signed.drop j) s.Sep = false) ∧
        ((s.Verify z (signed.take li) (signed.drop (li + s.Sep.length))).1 = .panic →
          (s.Unsign z signed).1 = .panic) ∧
        (∀ e, (s.Verify z (signed.take li) (signed.drop (li + s.Sep.length))).1
            = .ret (true, e) → (s.Unsign z signed).1 = .ret (signed.take li, none)) ∧
        (∀ e, (s.Verify z (signed.take li) (signed.drop (li + s.Sep.length))).1
            = .ret (false, e) →
          (s.Unsign z signed).1
            = .ret ([], some (.signatureMismatch (signed.drop (li + s.Sep.length)))))) := by
  constructor
  · intro hc
    unfold Signature.Unsign
    simp [hc]
  · intro hc
    have hne := (Contains_iff_LastIndex signed s.Sep).1 hc
    obtain ⟨li, hli⟩ := Option.ne_none_iff_exists'.1 hne
    obtain ⟨h1, h2, h3⟩ := LastIndex_eq_some hli
    obtain ⟨t, ht⟩ := (HasPrefix_iff _ _).1 h2
    have hlen : li + s.Sep.length ≤ signed.length := by
      have := congrArg List.length ht
      simp only [List.length_drop, List.length_append] at this
      omega
    have hsplit : signed = signed.take li ++ s.Sep ++ signed.drop (li + s.Sep.length) := by
      have hd : signed.drop (li + s.Sep.length) = t := by
        rw [← List.drop_drop, ht, List.drop_left]
      rw [hd, List.append_assoc, ← ht, List.take_append_drop]
    refine ⟨li, hli, hlen, hsplit, h3, ?_, ?_, ?_⟩
    · intro hv
      rw [Unsign_eq z s signed hli]
      rcases hx : s.Verify z (signed.take li) (signed.drop (li + s.Sep.length)) with ⟨o, d⟩
      rw [hx] at hv
      simp only at hv
      subst hv
      rfl
    · intro e hv
      rw [Unsign_eq z s signed hli]
      rcases hx : s.Verify z (signed.take li) (signed.drop (li + s.Sep.length)) with ⟨o, d⟩
      rw [hx] at hv
      simp only at hv
      subst hv
      rfl
    · intro e hv
      rw [Unsign_eq z s signed hli]
      rcases hx : s.Verify z (signed.take li) (signed.drop (li + s.Sep.length)) with ⟨o, d⟩
      rw [hx] at hv
      simp only at hv
      subst hv
      rfl

theorem ZBase64Encode_nil (z : Zlib) (hz : z.compress [] ≠ ([], none)) :
    ZBase64Encode z [] = [] := by
  unfold ZBase64Encode
  rcases hc : z.compress [] with ⟨cb, err⟩
  rw [hc] at hz
  simp only
  cases err with
  | some e => rfl
  | none =>
    have hcb : cb ≠ [] := by
      rintro rfl
      exact hz rfl
    have hlen : ¬ cb.length < 1 := by
      have := List.length_pos.2 hcb
      omega
    simp [hlen]
    rfl

/-- C2: the claim fails at the empty byte string. With a zlib whose output for the empty
input is not empty (every zlib stream has a header and a checksum), ZBase64Encode("") is
empty. With a digest hmac.New accepts, SignB64("") returns the separator followed by the
signature, Unsign returns the empty value, and base64Decode indexes it: UnsignB64 of the
token panics instead of returning "". With a digest of a comparable type (the default
sha1.New()) SignB64("") panics itself. -/
theorem UnsignB64_SignB64_empty_panics (z : Zlib) (secret salt sep : Bytes)
    (derivation : String) (digest : Option Hash)
    (hz : z.compress [] ≠ ([], none))
    (hder : derivation = "" ∨ Recognised derivation)
    (hsep : sep = [] ∨ ∃ c ∈ sep, c ∉ encodeURL)
    (hdig : ∀ d, digest = some d → ∀ x, d.digest x ≠ []) :
    ((NewSignature secret salt sep derivation digest none).DigestMethod.comparable = false →
      ∃ tok, ((NewSignature secret salt sep derivation digest none).SignB64 z []).1
          = .ret (tok, none) ∧
        (((NewSignature secret salt sep derivation digest none).withDigest
            ((NewSignature secret salt sep derivation digest none).SignB64 z []).2).UnsignB64 z
          tok).1 = .panic) ∧
    ((NewSignature secret salt sep derivation digest none).DigestMethod.comparable = true →
      ((NewSignature secret salt sep derivation digest none).SignB64 z []).1 = .panic) := by
  have hr := NewSignature_recognised secret salt sep digest none hder
  have hs := NewSignature_sep secret salt derivation digest none hsep
  have hd := NewSignature_digest_ne_nil secret salt sep derivation none hdig
  have halg : (NewSignature secret salt sep derivation digest none).Algorithm = HMACAlgorithm :=
    (NewSignature_fields secret salt sep derivation digest none).2.2.2.2.2
  unfold Signature.SignB64
  rw [ZBase64Encode_nil z hz]
  constructor
  · intro hc
    obtain ⟨tok, h1, h2⟩ := Unsign_Sign_accepted z _ [] _ halg hr hc hs hd (Sign_same _ [] halg)
    refine ⟨tok, h1, ?_⟩
    unfold Signature.UnsignB64
    rw [pair_eta _ h2]
    rfl
  · intro hc
    exact Sign_panic_of_Get (Get_panic_comparable halg hr hc [])

theorem UnsignB64_SignB64_empty_panics_witness :
    storedZlib.compress [] ≠ ([], none) ∧
    (∃ tok, ((NewSignature (ascii "secret-key") [] [] "" (some (sha1.Wrapped [])) none).SignB64
          storedZlib []).1 = .ret (tok, none) ∧
      (((NewSignature (ascii "secret-key") [] [] "" (some (sha1.Wrapped [])) none).withDigest
          ((NewSignature (ascii "secret-key") [] [] "" (some (sha1.Wrapped [])) none).SignB64
            storedZlib []).2).UnsignB64 storedZlib tok).1 = .panic) :=
  ⟨by decide, (UnsignB64_SignB64_empty_panics storedZlib (ascii "secret-key") [] [] ""
    (some (sha1.Wrapped [])) (by decide) (Or.inl rfl) (Or.inl rfl)
    (fun _ h => by cases h; exact sha1.sum_ne_nil)).1 rfl⟩

set_option maxRecDepth 1000000 in
/-- The token of SignB64("") with the secret "secret-key" and a SHA-1 digest hmac.New
accepts, and what Unsign and UnsignB64 do with it. -/
theorem SignB64_empty_token :
    ((NewSignature (ascii "secret-key") [] [] "" (some (sha1.Wrapped [])) none).SignB64
        storedZlib []).1 = .ret (ascii ".b4-og8DGknlZ-AXdHwT5DOiFoFs", none) ∧
    ((NewSignature (ascii "secret-key") [] [] "" (some (sha1.Wrapped [])) none).Unsign
        storedZlib (ascii ".b4-og8DGknlZ-AXdHwT5DOiFoFs")).1 = .ret ([], none) ∧
    ((NewSignature (ascii "secret-key") [] [] "" (some (sha1.Wrapped [])) none).UnsignB64
        storedZlib (ascii ".b4-og8DGknlZ-AXdHwT5DOiFoFs")).1 = .panic := by
  decide
/-! ## Verify and the codec -/

theorem base64Decode_eq_compressDecode (z : Zlib) (b : Bytes) (hne : b ≠ []) :
    base64Decode z b = .ret (compressDecode z b) := by
  cases b with
  | nil => exact absurd rfl hne
  | cons b0 tl =>
    by_cases h0 : b0 = 46
    · subst h0
      rw [base64Decode_marker]
      simp only [compressDecode, if_true, plainDecode]
      cases URLDecode (tl ++ List.replicate ((4 - tl.length % 4) % 4) padChar) <;> rfl
    · rw [base64Decode_plain z _ (by simp) (by simpa using h0)]
      simp only [compressDecode, if_neg h0, plainDecode]
      cases URLDecode (b0 :: tl ++ List.replicate ((4 - (b0 :: tl).length % 4) % 4) padChar)
        <;> rfl

/-- C7, as the code has it: once DeriveKey has returned the key k (it does on every
recognised method, the method "hmac" with a digest of a comparable type apart), for a
non-empty candidate segment s, Verify(value, s) is Algorithm.VerifySignature(k, value, d)
with d the decode of s that honours the compression marker (a leading '.' is stripped, the
rest is base64-decoded and then decompressed; otherwise s is re-padded and base64-decoded):
Verify returns the verdict the algorithm returns and panics when the algorithm does; when
the decode fails, Verify reports false with the error. -/
theorem Verify_decodes_with_marker (z : Zlib) (s : Signature) (value sg : Bytes)
    (hr : Recognised s.KeyDerivation)
    (hacc : s.KeyDerivation = "hmac" → s.DigestMethod.comparable = false) (hne : sg ≠ []) :
    ∃ k d, s.DeriveKey = (.ret (k, none), d) ∧
      (∀ dd, compressDecode z sg = (dd, none) →
        (s.Verify z value sg).1 =
          match (s.Algorithm.VerifySignature d k value dd).1 with
          | .panic => .panic
          | .ret ok => .ret (ok, none)) ∧
      (∀ dd err, compressDecode z sg = (dd, some err) →
        (s.Verify z value sg).1 = .ret (false, some err)) ∧
      (sg.head? ≠ some 46 → compressDecode z sg = plainDecode sg) := by
  obtain ⟨k, hk⟩ := DeriveKey_ret hr hacc
  refine ⟨k, s.DeriveKey.2, pair_eta _ hk, ?_, ?_, ?_⟩
  · intro dd h
    rw [Verify_of_ret z (pair_eta _ hk), base64Decode_eq_compressDecode z sg hne, h]
    simp only
    rcases s.Algorithm.VerifySignature s.DeriveKey.2 k value dd with ⟨o, d'⟩
    cases o <;> rfl
  · intro dd err h
    rw [Verify_of_ret z (pair_eta _ hk), base64Decode_eq_compressDecode z sg hne, h]
  · intro h0
    cases sg with
    | nil => exact absurd rfl hne
    | cons b0 tl =>
      have : b0 ≠ 46 := by simpa using h0
      simp only [compressDecode, if_neg this]

theorem Verify_decodes_with_marker_witness :
    Recognised (NewSignature (ascii "secret-key") [] [] "" (some (sha1.Wrapped []))
      none).KeyDerivation ∧
    ascii "wh6tMHxLgJqB6oY1uT73iMlyrOA" ≠ [] ∧
    ∃ k d, (NewSignature (ascii "secret-key") [] [] "" (some (sha1.Wrapped [])) none).DeriveKey
        = (.ret (k, none), d) ∧
      (∀ dd, compressDecode storedZlib (ascii "wh6tMHxLgJqB6oY1uT73iMlyrOA") = (dd, none) →
        ((NewSignature (ascii "secret-key") [] [] "" (some (sha1.Wrapped [])) none).Verify
            storedZlib (ascii "my string") (ascii "wh6tMHxLgJqB6oY1uT73iMlyrOA")).1
          = match ((NewSignature (ascii "secret-key") [] [] "" (some (sha1.Wrapped []))
              none).Algorithm.VerifySignature d k (ascii "my string") dd).1 with
            | .panic => .panic
            | .ret ok => .ret (ok, none)) ∧
      (∀ dd err, compressDecode storedZlib (ascii "wh6tMHxLgJqB6oY1uT73iMlyrOA")
          = (dd, some err) →
        ((NewSignature (ascii "secret-key") [] [] "" (some (sha1.Wrapped [])) none).Verify
            storedZlib (ascii "my string") (ascii "wh6tMHxLgJqB6oY1uT73iMlyrOA")).1
          = .ret (false, some err)) ∧
      ((ascii "wh6tMHxLgJqB6oY1uT73iMlyrOA").head? ≠ some 46 →
        compressDecode storedZlib (ascii "wh6tMHxLgJqB6oY1uT73iMlyrOA")
          = plainDecode (ascii "wh6tMHxLgJqB6oY1uT73iMlyrOA")) :=
  ⟨by decide, by decide, Verify_decodes_with_marker storedZlib
    (NewSignature (ascii "secret-key") [] [] "" (some (sha1.Wrapped [])) none)
    (ascii "my string") (ascii "wh6tMHxLgJqB6oY1uT73iMlyrOA") (by decide)
    (fun h => absurd h (by decide)) (by decide)⟩

set_option maxRecDepth 1000000 in
/-- C7 fails as stated: with the secret "secret-key", the default method, separator and
algorithm and a SHA-1 digest hmac.New accepts, the candidate
".eAEBFADr_8IerTB8S4CageqGNbk-94jJcqzgaZgLAg" (the marker, then the base64 of a zlib stream
holding the MAC of "my string") has no plain decode ('.' is not in the alphabet), yet Verify
strips the marker, decompresses, and reports true. -/
theorem Verify_decompresses_candidate :
    (plainDecode (ascii ".eAEBFADr_8IerTB8S4CageqGNbk-94jJcqzgaZgLAg")).2
      = some .corruptInput ∧
    ((NewSignature (ascii "secret-key") [] [] "" (some (sha1.Wrapped [])) none).Verify
        storedZlib (ascii "my string") (ascii ".eAEBFADr_8IerTB8S4CageqGNbk-94jJcqzgaZgLAg")).1
      = .ret (true, none) := by
  decide
/-! ## TimestampSignature -/

theorem Timestamp_Sign_eq (t : TimestampSignature) (unix : Nat) (value : Bytes) :
    t.Sign unix value =
      t.toSignature.Sign (value ++ t.Sep ++ base64Encode (putUint32 (getTimestamp unix))) := by
  unfold TimestampSignature.Sign Signature.Sign sepJoin
  rfl

theorem readUint32_putUint32 {x : Nat} (h : x < 4294967296) :
    readUint32 (putUint32 x) = (x, none) := by
  simp only [putUint32, readUint32, Fin.ofNat, Prod.mk.injEq, and_true]
  omega

theorem readUint32_lt {b : Bytes} {ts : Nat} (h : readUint32 b = (ts, none)) :
    ts < 4294967296 := by
  match b, h with
  | a :: b :: c :: d :: _, h =>
    simp only [readUint32, Prod.mk.injEq, and_true] at h
    omega

/-- TimestampSignature.Unsign once the outer signature has verified and the timestamp
segment has been decoded and read. -/
theorem Timestamp_Unsign_eq (z : Zlib) (t : TimestampSignature) (unix maxAge : Nat)
    (token result sig : Bytes) (li ts : Nat)
    (h1 : (t.toSignature.Unsign z token).1 = .ret (result, none))
    (h2 : LastIndex result t.Sep = some li)
    (h3 : base64Decode z (result.drop (li + t.Sep.length)) = .ret (sig, none))
    (h4 : readUint32 sig = (ts, none)) :
    (t.Unsign z unix token maxAge).1 =
      if maxAge > 0 ∧ (getTimestamp unix + 4294967296 - ts) % 4294967296 > maxAge then
        .ret ([], some (.signatureAge ((getTimestamp unix + 4294967296 - ts) % 4294967296)
          maxAge))
      else .ret (result.take li, none) := by
  have hc : Contains result t.Sep = true := by
    rw [Contains_iff_LastIndex, h2]
    simp
  rcases hx : t.toSignature.Unsign z token with ⟨o, d⟩
  rw [hx] at h1
  simp only at h1
  subst h1
  unfold TimestampSignature.Unsign
  rw [hx]
  simp only [hc, Bool.not_true, Bool.false_eq_true, if_false, h2, h3, h4]
  split <;> rfl

/-- C10: for a token whose outer signature verifies (Signature.Unsign returns `result`)
and whose timestamp segment (what follows the last separator of `result`) decodes to bytes
that read as the 32-bit value ts, TimestampSignature.Unsign at clock `unix` returns the
expiry error exactly when maxAge > 0 and ((now − ts) mod 2^32) > maxAge, now being the
32-bit clock value, and returns the value segment otherwise; with maxAge = 0 the result
is the same for every clock value. -/
theorem TimestampSignature_Unsign_expiry (z : Zlib) (t : TimestampSignature)
    (unix maxAge : Nat) (token result sig : Bytes) (li ts : Nat)
    (h1 : (t.toSignature.Unsign z token).1 = .ret (result, none))
    (h2 : LastIndex result t.Sep = some li)
    (h3 : base64Decode z (result.drop (li + t.Sep.length)) = .ret (sig, none))
    (h4 : readUint32 sig = (ts, none)) :
    ((∃ age, (t.Unsign z unix token maxAge).1 = .ret ([], some (.signatureAge age maxAge))) ↔
      (0 < maxAge ∧ ((getTimestamp unix : Int) - (ts : Int)) % 4294967296 > (maxAge : Int))) ∧
    (¬ (0 < maxAge ∧ ((getTimestamp unix : Int) - (ts : Int)) % 4294967296 > (maxAge : Int)) →
      (t.Unsign z unix token maxAge).1 = .ret (result.take li, none)) ∧
    (∀ unix' : Nat, (t.Unsign z unix' token 0).1 = (t.Unsign z unix token 0).1) := by
  have hts := readUint32_lt h4
  have hnow : getTimestamp unix < 4294967296 := by
    unfold getTimestamp
    omega
  have hage : (((getTimestamp unix + 4294967296 - ts) % 4294967296 : Nat) : Int)
      = ((getTimestamp unix : Int) - (ts : Int)) % 4294967296 := by
    omega
  have hcond : (maxAge > 0 ∧ (getTimestamp unix + 4294967296 - ts) % 4294967296 > maxAge) ↔
      (0 < maxAge ∧ ((getTimestamp unix : Int) - (ts : Int)) % 4294967296 > (maxAge : Int)) := by
    rw [← hage]
    omega
  refine ⟨?_, ?_, ?_⟩
  · rw [Timestamp_Unsign_eq z t unix maxAge token result sig li ts h1 h2 h3 h4]
    rw [← hcond]
    by_cases hc : maxAge > 0 ∧ (getTimestamp unix + 4294967296 - ts) % 4294967296 > maxAge
    · rw [if_pos hc]
      exact ⟨fun _ => hc, fun _ => ⟨_, rfl⟩⟩
    · rw [if_neg hc]
      constructor
      · rintro ⟨age, h⟩
        simp at h
      · intro h
        exact absurd h hc
  · intro hn
    rw [Timestamp_Unsign_eq z t unix maxAge token result sig li ts h1 h2 h3 h4]
    rw [← hcond] at hn
    rw [if_neg hn]
  · intro unix'
    rw [Timestamp_Unsign_eq z t unix 0 token result sig li ts h1 h2 h3 h4,
      Timestamp_Unsign_eq z t unix' 0 token result sig li ts h1 h2 h3 h4]
    simp

/-- C9, as the code has it: for a token whose outer signature verifies and whose timestamp
ts is later than the 32-bit clock value now, the age is 2^32 − (ts − now); Unsign returns
the expiry error when 0 < maxAge < 2^32 − (ts − now), and returns the value segment when
maxAge ≥ 2^32 − (ts − now). -/
theorem TimestampSignature_Unsign_future (z : Zlib) (t : TimestampSignature)
    (unix maxAge : Nat) (token result sig : Bytes) (li ts : Nat)
    (h1 : (t.toSignature.Unsign z token).1 = .ret (result, none))
    (h2 : LastIndex result t.Sep = some li)
    (h3 : base64Decode z (result.drop (li + t.Sep.length)) = .ret (sig, none))
    (h4 : readUint32 sig = (ts, none))
    (hfut : getTimestamp unix < ts) :
    (0 < maxAge → maxAge < 4294967296 - (ts - getTimestamp unix) →
      (t.Unsign z unix token maxAge).1
        = .ret ([], some (.signatureAge (4294967296 - (ts - getTimestamp unix)) maxAge))) ∧
    (4294967296 - (ts - getTimestamp unix) ≤ maxAge →
      (t.Unsign z unix token maxAge).1 = .ret (result.take li, none)) := by
  have hts := readUint32_lt h4
  have hage : (getTimestamp unix + 4294967296 - ts) % 4294967296
      = 4294967296 - (ts - getTimestamp unix) := by
    omega
  rw [Timestamp_Unsign_eq z t unix maxAge token result sig li ts h1 h2 h3 h4, hage]
  constructor
  · intro hpos hlt
    rw [if_pos ⟨hpos, hlt⟩]
  · intro hle
    rw [if_neg (by omega)]

theorem NewTimestampSignature_toSignature (secret salt sep : Bytes) (derivation : String)
    (digest : Option Hash) (algo : Option SigningAlgorithm) :
    (NewTimestampSignature secret salt sep derivation digest algo).toSignature
      = NewSignature secret salt sep derivation digest algo := rfl

/-- A token of TimestampSignature.Sign, read back by TimestampSignature.Unsign on a
Signature with the default algorithm and a digest hmac.New accepts, from any state of the
digest. -/
theorem Timestamp_Unsign_Sign_accepted (z : Zlib) (t : TimestampSignature)
    (v : Bytes) (d : Hash) (T now maxAge : Nat)
    (halg : t.Algorithm = HMACAlgorithm) (hr : Recognised t.KeyDerivation)
    (hc : t.DigestMethod.comparable = false)
    (hsep : ∃ c ∈ t.Sep, c ∉ encodeURL) (hdig : ∀ x, t.DigestMethod.digest x ≠ [])
    (h : d.same t.DigestMethod) :
    ∃ tok, (t.Sign T v).1 = .ret (tok, none) ∧
      ((t.withDigest d).Unsign z now tok maxAge).1 =
        if maxAge > 0 ∧
            (getTimestamp now + 4294967296 - getTimestamp T) % 4294967296 > maxAge then
          .ret ([], some (.signatureAge
            ((getTimestamp now + 4294967296 - getTimestamp T) % 4294967296) maxAge))
        else .ret (v, none) := by
  rw [Timestamp_Sign_eq]
  obtain ⟨tok, ha, hb⟩ := Unsign_Sign_accepted z t.toSignature
    (v ++ t.Sep ++ base64Encode (putUint32 (getTimestamp T))) d halg hr hc hsep hdig h
  refine ⟨tok, ha, ?_⟩
  have hT : getTimestamp T < 4294967296 := by
    unfold getTimestamp
    omega
  have hne : putUint32 (getTimestamp T) ≠ [] := by simp [putUint32]
  have hli : LastIndex (v ++ t.Sep ++ base64Encode (putUint32 (getTimestamp T)))
      (t.withDigest d).Sep = some v.length :=
    LastIndex_sepJoin v t.Sep _ hsep (by rw [base64Encode_eq]; exact rawEncode_alpha _)
  have hdrop : (v ++ t.Sep ++ base64Encode (putUint32 (getTimestamp T))).drop
      (v.length + (t.withDigest d).Sep.length) = base64Encode (putUint32 (getTimestamp T)) := by
    have : v.length + (t.withDigest d).Sep.length = (v ++ t.Sep).length := by
      simp
      rfl
    rw [this, List.drop_left]
  have htake : (v ++ t.Sep ++ base64Encode (putUint32 (getTimestamp T))).take v.length = v := by
    rw [List.append_assoc, List.take_left]
  rw [Timestamp_Unsign_eq z (t.withDigest d) now maxAge _ _ _ v.length
    (getTimestamp T) hb hli (by rw [hdrop]; exact base64Decode_base64Encode z _ hne)
    (readUint32_putUint32 hT), htake]

/-- The boundary of the expiry check, with a SHA-1 digest hmac.New accepts and every other
argument of NewTimestampSignature at its default (any secret): a token signed at clock T
and checked with maxAge = M, where M ≥ 1 and T + M + 1 < 2^32, is accepted at clock T + M
(Unsign returns v with no error) and refused with the expiry error at clock T + M + 1, in
whatever states `w`, `w'` earlier calls left the digest. -/
theorem Timestamp_expiry_boundary (z : Zlib) (secret v w w' : Bytes) (T M : Nat)
    (hM : 1 ≤ M) (hT : T + M + 1 < 4294967296) :
    ∃ tok, ((NewTimestampSignature secret [] [] "" (some (sha1.Wrapped w)) none).Sign T v).1
        = .ret (tok, none) ∧
      (((NewTimestampSignature secret [] [] "" (some (sha1.Wrapped w)) none).withDigest
          (sha1.Wrapped w')).Unsign z (T + M) tok M).1 = .ret (v, none) ∧
      (((NewTimestampSignature secret [] [] "" (some (sha1.Wrapped w)) none).withDigest
          (sha1.Wrapped w')).Unsign z (T + M + 1) tok M).1
        = .ret ([], some (.signatureAge (M + 1) M)) := by
  have hr : Recognised
      (NewTimestampSignature secret [] [] "" (some (sha1.Wrapped w)) none).KeyDerivation :=
    NewSignature_recognised secret [] [] (some (sha1.Wrapped w)) none (Or.inl rfl)
  have hs : ∃ c ∈ (NewTimestampSignature secret [] [] "" (some (sha1.Wrapped w)) none).Sep,
      c ∉ encodeURL :=
    NewSignature_sep secret [] "" (some (sha1.Wrapped w)) none (Or.inl rfl)
  have key := fun now => Timestamp_Unsign_Sign_accepted z
    (NewTimestampSignature secret [] [] "" (some (sha1.Wrapped w)) none) v (sha1.Wrapped w')
    T now M rfl hr rfl hs sha1.sum_ne_nil ⟨rfl, rfl, rfl⟩
  obtain ⟨tok, h1, h2⟩ := key (T + M)
  obtain ⟨tok', h1', h2'⟩ := key (T + M + 1)
  rw [h1] at h1'
  simp only [Outcome.ret.injEq, Prod.mk.injEq, and_true] at h1'
  subst h1'
  refine ⟨tok, h1, ?_, ?_⟩
  · rw [h2]
    have : ¬ (M > 0 ∧ (getTimestamp (T + M) + 4294967296 - getTimestamp T) % 4294967296 > M) := by
      unfold getTimestamp
      omega
    rw [if_neg this]
  · rw [h2']
    have hage : (getTimestamp (T + M + 1) + 4294967296 - getTimestamp T) % 4294967296
        = M + 1 := by
      unfold getTimestamp
      omega
    rw [hage, if_pos (by omega)]

/-- C8 fails on the code: under the default configuration (any secret) TimestampSignature.Sign
at clock T panics for every v, in hmac.New, which GetSignature hands a function that returns
the one sha1.New() instance twice: no token is produced. Unsign panics too, at every clock
and for every maxAge, on v ‖ "." ‖ ts ‖ "." ‖ e for every segment e of alphabet characters
that decodes, so neither v nor the expiry error is returned. -/
theorem Timestamp_Sign_default_panics (z : Zlib) (secret v : Bytes) (T : Nat) :
    ((NewTimestampSignature secret [] [] "" none none).Sign T v).1 = .panic ∧
    ∀ (now M : Nat) (e m : Bytes), (∀ c ∈ e, c ∈ encodeURL) →
      base64Decode z e = .ret (m, none) →
      ((NewTimestampSignature secret [] [] "" none none).Unsign z now
        (v ++ [46] ++ base64Encode (putUint32 (getTimestamp T)) ++ [46] ++ e) M).1
        = .panic := by
  have hr : Recognised (NewTimestampSignature secret [] [] "" none none).KeyDerivation :=
    NewSignature_recognised secret [] [] none none (Or.inl rfl)
  constructor
  · rw [Timestamp_Sign_eq]
    exact Sign_panic_of_Get (Get_panic_comparable rfl hr rfl _)
  · intro now M e m he hdec
    have h := (Unsign_panic_comparable z
      (NewTimestampSignature secret [] [] "" none none).toSignature
      (v ++ [46] ++ base64Encode (putUint32 (getTimestamp T))) e m rfl hr rfl
      (NewSignature_sep secret [] "" none none (Or.inl rfl)) he hdec)
    have hsep : (NewTimestampSignature secret [] [] "" none none).Sep = [46] :=
      default_Sep secret none
    rw [hsep] at h
    unfold TimestampSignature.Unsign
    rw [pair_eta _ h]
set_option maxRecDepth 1000000 in
theorem TimestampSignature_Unsign_expiry_witness :
    (((NewTimestampSignature (ascii "secret-key") [] [] ""
        (some (sha1.Wrapped [])) none).toSignature.Unsign
        storedZlib (ascii "my string.BpSAPw.NnKk1nQ206g1c1aJAS1Nxkt4aug")).1
      = .ret (ascii "my string.BpSAPw", none)) ∧
    ((∃ age, ((NewTimestampSignature (ascii "secret-key") [] [] ""
        (some (sha1.Wrapped [])) none).Unsign storedZlib
          110399056 (ascii "my string.BpSAPw.NnKk1nQ206g1c1aJAS1Nxkt4aug") 3600).1
        = .ret ([], some (.signatureAge age 3600))) ↔
      (0 < 3600 ∧ ((getTimestamp 110399056 : Int) - ((110395455 : Nat) : Int)) % 4294967296
        > ((3600 : Nat) : Int))) ∧
    (¬ (0 < 3600 ∧ ((getTimestamp 110399056 : Int) - ((110395455 : Nat) : Int)) % 4294967296
        > ((3600 : Nat) : Int)) →
      ((NewTimestampSignature (ascii "secret-key") [] [] ""
          (some (sha1.Wrapped [])) none).Unsign storedZlib
          110399056 (ascii "my string.BpSAPw.NnKk1nQ206g1c1aJAS1Nxkt4aug") 3600).1
        = .ret ((ascii "my string.BpSAPw").take 9, none)) ∧
    (∀ unix' : Nat,
      ((NewTimestampSignature (ascii "secret-key") [] [] ""
          (some (sha1.Wrapped [])) none).Unsign storedZlib
          unix' (ascii "my string.BpSAPw.NnKk1nQ206g1c1aJAS1Nxkt4aug") 0).1
        = ((NewTimestampSignature (ascii "secret-key") [] [] ""
            (some (sha1.Wrapped [])) none).Unsign storedZlib
          110399056 (ascii "my string.BpSAPw.NnKk1nQ206g1c1aJAS1Nxkt4aug") 0).1) :=
  ⟨by decide, TimestampSignature_Unsign_expiry storedZlib
    (NewTimestampSignature (ascii "secret-key") [] [] ""
        (some (sha1.Wrapped [])) none) 110399056 3600
    (ascii "my string.BpSAPw.NnKk1nQ206g1c1aJAS1Nxkt4aug") (ascii "my string.BpSAPw")
    [6, 148, 128, 63] 9 110395455 (by decide) (by decide) (by decide) (by decide)⟩

set_option maxRecDepth 1000000 in
theorem TimestampSignature_Unsign_future_witness :
    (((NewTimestampSignature (ascii "secret-key") [] [] ""
        (some (sha1.Wrapped [])) none).toSignature.Unsign
        storedZlib (ascii "my string.BpSAPw.NnKk1nQ206g1c1aJAS1Nxkt4aug")).1
      = .ret (ascii "my string.BpSAPw", none)) ∧ getTimestamp 110395400 < 110395455 ∧
    (0 < 3600 → 3600 < 4294967296 - (110395455 - getTimestamp 110395400) →
      ((NewTimestampSignature (ascii "secret-key") [] [] ""
          (some (sha1.Wrapped [])) none).Unsign storedZlib
          110395400 (ascii "my string.BpSAPw.NnKk1nQ206g1c1aJAS1Nxkt4aug") 3600).1
        = .ret ([], some (.signatureAge (4294967296 - (110395455 - getTimestamp 110395400))
            3600))) ∧
    (4294967296 - (110395455 - getTimestamp 110395400) ≤ 3600 →
      ((NewTimestampSignature (ascii "secret-key") [] [] ""
          (some (sha1.Wrapped [])) none).Unsign storedZlib
          110395400 (ascii "my string.BpSAPw.NnKk1nQ206g1c1aJAS1Nxkt4aug") 3600).1
        = .ret ((ascii "my string.BpSAPw").take 9, none)) :=
  ⟨by decide, by decide, TimestampSignature_Unsign_future storedZlib
    (NewTimestampSignature (ascii "secret-key") [] [] ""
        (some (sha1.Wrapped [])) none) 110395400 3600
    (ascii "my string.BpSAPw.NnKk1nQ206g1c1aJAS1Nxkt4aug") (ascii "my string.BpSAPw")
    [6, 148, 128, 63] 9 110395455 (by decide) (by decide) (by decide) (by decide) (by decide)⟩

set_option maxRecDepth 1000000 in
/-- C9 fails as stated: with the secret "secret-key", a SHA-1 digest hmac.New accepts and
the other arguments at their defaults, the token signed at clock 1 (timestamp 1) and
checked at clock 0 with maxAge = 2^32 − 1 > 0 is later than the clock, yet the wrapped age
2^32 − 1 does not exceed maxAge and Unsign returns the value with no error. -/
theorem Unsign_future_token_accepted :
    ((NewTimestampSignature (ascii "secret-key") [] [] "" (some (sha1.Wrapped [])) none).Sign 1
        (ascii "my string")).1
      = .ret (ascii "my string.AAAAAQ.Ai6Klhzq1zHoMupI9asyZEa69NU", none) ∧
    getTimestamp 0 < 1 ∧ 0 < 4294967295 ∧
    ((NewTimestampSignature (ascii "secret-key") [] [] ""
        (some (sha1.Wrapped [])) none).Unsign storedZlib 0
        (ascii "my string.AAAAAQ.Ai6Klhzq1zHoMupI9asyZEa69NU") 4294967295).1
      = .ret (ascii "my string", none) := by
  decide

/-! ## a changed signature segment -/

theorem quantum_length_le (acc : List Nat) : 4 * (quantum acc).length ≤ 3 * acc.length := by
  match acc with
  | [] => simp [quantum]
  | [_] => simp [quantum]
  | [_, _] => simp [quantum]
  | [_, _, _] => simp [quantum]
  | [_, _, _, _] => simp [quantum]
  | _ :: _ :: _ :: _ :: _ :: _ => simp [quantum]

/-- The decoder returns at most three bytes for every four alphabet characters it reads. -/
theorem decodeLoop_length_le (xs : Bytes) :
    ∀ (acc : List Nat) (out : Bytes), decodeLoop acc xs = some out →
      4 * out.length ≤ 3 * (acc.length + xs.countP (fun c => decide (c ∈ encodeURL))) := by
  induction xs with
  | nil =>
    intro acc out h
    cases acc with
    | nil =>
      simp only [decodeLoop, Option.some.injEq] at h
      subst h
      simp
    | cons a acc => simp [decodeLoop] at h
  | cons c rest ih =>
    intro acc out h
    rw [decodeLoop_cons] at h
    cases hm : decodeMap c with
    | some v =>
      have hc : c ∈ encodeURL := (decodeMap_eq_some hm).2.2
      have hcount : (c :: rest).countP (fun c => decide (c ∈ encodeURL))
          = rest.countP (fun c => decide (c ∈ encodeURL)) + 1 :=
        List.countP_cons_of_pos _ _ (by simpa using hc)
      rw [hcount]
      simp only [hm] at h
      by_cases h3 : acc.length = 3
      · rw [if_pos h3] at h
        cases hr : decodeLoop [] rest with
        | none => simp [hr] at h
        | some out' =>
          simp only [hr, Option.map_some', Option.some.injEq] at h
          subst h
          have := ih [] out' hr
          have hq := quantum_length_le (acc ++ [v])
          simp only [List.length_append, List.length_cons, List.length_nil] at this hq ⊢
          omega
      · rw [if_neg h3] at h
        have := ih (acc ++ [v]) out h
        simp only [List.length_append, List.length_cons, List.length_nil] at this
        omega
    | none =>
      have hc : c ∉ encodeURL := decodeMap_eq_none.1 hm
      have hcount : (c :: rest).countP (fun c => decide (c ∈ encodeURL))
          = rest.countP (fun c => decide (c ∈ encodeURL)) :=
        List.countP_cons_of_neg _ _ (by simpa using hc)
      rw [hcount]
      simp only [hm] at h
      by_cases hnl : c = 10 ∨ c = 13
      · rw [if_pos hnl] at h
        exact ih acc out h
      · rw [if_neg hnl] at h
        by_cases hp : c ≠ padChar
        · rw [if_pos hp] at h
          simp at h
        · rw [if_neg hp] at h
          have hout : out = quantum acc := by
            repeat' split at h
            all_goals first
              | (simp only [Option.some.injEq] at h; exact h.symm)
              | simp at h
          subst hout
          have := quantum_length_le acc
          omega

theorem GetSignature_sha1_length (d : Hash) (hd : d.digest = sha1.sum) (key value mac : Bytes)
    (h : (HMACAlgorithm.GetSignature d key value).1 = .ret mac) : mac.length = 20 := by
  cases hc : d.comparable with
  | true =>
    rw [HMACAlgorithm.GetSignature_comparable hc] at h
    cases h
  | false =>
    obtain ⟨mac', hm, x, hx⟩ := HMACAlgorithm.GetSignature_accepted hc key value
    rw [hm] at h
    simp only [Outcome.ret.injEq] at h
    rw [← h, hx, hd]
    exact sha1.sum_length x

/-- Unsign under the default separator and algorithm, for a signature segment without
'.', once DeriveKey has returned the key and GetSignature the MAC of the value: the value is
returned when the segment decodes to the MAC, and the mismatch error otherwise. -/
theorem Unsign_dot (z : Zlib) (s : Signature) (v e k mac : Bytes) (hsep : s.Sep = [46])
    (halg : s.Algorithm = HMACAlgorithm) (hk : s.DeriveKey.1 = .ret (k, none))
    (hm : (HMACAlgorithm.GetSignature s.DeriveKey.2 k v).1 = .ret mac)
    (he : (46 : Byte) ∉ e) (hne : e ≠ []) :
    (s.Unsign z (v ++ [46] ++ e)).1 =
      if base64Decode z e = .ret (mac, none) then .ret (v, none)
      else .ret ([], some (.signatureMismatch e)) := by
  have hnone : LastIndex e [46] = none := by
    rw [LastIndex_eq_none]
    intro j _
    by_contra hpre
    simp only [Bool.not_eq_false] at hpre
    obtain ⟨t, ht⟩ := (HasPrefix_iff _ _).1 hpre
    have : (46 : Byte) ∈ e.drop j := by
      rw [ht]
      simp
    exact he (List.mem_of_mem_drop this)
  have h0 : LastIndex ([46] ++ e) [46] = some 0 := by
    simp [LastIndex, hnone, HasPrefix]
  have hli : LastIndex (v ++ [46] ++ e) s.Sep = some v.length := by
    rw [hsep, List.append_assoc]
    simpa using LastIndex_append_of_some v h0
  rw [Unsign_eq z s _ hli]
  have ht : (v ++ [46] ++ e).take v.length = v := by
    rw [List.append_assoc, List.take_left]
  have hd : (v ++ [46] ++ e).drop (v.length + s.Sep.length) = e := by
    have : v.length + s.Sep.length = (v ++ [46]).length := by simp [hsep]
    rw [this, List.drop_left]
  rw [ht, hd, Verify_of_ret z (pair_eta _ hk), halg]
  have hp : base64Decode z e ≠ .panic := by
    cases e with
    | nil => exact absurd rfl hne
    | cons b0 tl =>
      simp only [base64Decode]
      split <;> try split
      all_goals simp
  rcases hb : base64Decode z e with ⟨dd, err⟩ | _
  · cases err with
    | some er => simp
    | none =>
      simp only
      rw [HMACAlgorithm_VerifySignature_eq,
        HMACAlgorithm.VerifySignature_of_ret (pair_eta _ hm) dd]
      by_cases hdd : dd = mac
      · subst hdd
        simp
      · simp [hdd]
  · exact absurd hb hp

theorem decodeMap_sextet1 (a : Byte) : decodeMap (encChar (a.val / 4)) = some (a.val / 4) :=
  decodeMap_encChar (by omega)
theorem decodeMap_sextet2 (a b : Byte) :
    decodeMap (encChar (a.val % 4 * 16 + b.val / 16)) = some (a.val % 4 * 16 + b.val / 16) :=
  decodeMap_encChar (by omega)
theorem decodeMap_sextet3 (b c : Byte) :
    decodeMap (encChar (b.val % 16 * 4 + c.val / 64)) = some (b.val % 16 * 4 + c.val / 64) :=
  decodeMap_encChar (by omega)
theorem decodeMap_sextet4 (c : Byte) : decodeMap (encChar (c.val % 64)) = some (c.val % 64) :=
  decodeMap_encChar (by omega)
theorem decodeMap_sextet5 (b : Byte) : decodeMap (encChar (b.val % 16 * 4)) = some (b.val % 16 * 4) :=
  decodeMap_encChar (by omega)

theorem byte_ofNat_eq_iff (n : Nat) (a : Byte) : (Fin.ofNat n : Byte) = a ↔ n % 256 = a.val := by
  constructor
  · rintro rfl
    rfl
  · intro h
    exact Fin.ext h

theorem rawEncode_append_pad (m : Bytes) (h : m.length % 3 = 2) :
    rawEncode m ++ [padChar] = URLEncode m := by
  rw [URLEncode_eq, h]
  rfl

/-- Decoding the encoding of `m` (len(m) % 3 = 2, as for a 20-byte MAC) with its character
`i` replaced by the alphabet character of the six-bit value `s`: the decoder succeeds, and
it returns `m` again exactly when the character has its old value or it is the last
character and only its two low bits differ. -/
theorem decode_replaced (m : Bytes) :
    m.length % 3 = 2 → ∀ (i s' : Nat), i < (rawEncode m).length → s' < 64 →
    ∃ out, URLDecode ((rawEncode m).set i (encChar s') ++ [padChar]) = some out ∧
      (out = m ↔
        (decodeMap ((rawEncode m).getD i 0) = some s' ∨
          (i + 1 = (rawEncode m).length ∧
            ∃ s, decodeMap ((rawEncode m).getD i 0) = some s ∧ s' / 4 = s / 4))) := by
  have hp : padChar ≠ 10 ∧ padChar ≠ 13 := by decide
  induction m using rawEncode.induct with
  | case1 a b c rest ih =>
    intro hlen i s' hi hs
    have hs' := decodeMap_encChar hs
    have hrest : rest.length % 3 = 2 := by
      simp only [List.length_cons] at hlen
      omega
    have hdec : decodeLoop [] (rawEncode rest ++ [padChar]) = some rest := by
      rw [rawEncode_append_pad rest hrest]
      exact URLDecode_URLEncode rest
    have hge : 3 ≤ (rawEncode rest).length := by
      rw [rawEncode_length]
      omega
    have hl4 : (rawEncode (a :: b :: c :: rest)).length = (rawEncode rest).length + 4 := by
      simp [rawEncode]
    by_cases h4 : i < 4
    · interval_cases i
      all_goals
        simp only [rawEncode, List.set, URLDecode, List.cons_append, decodeLoop_cons,
          decodeMap_sextet1, decodeMap_sextet2, decodeMap_sextet3, decodeMap_sextet4, hs', List.length_nil, List.length_cons, List.length_append,
          List.nil_append, Nat.reduceAdd, Nat.reduceEqDiff, if_false, if_true, hdec,
          Option.map_some', List.getD_cons_zero, List.getD_cons_succ]
        refine ⟨_, rfl, ?_⟩
        simp only [quantum, List.cons_append, List.nil_append, List.cons.injEq, and_true,
          byte_ofNat_eq_iff, Option.some.injEq, exists_eq_left', false_and, or_false, true_and]
        omega
    · obtain ⟨j, rfl⟩ : ∃ j, i = j + 4 := ⟨i - 4, by omega⟩
      have hj : j < (rawEncode rest).length := by
        simp only [rawEncode, List.length_cons] at hi
        omega
      obtain ⟨out, ho, hiff⟩ := ih hrest j s' hj hs
      refine ⟨a :: b :: c :: out, ?_, ?_⟩
      · unfold URLDecode at ho
        simp only [rawEncode, List.set, URLDecode, List.cons_append, decodeLoop_cons,
          decodeMap_sextet1, decodeMap_sextet2, decodeMap_sextet3, decodeMap_sextet4, List.length_nil, List.length_cons, List.length_append,
          List.nil_append, Nat.reduceAdd, Nat.reduceEqDiff, if_false, if_true, ho,
          Option.map_some', quantum_four]
      · simp only [rawEncode, List.getD_cons_succ, List.length_cons, List.cons.injEq, true_and,
          hiff]
        have : j + 4 + 1 = (rawEncode rest).length + 1 + 1 + 1 + 1 ↔
            j + 1 = (rawEncode rest).length := by omega
        rw [this]
  | case2 a b =>
    intro _ i s' hi hs
    have hs' := decodeMap_encChar hs
    have hl3 : (rawEncode [a, b]).length = 3 := by simp [rawEncode]
    rw [hl3] at hi
    interval_cases i
    all_goals
      simp only [rawEncode, List.set, URLDecode, List.cons_append, decodeLoop_cons,
        decodeMap_sextet1, decodeMap_sextet2, decodeMap_sextet5, hs', padChar_decodeMap, List.length_nil, List.length_cons,
        List.length_append, List.nil_append, Nat.reduceAdd, Nat.reduceEqDiff, if_false, if_true,
        Option.map_some', List.getD_cons_zero, List.getD_cons_succ, hp.1, hp.2, or_self,
        skipNewlines, ne_eq, not_true_eq_false]
      refine ⟨_, rfl, ?_⟩
      simp only [quantum, List.cons_append, List.nil_append, List.cons.injEq, and_true,
        byte_ofNat_eq_iff, Option.some.injEq, exists_eq_left', false_and, or_false, true_and]
      omega
  | case3 a =>
    intro h
    simp at h
  | case4 =>
    intro h
    simp at h

set_option maxRecDepth 100000 in
theorem flip_ne (c : Byte) (k : Nat) (hk : k < 8) : c ^^^ Fin.ofNat (2 ^ k) ≠ c := by
  have : ∀ k : Fin 8, ∀ c : Byte, c ^^^ Fin.ofNat (2 ^ k.val) ≠ c := by decide
  exact this ⟨k, hk⟩ c

set_option maxRecDepth 100000 in
theorem flip_to_dot (c : Byte) (k : Nat) (hk : k < 8) (h : c ^^^ Fin.ofNat (2 ^ k) = 46) :
    decodeMap c = none ∨ decodeMap c = some 39 := by
  have : ∀ k : Fin 8, ∀ c : Byte, c ^^^ Fin.ofNat (2 ^ k.val) = 46 →
      (decodeMap c = none ∨ decodeMap c = some 39) := by decide
  exact this ⟨k, hk⟩ c h

theorem last_sextet (m : Bytes) : m.length % 3 = 2 →
    ∃ s, decodeMap ((rawEncode m).getD ((rawEncode m).length - 1) 0) = some s ∧ s % 4 = 0 := by
  induction m using rawEncode.induct with
  | case1 a b c rest ih =>
    intro h
    have hrest : rest.length % 3 = 2 := by
      simp only [List.length_cons] at h
      omega
    have hge : 3 ≤ (rawEncode rest).length := by
      rw [rawEncode_length]
      omega
    obtain ⟨s, hs, h4⟩ := ih hrest
    refine ⟨s, ?_, h4⟩
    rw [← hs]
    simp only [rawEncode, List.length_cons]
    have : (rawEncode rest).length + 1 + 1 + 1 + 1 - 1
        = ((rawEncode rest).length - 1) + 1 + 1 + 1 + 1 := by omega
    rw [this]
    simp only [List.getD_cons_succ]
  | case2 a b =>
    intro _
    exact ⟨b.val % 16 * 4, by simp [rawEncode, decodeMap_sextet5], by omega⟩
  | case3 a =>
    intro h
    simp at h
  | case4 =>
    intro h
    simp at h

/-- A segment with at most 26 alphabet characters does not decode to 20 bytes. -/
theorem base64Decode_short (z : Zlib) (e m : Bytes) (hne : e ≠ []) (h0 : e.head? ≠ some 46)
    (hc : e.countP (fun c => decide (c ∈ encodeURL)) ≤ 26) (hm : m.length = 20) :
    base64Decode z e ≠ .ret (m, none) := by
  rw [base64Decode_plain z e hne h0]
  cases hd : URLDecode (e ++ List.replicate ((4 - e.length % 4) % 4) padChar) with
  | none => simp
  | some dst =>
    simp only [ne_eq, Outcome.ret.injEq, Prod.mk.injEq, and_true]
    intro hdst
    subst hdst
    have := decodeLoop_length_le _ [] dst hd
    have hpad : (List.replicate ((4 - e.length % 4) % 4) padChar).countP
        (fun c => decide (c ∈ encodeURL)) = 0 := by
      rw [List.countP_eq_zero]
      intro a ha
      rw [List.eq_of_mem_replicate ha]
      simpa using padChar_not_alpha
    simp only [List.length_nil, List.countP_append, hpad] at this
    omega

theorem countP_set_le (l : Bytes) (i : Nat) (x : Byte) (hi : i < l.length)
    (hx : x ∉ encodeURL) :
    (l.set i x).countP (fun c => decide (c ∈ encodeURL)) + 1 ≤ l.length := by
  rw [List.set_eq_take_append_cons_drop, if_pos hi, List.countP_append,
    List.countP_cons_of_neg _ _ (by simpa using hx)]
  have h1 := List.countP_le_length (p := fun c => decide (c ∈ encodeURL)) (l := l.take i)
  have h2 := List.countP_le_length (p := fun c => decide (c ∈ encodeURL)) (l := l.drop (i + 1))
  simp only [List.length_take, List.length_drop] at h1 h2
  omega

theorem sameHighBits_iff {c c' : Byte} {s' : Nat} (h : decodeMap c' = some s') :
    sameHighBits c c' = true ↔ ∃ s, decodeMap c = some s ∧ s' / 4 = s / 4 := by
  unfold sameHighBits
  rw [h]
  cases decodeMap c with
  | none => simp
  | some s =>
    simp only [beq_iff_eq, Option.some.injEq, exists_eq_left']
    exact eq_comm

theorem sameHighBits_of_none {c c' : Byte} (h : decodeMap c' = none) :
    sameHighBits c c' = false := by
  unfold sameHighBits
  rw [h]
  cases decodeMap c <;> rfl

/-- Unsign of a token whose signature segment has bit `k` of its character `i` flipped,
for a Signature with separator ".", the default algorithm and a SHA-1 digest hmac.New
accepts, `k` being the key of DeriveKey and `mac` the MAC of the value. -/
theorem Unsign_replaced (z : Zlib) (s : Signature) (v key mac : Bytes) (i k : Nat)
    (hsep : s.Sep = [46]) (halg : s.Algorithm = HMACAlgorithm)
    (hsha : s.DigestMethod.digest = sha1.sum) (hc : s.DigestMethod.comparable = false)
    (hk : s.DeriveKey.1 = .ret (key, none))
    (hm : (HMACAlgorithm.GetSignature s.DeriveKey.2 key v).1 = .ret mac)
    (hi : i < 27) (hk8 : k < 8) :
    ((i = 26 ∧ sameHighBits ((rawEncode mac).getD i 0)
          ((rawEncode mac).getD i 0 ^^^ Fin.ofNat (2 ^ k)) = true) →
      (s.Unsign z (v ++ [46] ++
        (rawEncode mac).set i ((rawEncode mac).getD i 0 ^^^ Fin.ofNat (2 ^ k)))).1
        = .ret (v, none)) ∧
    (¬ (i = 26 ∧ sameHighBits ((rawEncode mac).getD i 0)
          ((rawEncode mac).getD i 0 ^^^ Fin.ofNat (2 ^ k)) = true) →
      ∃ e, (s.Unsign z (v ++ [46] ++
        (rawEncode mac).set i ((rawEncode mac).getD i 0 ^^^ Fin.ofNat (2 ^ k)))).1
        = .ret ([], some (.signatureMismatch e))) := by
  have hdig : s.DeriveKey.2.digest = sha1.sum := (DeriveKey_same s).1.trans hsha
  have hcd : s.DeriveKey.2.comparable = false := (DeriveKey_same s).2.2.trans hc
  have hmac : mac.length = 20 := GetSignature_sha1_length _ hdig _ _ _ hm
  have hsiglen : (rawEncode mac).length = 27 := by
    rw [rawEncode_length, hmac]
  have halpha := rawEncode_alpha mac
  generalize hcdef : (rawEncode mac).getD i 0 = c
  generalize hc'def : c ^^^ Fin.ofNat (2 ^ k) = c'
  have hcmem : c ∈ rawEncode mac := by
    rw [← hcdef, List.getD_eq_getElem _ _ (by omega)]
    exact List.getElem_mem _
  have hne : c' ≠ c := by
    rw [← hc'def]
    exact flip_ne c k hk8
  by_cases hdot : c' = 46
  · have hi26 : i ≠ 26 := by
      rintro rfl
      obtain ⟨s0, hs0, h4⟩ := last_sextet mac (by omega)
      rw [hsiglen] at hs0
      simp only [Nat.add_one_sub_one] at hs0
      rw [hcdef] at hs0
      rw [← hc'def] at hdot
      rcases flip_to_dot c k hk8 hdot with h | h
      · rw [h] at hs0
        simp at hs0
      · rw [h] at hs0
        simp only [Option.some.injEq] at hs0
        omega
    refine ⟨fun h => absurd h.1 hi26, fun _ => ?_⟩
    have hset : (rawEncode mac).set i c'
        = (rawEncode mac).take i ++ [46] ++ (rawEncode mac).drop (i + 1) := by
      rw [List.set_eq_take_append_cons_drop, if_pos (by omega), hdot]
      simp
    have hd46 : (46 : Byte) ∉ (rawEncode mac).drop (i + 1) := fun h =>
      dot_not_alpha (halpha _ (List.mem_of_mem_drop h))
    have hdne : (rawEncode mac).drop (i + 1) ≠ [] := by
      intro h
      have := congrArg List.length h
      simp only [List.length_drop, List.length_nil] at this
      omega
    have hassoc : v ++ [46] ++ (rawEncode mac).set i c'
        = (v ++ [46] ++ (rawEncode mac).take i) ++ [46] ++ (rawEncode mac).drop (i + 1) := by
      rw [hset]
      simp
    obtain ⟨mac2, hm2, -⟩ := HMACAlgorithm.GetSignature_accepted hcd key
      (v ++ [46] ++ (rawEncode mac).take i)
    rw [hassoc, Unsign_dot z s _ _ key mac2 hsep halg hk hm2 hd46 hdne]
    have hshort := base64Decode_short z ((rawEncode mac).drop (i + 1)) mac2 hdne
      (fun h => hd46 (List.mem_of_mem_head? h))
      (by
        have := List.countP_le_length (p := fun c => decide (c ∈ encodeURL))
          (l := (rawEncode mac).drop (i + 1))
        simp only [List.length_drop] at this
        omega)
      (GetSignature_sha1_length _ hdig _ _ _ hm2)
    rw [if_neg hshort]
    exact ⟨_, rfl⟩
  · have h46 : (46 : Byte) ∉ (rawEncode mac).set i c' := by
      intro h
      rcases List.mem_or_eq_of_mem_set h with h | h
      · exact dot_not_alpha (halpha _ h)
      · exact hdot h.symm
    have hsne : (rawEncode mac).set i c' ≠ [] := by
      intro h
      have := congrArg List.length h
      simp only [List.length_set, List.length_nil] at this
      omega
    have hhead : ((rawEncode mac).set i c').head? ≠ some 46 :=
      fun h => h46 (List.mem_of_mem_head? h)
    rw [Unsign_dot z s _ _ key mac hsep halg hk hm h46 hsne]
    by_cases halp : c' ∈ encodeURL
    · have hs' : decodeMap c' = some (encodeURL.indexOf c') := by
        unfold decodeMap
        rw [if_pos halp]
      generalize encodeURL.indexOf c' = s' at hs'
      obtain ⟨hlt, henc, _⟩ := decodeMap_eq_some hs'
      obtain ⟨out, hout, hiff⟩ := decode_replaced mac (by omega) i s' (by omega) hlt
      rw [henc] at hout
      rw [hcdef] at hiff
      have hdec : base64Decode z ((rawEncode mac).set i c') = .ret (out, none) := by
        rw [base64Decode_plain z _ hsne hhead]
        have : (4 - ((rawEncode mac).set i c').length % 4) % 4 = 1 := by
          rw [List.length_set, hsiglen]
        rw [this]
        show (match URLDecode ((rawEncode mac).set i c' ++ [padChar]) with
          | none => Outcome.ret ([], some Error.corruptInput)
          | some dst => Outcome.ret (dst, none)) = _
        rw [hout]
      have hnot : decodeMap c ≠ some s' := by
        intro h
        have := (decodeMap_eq_some h).2.1
        exact hne (henc.symm.trans this)
      have hout_iff : out = mac ↔ (i = 26 ∧ sameHighBits c c' = true) := by
        rw [hiff, sameHighBits_iff hs', hsiglen]
        constructor
        · rintro (h | ⟨h1, h2⟩)
          · exact absurd h hnot
          · exact ⟨by omega, h2⟩
        · rintro ⟨h1, h2⟩
          exact Or.inr ⟨by omega, h2⟩
      rw [hdec]
      constructor
      · intro hcond
        rw [if_pos (by rw [hout_iff.2 hcond])]
      · intro hcond
        have : out ≠ mac := fun h => hcond (hout_iff.1 h)
        rw [if_neg (by simpa using this)]
        exact ⟨_, rfl⟩
    · have hnone : decodeMap c' = none := decodeMap_eq_none.2 halp
      have hfalse : sameHighBits c c' = false := sameHighBits_of_none hnone
      refine ⟨fun h => ?_, fun _ => ?_⟩
      · rw [hfalse] at h
        exact absurd h.2 (by decide)
      · have hshort := base64Decode_short z ((rawEncode mac).set i c') mac hsne hhead
          (by
            have := countP_set_le (rawEncode mac) i c' (by omega) halp
            omega)
          hmac
        rw [if_neg hshort]
        exact ⟨_, rfl⟩

/-- C4, as the code has it: with a SHA-1 digest hmac.New accepts and the other arguments of
NewSignature at their defaults (any secret), a token of Sign(v) is v, ".", and 27 signature
characters. With any one bit of any one signature character flipped, Unsign returns the
mismatch error, except when the flipped character is the last one and the flip turns it
into another alphabet character with the same four high bits of its six-bit value (the two
low bits do not reach the 20 decoded bytes, and the decoder does not check them): then
Unsign returns v with no error. `w` and `w'` are what earlier calls left in the digest. -/
theorem Unsign_flipped_signature (z : Zlib) (secret v w w' token : Bytes) (i k : Nat)
    (htok : ((NewSignature secret [] [] "" (some (sha1.Wrapped w)) none).Sign v).1
      = .ret (token, none))
    (hi : i < 27) (hk : k < 8) :
    token.length = v.length + 1 + 27 ∧
    ((i = 26 ∧ sameHighBits (token.getD (v.length + 1 + i) 0)
          ((flipBit token (v.length + 1 + i) k).getD (v.length + 1 + i) 0) = true) →
      (((NewSignature secret [] [] "" (some (sha1.Wrapped w)) none).withDigest
          (sha1.Wrapped w')).Unsign z (flipBit token (v.length + 1 + i) k)).1
        = .ret (v, none)) ∧
    (¬ (i = 26 ∧ sameHighBits (token.getD (v.length + 1 + i) 0)
          ((flipBit token (v.length + 1 + i) k).getD (v.length + 1 + i) 0) = true) →
      ∃ e, (((NewSignature secret [] [] "" (some (sha1.Wrapped w)) none).withDigest
          (sha1.Wrapped w')).Unsign z (flipBit token (v.length + 1 + i) k)).1
        = .ret ([], some (.signatureMismatch e))) := by
  have hr : Recognised
      (NewSignature secret [] [] "" (some (sha1.Wrapped w)) none).KeyDerivation :=
    NewSignature_recognised secret [] [] (some (sha1.Wrapped w)) none (Or.inl rfl)
  have hdk : ((NewSignature secret [] [] "" (some (sha1.Wrapped w)) none).withDigest
      (sha1.Wrapped w')).DeriveKey
      = (NewSignature secret [] [] "" (some (sha1.Wrapped w)) none).DeriveKey :=
    DeriveKey_withDigest _ ⟨rfl, rfl, rfl⟩
  obtain ⟨key, mac, hkey, hm, -, -, hs⟩ := Sign_accepted
    (s := NewSignature secret [] [] "" (some (sha1.Wrapped w)) none) rfl hr rfl v
  have hm1 : (HMACAlgorithm.GetSignature
      (NewSignature secret [] [] "" (some (sha1.Wrapped w)) none).DeriveKey.2 key v).1
      = .ret mac := by rw [hm]
  have hmaclen := GetSignature_sha1_length _
    ((DeriveKey_same (NewSignature secret [] [] "" (some (sha1.Wrapped w)) none)).1.trans rfl)
    _ _ _ hm1
  have key' := Unsign_replaced z
    ((NewSignature secret [] [] "" (some (sha1.Wrapped w)) none).withDigest (sha1.Wrapped w'))
    v key mac i k (default_Sep secret (some (sha1.Wrapped w))) rfl rfl rfl
    (by rw [hdk]; exact hkey)
    (by rw [hdk]; exact hm1) hi hk
  rw [hs, default_Sep secret (some (sha1.Wrapped w)), base64Encode_eq] at htok
  simp only [Outcome.ret.injEq, Prod.mk.injEq, and_true] at htok
  have hlen : (rawEncode mac).length = 27 := by
    rw [rawEncode_length, hmaclen]
  subst htok
  have hget : (v ++ [46] ++ rawEncode mac).getD (v.length + 1 + i) 0
      = (rawEncode mac).getD i 0 := by
    rw [List.getD_append_right _ _ _ _ (by simp)]
    congr 1
    simp
  have hflip : flipBit (v ++ [46] ++ rawEncode mac) (v.length + 1 + i) k
      = v ++ [46] ++ (rawEncode mac).set i ((rawEncode mac).getD i 0 ^^^ Fin.ofNat (2 ^ k)) := by
    unfold flipBit
    rw [hget, List.set_append_right _ _ (by simp)]
    congr 2
    simp
  have hget' : (v ++ [46] ++
      (rawEncode mac).set i ((rawEncode mac).getD i 0 ^^^ Fin.ofNat (2 ^ k))).getD
        (v.length + 1 + i) 0 = (rawEncode mac).getD i 0 ^^^ Fin.ofNat (2 ^ k) := by
    rw [List.getD_append_right _ _ _ _ (by simp)]
    have : v.length + 1 + i - (v ++ [46]).length = i := by simp
    rw [this, List.getD_eq_getElem _ _ (by rw [List.length_set]; omega)]
    simp
  rw [hflip, hget, hget']
  refine ⟨by simp [hlen], key'.1, key'.2⟩

set_option maxRecDepth 1000000 in
theorem Unsign_flipped_signature_witness :
    ((NewSignature (ascii "secret-key") [] [] ""
        (some (sha1.Wrapped [])) none).Sign (ascii "my string")).1
      = .ret (ascii "my string.wh6tMHxLgJqB6oY1uT73iMlyrOA", none) ∧ 26 < 27 ∧ 1 < 8 ∧
    ((ascii "my string.wh6tMHxLgJqB6oY1uT73iMlyrOA").length
        = (ascii "my string").length + 1 + 27 ∧
    ((26 = 26 ∧ sameHighBits
          ((ascii "my string.wh6tMHxLgJqB6oY1uT73iMlyrOA").getD
            ((ascii "my string").length + 1 + 26) 0)
          ((flipBit (ascii "my string.wh6tMHxLgJqB6oY1uT73iMlyrOA")
            ((ascii "my string").length + 1 + 26) 1).getD
            ((ascii "my string").length + 1 + 26) 0) = true) →
      (((NewSignature (ascii "secret-key") [] [] "" (some (sha1.Wrapped [])) none).withDigest
          (sha1.Wrapped [])).Unsign storedZlib
        (flipBit (ascii "my string.wh6tMHxLgJqB6oY1uT73iMlyrOA")
          ((ascii "my string").length + 1 + 26) 1)).1 = .ret (ascii "my string", none)) ∧
    (¬ (26 = 26 ∧ sameHighBits
          ((ascii "my string.wh6tMHxLgJqB6oY1uT73iMlyrOA").getD
            ((ascii "my string").length + 1 + 26) 0)
          ((flipBit (ascii "my string.wh6tMHxLgJqB6oY1uT73iMlyrOA")
            ((ascii "my string").length + 1 + 26) 1).getD
            ((ascii "my string").length + 1 + 26) 0) = true) →
      ∃ e, (((NewSignature (ascii "secret-key") [] [] "" (some (sha1.Wrapped [])) none).withDigest
          (sha1.Wrapped [])).Unsign storedZlib
        (flipBit (ascii "my string.wh6tMHxLgJqB6oY1uT73iMlyrOA")
          ((ascii "my string").length + 1 + 26) 1)).1
        = .ret ([], some (.signatureMismatch e)))) :=
  ⟨by decide, by decide, by decide,
    Unsign_flipped_signature storedZlib (ascii "secret-key") (ascii "my string") [] []
      (ascii "my string.wh6tMHxLgJqB6oY1uT73iMlyrOA") 26 1 (by decide) (by decide) (by decide)⟩

set_option maxRecDepth 1000000 in
/-- C4 fails as stated: with the secret "secret-key", a SHA-1 digest hmac.New accepts and
the other arguments at their defaults, Sign gives "my string.wh6tMHxLgJqB6oY1uT73iMlyrOA";
flipping bit 1 of its last byte (index 36, 'A' to 'C') changes one bit of the signature
segment, yet Unsign returns "my string" with no error. -/
theorem Unsign_accepts_flipped_bit :
    ((NewSignature (ascii "secret-key") [] [] ""
        (some (sha1.Wrapped [])) none).Sign (ascii "my string")).1
      = .ret (ascii "my string.wh6tMHxLgJqB6oY1uT73iMlyrOA", none) ∧
    flipBit (ascii "my string.wh6tMHxLgJqB6oY1uT73iMlyrOA") 36 1
      = ascii "my string.wh6tMHxLgJqB6oY1uT73iMlyrOC" ∧
    ((NewSignature (ascii "secret-key") [] [] "" (some (sha1.Wrapped [])) none).Unsign storedZlib
        (ascii "my string.wh6tMHxLgJqB6oY1uT73iMlyrOC")).1
      = .ret (ascii "my string", none) := by
  decide

/-- base64Decode undoes ZBase64Encode on every non-empty byte string, on either branch,
when the zlib reader inverts the zlib writer. -/
theorem base64Decode_ZBase64Encode (z : Zlib) (v : Bytes) (hv : v ≠ [])
    (hz : ∀ b cb, z.compress b = (cb, none) → z.decompress cb = (b, none)) :
    base64Decode z (ZBase64Encode z v) = .ret (v, none) := by
  unfold ZBase64Encode
  rcases hc : z.compress v with ⟨cb, err⟩
  simp only
  cases err with
  | some e =>
    simp only [Option.isNone_some, Bool.false_and, Bool.false_eq_true, if_false]
    exact base64Decode_base64Encode z v hv
  | none =>
    by_cases hlen : cb.length < v.length + 1
    · simp only [Option.isNone_none, Bool.true_and, decide_eq_true_eq, hlen, if_true]
      rw [base64Decode_marker, base64Encode_eq, rawEncode_pad, URLDecode_URLEncode]
      simp only
      rw [hz v cb hc]
    · simp only [Option.isNone_none, Bool.true_and, decide_eq_true_eq, hlen, if_false]
      exact base64Decode_base64Encode z v hv

/-- The part of C2 that holds: for every non-empty byte string v, a digest hmac.New accepts
whose sums are never empty, and a zlib whose reader inverts its writer, SignB64(v) returns
a token and UnsignB64 of it returns exactly v with no error, whichever branch ZBase64Encode
took. -/
theorem UnsignB64_SignB64_nonempty (z : Zlib) (secret salt sep : Bytes)
    (derivation : String) (d : Hash) (v : Bytes) (hv : v ≠ [])
    (hz : ∀ b cb, z.compress b = (cb, none) → z.decompress cb = (b, none))
    (hder : derivation = "" ∨ Recognised derivation)
    (hsep : sep = [] ∨ ∃ c ∈ sep, c ∉ encodeURL)
    (hc : d.comparable = false) (hdig : ∀ x, d.digest x ≠ []) :
    ∃ tok, ((NewSignature secret salt sep derivation (some d) none).SignB64 z v).1
        = .ret (tok, none) ∧
      (((NewSignature secret salt sep derivation (some d) none).withDigest
          ((NewSignature secret salt sep derivation (some d) none).SignB64 z v).2).UnsignB64 z
        tok).1 = .ret (v, none) := by
  unfold Signature.SignB64
  obtain ⟨tok, h1, h2⟩ := Unsign_Sign_NewSignature z secret salt sep derivation d
    (ZBase64Encode z v) hder hsep hc hdig
  refine ⟨tok, h1, ?_⟩
  unfold Signature.UnsignB64
  rw [pair_eta _ h2]
  exact base64Decode_ZBase64Encode z v hv hz

/-! ## framing of the timestamp, key derivation, the encoder, the padding loop -/

theorem putUint32_length (x : Nat) : (putUint32 x).length = 4 := rfl

/-- The framing of TimestampSignature.Sign, with the clock passed as `unix` (read as the
uint32 t = getTimestamp unix): Sign(v) does what Get(inner) does, inner being
v ‖ Sep ‖ base64Encode(the four big-endian bytes of t), and returns inner ‖ Sep ‖ Get(inner)
when Get returns a signature; the timestamp segment is six characters of the URL-safe
alphabet (so it holds no '=' and does not start with the marker '.'); SignB64(v) is
Sign(ZBase64Encode(v)), and the first len(ZBase64Encode(v)) bytes of a token it returns are
ZBase64Encode(v) whatever the clock. -/
theorem TimestampSignature_Sign_framing (z : Zlib) (t : TimestampSignature) (v : Bytes)
    (unix : Nat) :
    (t.Sign unix v).1 =
      (match (t.toSignature.Get
          (v ++ t.Sep ++ base64Encode (putUint32 (getTimestamp unix)))).1 with
        | .panic => .panic
        | .ret (_, some err) => .ret ([], some err)
        | .ret (sig, none) =>
          .ret (v ++ t.Sep ++ base64Encode (putUint32 (getTimestamp unix)) ++ t.Sep ++ sig,
            none)) ∧
    (base64Encode (putUint32 (getTimestamp unix))).length = 6 ∧
    (∀ c ∈ base64Encode (putUint32 (getTimestamp unix)), c ∈ encodeURL ∧ c ≠ padChar) ∧
    (base64Encode (putUint32 (getTimestamp unix))).head? ≠ some 46 ∧
    t.SignB64 z unix v = t.Sign unix (ZBase64Encode z v) ∧
    (∀ (unix' : Nat) (tok : Bytes), (t.SignB64 z unix' v).1 = .ret (tok, none) →
      tok.take (ZBase64Encode z v).length = ZBase64Encode z v) := by
  have hsign : ∀ (u : Nat) (x : Bytes), (t.Sign u x).1 =
      (match (t.toSignature.Get (x ++ t.Sep ++ base64Encode (putUint32 (getTimestamp u)))).1 with
        | .panic => .panic
        | .ret (_, some err) => .ret ([], some err)
        | .ret (sig, none) =>
          .ret (x ++ t.Sep ++ base64Encode (putUint32 (getTimestamp u)) ++ t.Sep ++ sig,
            none)) := by
    intro u x
    unfold TimestampSignature.Sign sepJoin
    simp only
    rcases t.toSignature.Get (x ++ t.Sep ++ base64Encode (putUint32 (getTimestamp u)))
      with ⟨o, d⟩
    cases o with
    | panic => rfl
    | ret r =>
      obtain ⟨sig, e⟩ := r
      cases e <;> rfl
  refine ⟨hsign unix v, ?_, ?_, ?_, rfl, ?_⟩
  · rw [base64Encode_eq, rawEncode_length, putUint32_length]
  · intro c hc
    rw [base64Encode_eq] at hc
    have ha := rawEncode_alpha _ c hc
    exact ⟨ha, fun e => padChar_not_alpha (e ▸ ha)⟩
  · rw [base64Encode_eq]
    exact rawEncode_head_ne_dot _
  · intro unix' tok htok
    have h := hsign unix' (ZBase64Encode z v)
    have h' : (t.Sign unix' (ZBase64Encode z v)).1 = .ret (tok, none) := htok
    rw [h'] at h
    generalize (t.toSignature.Get
      (ZBase64Encode z v ++ t.Sep ++ base64Encode (putUint32 (getTimestamp unix')))).1 = o at h
    cases o with
    | panic => cases h
    | ret r =>
      obtain ⟨sig, e⟩ := r
      cases e with
      | some err =>
        simp only [Outcome.ret.injEq, Prod.mk.injEq] at h
        exact absurd h.2 (by simp)
      | none =>
        simp only [Outcome.ret.injEq, Prod.mk.injEq, and_true] at h
        rw [h]
        simp only [List.append_assoc]
        rw [List.take_left]

/-- C11 fails on the code: for a TimestampSignature with a recognised key-derivation method,
the default algorithm and a digest of a comparable type (as NewTimestampSignature builds it
when no digest is given), Sign(v) and SignB64(v) panic at every clock, in hmac.New, which is
handed a function that returns the one digest instance twice (by DeriveKey for the method
"hmac", by GetSignature for the others): there is no token inner ‖ Sep ‖ Get(inner). -/
theorem TimestampSignature_Sign_panics (z : Zlib) (t : TimestampSignature) (v : Bytes)
    (unix : Nat) (hr : Recognised t.KeyDerivation) (halg : t.Algorithm = HMACAlgorithm)
    (hc : t.DigestMethod.comparable = true) :
    (t.toSignature.Get
      (v ++ t.Sep ++ base64Encode (putUint32 (getTimestamp unix)))).1 = .panic ∧
    (t.Sign unix v).1 = .panic ∧ (t.SignB64 z unix v).1 = .panic := by
  refine ⟨Get_panic_comparable halg hr hc _, ?_, ?_⟩
  · rw [Timestamp_Sign_eq]
    exact Sign_panic_of_Get (Get_panic_comparable halg hr hc _)
  · unfold TimestampSignature.SignB64
    rw [Timestamp_Sign_eq]
    exact Sign_panic_of_Get (Get_panic_comparable halg hr hc _)

/-- Witness for C11: the configuration of testTimedSig (method "hmac", no digest given) and
the default configuration. -/
theorem TimestampSignature_Sign_panics_witness :
    ((NewTimestampSignature (ascii "super secret 1") (ascii "cookie-session") (ascii ".")
        "hmac" none none).SignB64 storedZlib 110395455 (ascii "my string")).1 = .panic ∧
    ((NewTimestampSignature (ascii "secret-key") [] [] "" none none).Sign 110395455
        (ascii "my string")).1 = .panic :=
  ⟨(TimestampSignature_Sign_panics storedZlib
      (NewTimestampSignature (ascii "super secret 1") (ascii "cookie-session") (ascii ".")
        "hmac" none none) (ascii "my string") 110395455 (by decide) rfl rfl).2.2,
    (TimestampSignature_Sign_panics storedZlib
      (NewTimestampSignature (ascii "secret-key") [] [] "" none none) (ascii "my string")
      110395455 (by decide) rfl rfl).2.1⟩

set_option maxRecDepth 1000000 in
/-- The token of the skipped TestTimestampSignatureUnsign is what Sign returns at clock
110395455 once the digest is one hmac.New accepts. -/
theorem TimestampSignature_Sign_vector :
    ((NewTimestampSignature (ascii "secret-key") [] [] "" (some (sha1.Wrapped [])) none).Sign
        110395455 (ascii "my string")).1
      = .ret (ascii "my string.BpSAPw.NnKk1nQ206g1c1aJAS1Nxkt4aug", none) := by
  decide

/-- On a freshly reset digest and for a key that is not longer than the block, the steps of
crypto/hmac on the one instance give HMAC of RFC 2104. -/
theorem hmac_steps_short (d : Hash) (key msg : Bytes) (h : key.length ≤ d.BlockSize) :
    (hmac.steps d.Reset key msg).1 = HMAC d.digest d.BlockSize key msg := by
  have hn : ¬ key.length > d.BlockSize := by omega
  unfold hmac.steps HMAC hmac.keyPad
  simp only [Hash.Reset, Hash.Write, Hash.Sum, List.nil_append, hn, if_false]

/-- On a freshly reset digest and for a key longer than the block, the key is still in the
digest when the inner pad is written: the inner hash is H(key ‖ ipad ‖ msg), the pads being
those of H(key). -/
theorem hmac_steps_long (d : Hash) (key msg : Bytes) (h : d.BlockSize < key.length) :
    (hmac.steps d.Reset key msg).1 =
      d.digest (hmac.keyPad d.BlockSize (d.digest key) 0x5c ++
        d.digest (key ++ hmac.keyPad d.BlockSize (d.digest key) 0x36 ++ msg)) := by
  have hn : key.length > d.BlockSize := h
  unfold hmac.steps
  simp only [Hash.Reset, Hash.Write, Hash.Sum, List.nil_append, hn, if_true]

/-- C12, as the code has it: DeriveKey returns, with no error and whatever the digest held
before, H(salt ‖ secret) for "concat", H(salt ‖ "signer" ‖ secret) for "django-concat" and
the secret itself for "none", H being the digest function of the configured digest. For
"hmac" it panics in hmac.New when the digest is of a comparable type (sha1.New(), the
default); when hmac.New accepts the digest it returns HMAC_H(key = secret, message = salt)
for a secret that is not longer than the block, and for a longer secret
H(opad ‖ H(secret ‖ ipad ‖ salt)), the pads being those of H(secret), which is not HMAC. -/
theorem DeriveKey_value (s : Signature) :
    (s.KeyDerivation = "concat" →
      s.DeriveKey.1 = .ret (s.DigestMethod.digest (s.Salt ++ s.SecretKey), none)) ∧
    (s.KeyDerivation = "django-concat" →
      s.DeriveKey.1
        = .ret (s.DigestMethod.digest (s.Salt ++ ascii "signer" ++ s.SecretKey), none)) ∧
    (s.KeyDerivation = "none" → s.DeriveKey.1 = .ret (s.SecretKey, none)) ∧
    (s.KeyDerivation = "hmac" → s.DigestMethod.comparable = true →
      s.DeriveKey.1 = .panic) ∧
    (s.KeyDerivation = "hmac" → s.DigestMethod.comparable = false →
      s.SecretKey.length ≤ s.DigestMethod.BlockSize →
      s.DeriveKey.1
        = .ret (HMAC s.DigestMethod.digest s.DigestMethod.BlockSize s.SecretKey s.Salt,
            none)) ∧
    (s.KeyDerivation = "hmac" → s.DigestMethod.comparable = false →
      s.DigestMethod.BlockSize < s.SecretKey.length →
      s.DeriveKey.1
        = .ret (s.DigestMethod.digest
            (hmac.keyPad s.DigestMethod.BlockSize (s.DigestMethod.digest s.SecretKey) 0x5c ++
              s.DigestMethod.digest (s.SecretKey ++
                hmac.keyPad s.DigestMethod.BlockSize (s.DigestMethod.digest s.SecretKey) 0x36
                ++ s.Salt)), none)) := by
  refine ⟨?_, ?_, ?_, ?_, ?_, ?_⟩
  · intro h
    simp [Signature.DeriveKey, h, Hash.Reset, Hash.Write, Hash.Sum]
  · intro h
    simp [Signature.DeriveKey, h, Hash.Reset, Hash.Write, Hash.Sum]
  · intro h
    simp [Signature.DeriveKey, h]
  · intro h hc
    exact DeriveKey_hmac_comparable h hc
  · intro h hc hlen
    simp only [Signature.DeriveKey, h]
    simp only [String.reduceEq, if_false, if_true]
    rw [hmac.sumWith_accepted (d := s.DigestMethod.Reset) hc, hmac_steps_short _ _ _ hlen]
  · intro h hc hlen
    simp only [Signature.DeriveKey, h]
    simp only [String.reduceEq, if_false, if_true]
    rw [hmac.sumWith_accepted (d := s.DigestMethod.Reset) hc, hmac_steps_long _ _ _ hlen]

/-- Witness for C12: the configuration of testSig (method "hmac", no digest given). -/
theorem DeriveKey_value_witness :
    (NewSignature (ascii "super secret 1") (ascii "cookie-session") (ascii ".") "hmac" none
      none).KeyDerivation = "hmac" ∧
    (NewSignature (ascii "super secret 1") (ascii "cookie-session") (ascii ".") "hmac" none
      none).DigestMethod.comparable = true ∧
    (NewSignature (ascii "super secret 1") (ascii "cookie-session") (ascii ".") "hmac" none
      none).DeriveKey.1 = .panic :=
  ⟨rfl, rfl,
    (DeriveKey_value (NewSignature (ascii "super secret 1") (ascii "cookie-session")
      (ascii ".") "hmac" none none)).2.2.2.1 rfl rfl⟩

set_option maxRecDepth 1000000 in
/-- With a SHA-1 digest hmac.New accepts and the secret of 65 bytes 'a' (one more than the
block), the key DeriveKey returns for "hmac" is not HMAC-SHA1(secret, salt); with the secret
"super secret 1" of testSig it is. -/
theorem DeriveKey_hmac_long_secret :
    (NewSignature (List.replicate 65 97) (ascii "cookie-session") (ascii ".") "hmac"
        (some (sha1.Wrapped [])) none).DeriveKey.1
      = .ret ([210, 169, 219, 214, 41, 4, 115, 178, 90, 220, 120, 21, 146, 68, 5, 10, 18, 213,
          4, 97], none) ∧
    HMAC sha1.sum 64 (List.replicate 65 97) (ascii "cookie-session")
      = [37, 235, 228, 121, 167, 162, 204, 210, 120, 36, 203, 48, 186, 215, 186, 94, 225, 17,
          101, 239] ∧
    (NewSignature (ascii "super secret 1") (ascii "cookie-session") (ascii ".") "hmac"
        (some (sha1.Wrapped [])) none).DeriveKey.1
      = .ret (HMAC sha1.sum 64 (ascii "super secret 1") (ascii "cookie-session"), none) := by
  decide

theorem DeriveKey_unrecognised {s : Signature} (h : ¬ Recognised s.KeyDerivation) :
    s.DeriveKey.1 = .ret ([], some .unknownKeyDerivation) := by
  unfold Recognised at h
  simp only [not_or] at h
  simp [Signature.DeriveKey, h.1, h.2.1, h.2.2.1, h.2.2.2]

/-- C13: when KeyDerivation is none of "concat", "django-concat", "hmac", "none", then
DeriveKey, Get, Sign and SignB64 each return the error with a nil result, and Unsign
returns an error and no value for every input (it does not panic). -/
theorem unrecognised_derivation (z : Zlib) (s : Signature) (v signed : Bytes)
    (h : ¬ Recognised s.KeyDerivation) :
    s.DeriveKey.1 = .ret ([], some .unknownKeyDerivation) ∧
    (s.Get v).1 = .ret ([], some .unknownKeyDerivation) ∧
    (s.Sign v).1 = .ret ([], some .unknownKeyDerivation) ∧
    (s.SignB64 z v).1 = .ret ([], some .unknownKeyDerivation) ∧
    ∃ e, (s.Unsign z signed).1 = .ret ([], some e) := by
  have hd := DeriveKey_unrecognised h
  have hget : ∀ x, (s.Get x).1 = .ret ([], some .unknownKeyDerivation) := by
    intro x
    unfold Signature.Get
    rw [pair_eta _ hd]
  have hsign : ∀ x, (s.Sign x).1 = .ret ([], some .unknownKeyDerivation) := by
    intro x
    unfold Signature.Sign
    rw [pair_eta _ (hget x)]
  refine ⟨hd, hget v, hsign v, hsign _, ?_⟩
  have hver : ∀ a b, (s.Verify z a b).1 = .ret (false, some .unknownKeyDerivation) := by
    intro a b
    unfold Signature.Verify
    rw [pair_eta _ hd]
  by_cases hc : Contains signed s.Sep = true
  · obtain ⟨li, hli⟩ := Option.ne_none_iff_exists'.1 ((Contains_iff_LastIndex _ _).1 hc)
    rw [Unsign_eq z s signed hli,
      pair_eta _ (hver (signed.take li) (signed.drop (li + s.Sep.length)))]
    exact ⟨_, rfl⟩
  · unfold Signature.Unsign
    simp only [Bool.not_eq_true] at hc
    simp only [hc, Bool.not_false, if_true]
    exact ⟨_, rfl⟩

/-- C15: base64Encode(b) is the padded URL-safe encoding of b without its trailing '=':
the padded encoding is base64Encode(b) followed by padding characters only;
base64Encode(b) holds no '=', holds only characters of the alphabet, has length
ceil(4·len(b)/3), and is empty exactly when b is empty. -/
theorem base64Encode_spec (b : Bytes) :
    URLEncode b = base64Encode b ++ List.replicate ((3 - b.length % 3) % 3) padChar ∧
    padChar ∉ base64Encode b ∧
    (∀ c ∈ base64Encode b, c ∈ encodeURL) ∧
    (base64Encode b).length = (4 * b.length + 2) / 3 ∧
    3 * (base64Encode b).length < 4 * b.length + 3 ∧ 4 * b.length ≤ 3 * (base64Encode b).length ∧
    (base64Encode b = [] ↔ b = []) := by
  rw [base64Encode_eq]
  refine ⟨URLEncode_eq b, fun h => padChar_not_alpha (rawEncode_alpha b _ h), rawEncode_alpha b,
    rawEncode_length b, ?_, ?_, ?_⟩
  · rw [rawEncode_length]
    omega
  · rw [rawEncode_length]
    omega
  · constructor
    · intro h
      by_contra hb
      exact rawEncode_ne_nil hb h
    · rintro rfl
      rfl

theorem Sign_withDigest (s : Signature) {d : Hash} (v : Bytes) (h : d.same s.DigestMethod) :
    (s.withDigest d).Sign v = s.Sign v := by
  unfold Signature.Sign Signature.Get
  rw [DeriveKey_withDigest s h]
  rfl

/-- C16: DeriveKey returns the same key and error whatever bytes were written to the digest
before (`w`, `w'`), for every method, and so does Sign for the token; and on a Signature
with the default algorithm, Sign(v) called again on the Signature in the state the first
call left returns the same token. -/
theorem DeriveKey_state_independent (s : Signature) (w w' v : Bytes) :
    (s.written w).DeriveKey.1 = (s.written w').DeriveKey.1 ∧
    ((s.written w).Sign v).1 = ((s.written w').Sign v).1 ∧
    (s.Algorithm = HMACAlgorithm → ((s.withDigest (s.Sign v).2).Sign v).1 = (s.Sign v).1) := by
  refine ⟨?_, ?_, ?_⟩
  · unfold Signature.written
    rw [DeriveKey_withDigest s (d := ⟨_, _, _, w⟩) ⟨rfl, rfl, rfl⟩,
      DeriveKey_withDigest s (d := ⟨_, _, _, w'⟩) ⟨rfl, rfl, rfl⟩]
  · unfold Signature.written
    rw [Sign_withDigest s (d := ⟨_, _, _, w⟩) v ⟨rfl, rfl, rfl⟩,
      Sign_withDigest s (d := ⟨_, _, _, w'⟩) v ⟨rfl, rfl, rfl⟩]
  · intro halg
    rw [Sign_withDigest s v (Sign_same s v halg)]

/-- The padding loop with any gas from 4 up. -/
theorem padLoop_gas (g : Nat) (b : Bytes) :
    padLoop (g + 4) 0 b =
      ((4 - b.length % 4) % 4, b ++ List.replicate ((4 - b.length % 4) % 4) padChar) := by
  have h : b.length % 4 = 0 ∨ b.length % 4 = 1 ∨ b.length % 4 = 2 ∨ b.length % 4 = 3 := by
    omega
  rcases h with h | h | h | h
  · simp [padLoop, h]
  · have h1 : (b.length + 1) % 4 = 2 := by omega
    have h2 : (b.length + 1 + 1) % 4 = 3 := by omega
    have h3 : (b.length + 1 + 1 + 1) % 4 = 0 := by omega
    simp [padLoop, h, h1, h2, h3, List.replicate]
  · have h1 : (b.length + 1) % 4 = 3 := by omega
    have h2 : (b.length + 1 + 1) % 4 = 0 := by omega
    simp [padLoop, h, h1, h2, List.replicate]
  · have h1 : (b.length + 1) % 4 = 0 := by omega
    simp [padLoop, h, h1, List.replicate]

/-- C17: for an input of length n the padding loop of base64Decode, run with any gas from
4 up, stops with its condition false after (4 − n mod 4) mod 4 rounds, each of which
appended one '='; the padded length is a multiple of 4 and the first n bytes are the
input. -/
theorem padLoop_terminates (g : Nat) (b : Bytes) :
    padLoop (g + 4) 0 b =
      ((4 - b.length % 4) % 4, b ++ List.replicate ((4 - b.length % 4) % 4) padChar) ∧
    ¬ ((padLoop (g + 4) 0 b).1 < (padLoop (g + 4) 0 b).2.length % 4) ∧
    (padLoop (g + 4) 0 b).2.length = b.length + (4 - b.length % 4) % 4 ∧
    (padLoop (g + 4) 0 b).2.length % 4 = 0 ∧
    (padLoop (g + 4) 0 b).2.take b.length = b := by
  rw [padLoop_gas]
  simp only [List.length_append, List.length_replicate, List.take_left, and_true, true_and]
  omega

/-! ## the compression threshold and the separator -/

/-- ZBase64Encode puts the marker exactly when the zlib writer closed without error and
len(cb) < len(b) + 1, that is len(cb) ≤ len(b). -/
theorem ZBase64Encode_eq (z : Zlib) (b : Bytes) :
    ZBase64Encode z b =
      if (z.compress b).2 = none ∧ (z.compress b).1.length ≤ b.length then
        46 :: base64Encode (z.compress b).1
      else base64Encode b := by
  unfold ZBase64Encode
  rcases hc : z.compress b with ⟨cb, err⟩
  cases err with
  | some e => simp
  | none =>
    by_cases h : cb.length ≤ b.length
    · have h' : cb.length < b.length + 1 := by omega
      simp [h, h']
    · have h' : ¬ cb.length < b.length + 1 := by omega
      simp [h, h']

theorem Unsign_ne_of_take_ne (z : Zlib) (s : Signature) (tok v : Bytes) (li : Nat)
    (hl : LastIndex tok s.Sep = some li) (hv : tok.take li ≠ v) :
    (s.Unsign z tok).1 ≠ .ret (v, none) := by
  rw [Unsign_eq z s tok hl]
  rcases s.Verify z (tok.take li) (tok.drop (li + s.Sep.length)) with ⟨o, d⟩
  cases o with
  | panic => simp
  | ret r =>
    obtain ⟨ok, e⟩ := r
    simp only
    split
    · simp only [ne_eq, Outcome.ret.injEq, Prod.mk.injEq, and_true]
      exact hv
    · simp

set_option maxRecDepth 1000000 in
/-- C19: NewSignature keeps any non-empty separator as it is; and with the separator "w",
a character of the base64 alphabet, the default algorithm, a SHA-1 digest hmac.New accepts
and the secret "secret-key", Sign("my string") succeeds with the token
"my stringwwh6tMHxLgJqB6oY1uT73iMlyrOA", whose
signature segment contains 'w'; the last index where the separator starts is 10, inside
the signature, not 9 = len(v); Unsign does not return v for any zlib, and returns the
mismatch error. -/
theorem alphabet_separator_breaks_round_trip :
    (∀ (secret salt sep : Bytes) (derivation : String) (digest : Option Hash)
        (algo : Option SigningAlgorithm), sep ≠ [] →
      (NewSignature secret salt sep derivation digest algo).Sep = sep) ∧
    (119 : Byte) ∈ encodeURL ∧
    ((NewSignature (ascii "secret-key") [] [119] ""
        (some (sha1.Wrapped [])) none).Sign (ascii "my string")).1
      = .ret (ascii "my stringwwh6tMHxLgJqB6oY1uT73iMlyrOA", none) ∧
    (119 : Byte) ∈ (ascii "my stringwwh6tMHxLgJqB6oY1uT73iMlyrOA").drop
      ((ascii "my string").length + 1) ∧
    LastIndex (ascii "my stringwwh6tMHxLgJqB6oY1uT73iMlyrOA") [119] = some 10 ∧
    (∀ z : Zlib, ((NewSignature (ascii "secret-key") [] [119] ""
        (some (sha1.Wrapped [])) none).Unsign z
        (ascii "my stringwwh6tMHxLgJqB6oY1uT73iMlyrOA")).1 ≠ .ret (ascii "my string", none)) ∧
    ((NewSignature (ascii "secret-key") [] [119] ""
        (some (sha1.Wrapped [])) none).Unsign storedZlib
        (ascii "my stringwwh6tMHxLgJqB6oY1uT73iMlyrOA")).1
      = .ret ([], some (.signatureMismatch (ascii "h6tMHxLgJqB6oY1uT73iMlyrOA"))) := by
  refine ⟨?_, by decide, by decide, by decide, by decide, ?_, by decide⟩
  · intro secret salt sep derivation digest algo h
    rw [(NewSignature_fields secret salt sep derivation digest algo).2.2.1, if_neg h]
  · intro z
    exact Unsign_ne_of_take_ne z _ _ _ 10 (by decide) (by decide)

/-! ## the token in its backing array -/

theorem Slice_bytes_length (mem : Bytes) (s : Slice) (h : s.valid mem) :
    (s.bytes mem).length = s.len := by
  unfold Slice.valid at h
  simp only [Slice.bytes, List.length_take, List.length_drop]
  omega

theorem Buf_append_bytes (mem : Bytes) (b : Buf) (x : Byte) (h : b.valid mem) :
    (b.append mem x).2.bytes (b.append mem x).1 = b.bytes mem ++ [x] := by
  cases b with
  | fresh l => rfl
  | window s =>
    simp only [Buf.valid, Slice.valid] at h
    by_cases hlt : s.len < s.cap
    · simp only [Buf.append, hlt, if_true, Buf.bytes, Slice.bytes]
      apply List.ext_getElem?
      intro i
      simp only [List.getElem?_take, List.getElem?_drop, List.getElem?_set,
        List.getElem?_append, List.length_take, List.length_drop]
      by_cases h1 : i < s.len
      · have h2 : i < s.len + 1 := by omega
        have h3 : ¬ s.off + s.len = s.off + i := by omega
        have h4 : i < min s.len (mem.length - s.off) := by omega
        simp [h1, h2, h3, h4]
      · by_cases h2 : i = s.len
        · subst h2
          have h4 : ¬ s.len < min s.len (mem.length - s.off) := by omega
          have h5 : s.len - min s.len (mem.length - s.off) = 0 := by omega
          have h6 : s.off + s.len < mem.length := by omega
          simp [h4, h5, h6]
        · have h3 : ¬ i < s.len + 1 := by omega
          have h4 : ¬ i < min s.len (mem.length - s.off) := by omega
          have h5 : i - min s.len (mem.length - s.off) ≠ 0 := by omega
          simp only [h3, h4, if_false]
          cases hk : i - min s.len (mem.length - s.off) with
          | zero => exact absurd hk h5
          | succ k => simp
    · simp only [Buf.append, hlt, if_false, Buf.bytes]

theorem Buf_append_valid (mem : Bytes) (b : Buf) (x : Byte) (h : b.valid mem) :
    (b.append mem x).2.valid (b.append mem x).1 := by
  cases b with
  | fresh l => trivial
  | window s =>
    simp only [Buf.valid, Slice.valid] at h
    by_cases hlt : s.len < s.cap
    · simp only [Buf.append, hlt, if_true, Buf.valid, Slice.valid, List.length_set]
      omega
    · simp only [Buf.append, hlt, if_false, Buf.valid]

/-- The padding loop on the array shows the bytes the padding loop on values returns. -/
theorem padLoopM_bytes (g i : Nat) (mem : Bytes) (b : Buf) (h : b.valid mem) :
    (padLoopM g i mem b).2.bytes (padLoopM g i mem b).1 = (padLoop g i (b.bytes mem)).2 := by
  induction g generalizing i mem b with
  | zero => rfl
  | succ g ih =>
    unfold padLoopM padLoop
    split
    · rw [ih (i + 1) _ _ (Buf_append_valid mem b padChar h), Buf_append_bytes mem b padChar h]
    · rfl

/-- On a window inside the array, base64Decode on the array returns what base64Decode
returns on the bytes of the window. -/
theorem base64DecodeM_result (z : Zlib) (mem : Bytes) (b : Slice) (h : b.valid mem) :
    (base64DecodeM z mem b).1 = base64Decode z (b.bytes mem) := by
  have hlen := Slice_bytes_length mem b h
  unfold Slice.valid at h
  unfold base64DecodeM
  split
  · rename_i h0
    have : b.bytes mem = [] := List.length_eq_zero.mp (by omega)
    rw [this]
    rfl
  · rename_i h0
    have hoff : b.off < mem.length := by omega
    have hb : b.bytes mem = mem.getD b.off 0 :: (b.sliceFrom 1).bytes mem := by
      obtain ⟨off, len, cap⟩ := b
      simp only at h0 hoff h
      cases len with
      | zero => exact absurd rfl h0
      | succ n =>
        simp only [Slice.bytes, Slice.sliceFrom, Nat.add_sub_cancel]
        rw [List.drop_eq_getElem_cons hoff, List.take_succ_cons]
        simp [List.getD_eq_getElem?_getD, List.getElem?_eq_getElem hoff]
    have hv1 : (Buf.window (b.sliceFrom 1)).valid mem := by
      simp only [Buf.valid, Slice.valid, Slice.sliceFrom]
      omega
    have hv0 : (Buf.window b).valid mem := h
    rw [hb]
    simp only [base64Decode]
    cases hd : (mem.getD b.off 0 == 46) with
    | true =>
      simp only [if_true]
      rw [padLoopM_bytes 4 0 mem _ hv1]
      simp only [Buf.bytes]
      cases URLDecode (padLoop 4 0 ((b.sliceFrom 1).bytes mem)).2 <;> rfl
    | false =>
      simp only [Bool.false_eq_true, if_false]
      rw [padLoopM_bytes 4 0 mem _ hv0]
      simp only [Buf.bytes]
      rw [hb]
      cases URLDecode (padLoop 4 0 (mem.getD b.off 0 :: (b.sliceFrom 1).bytes mem)).2 <;> rfl

theorem Buf_append_frame (mem : Bytes) (b : Buf) (x : Byte) (j : Nat)
    (h : ∀ s, b = .window s → j < s.off + s.len) : (b.append mem x).1[j]? = mem[j]? := by
  cases b with
  | fresh l => rfl
  | window s =>
    have hj := h s rfl
    by_cases hlt : s.len < s.cap
    · simp only [Buf.append, hlt, if_true, List.getElem?_set]
      have : ¬ s.off + s.len = j := by omega
      simp [this]
    · simp only [Buf.append, hlt, if_false]

/-- The padding loop writes nothing before the end of its window. -/
theorem padLoopM_frame (g i : Nat) (mem : Bytes) (b : Buf) (j : Nat)
    (h : ∀ s, b = .window s → j < s.off + s.len) : (padLoopM g i mem b).1[j]? = mem[j]? := by
  induction g generalizing i mem b with
  | zero => rfl
  | succ g ih =>
    unfold padLoopM
    split
    · rw [ih, Buf_append_frame mem b padChar j h]
      intro s hs
      cases b with
      | fresh l => simp [Buf.append] at hs
      | window s0 =>
        have hj := h s0 rfl
        by_cases hlt : s0.len < s0.cap
        · simp only [Buf.append, hlt, if_true, Buf.window.injEq] at hs
          subst hs
          simp only
          omega
        · simp [Buf.append, hlt] at hs
    · rfl

/-- The overwrite in general: when the window does not start with the marker, its length is
not a multiple of 4 and it has capacity left (it is followed by more of the array, as the
value and timestamp segments of a token are), base64Decode leaves '=' in the array at the
index right after the window. -/
theorem base64DecodeM_overwrites (z : Zlib) (mem : Bytes) (b : Slice) (h : b.valid mem)
    (h0 : mem.getD b.off 0 ≠ 46) (h4 : b.len % 4 ≠ 0) (hc : b.len < b.cap) :
    (base64DecodeM z mem b).2[b.off + b.len]? = some padChar := by
  simp only [Slice.valid] at h
  have hlen := Slice_bytes_length mem b (by simpa only [Slice.valid] using h)
  have hne : b.len ≠ 0 := by
    intro h
    rw [h] at h4
    exact h4 rfl
  have hd : (mem.getD b.off 0 == 46) = false := by simpa using h0
  have hm : (padLoopM 4 0 mem (.window b)).1[b.off + b.len]? = some padChar := by
    have hlt : 0 < (Buf.bytes mem (.window b)).length % 4 := by
      simp only [Buf.bytes, hlen]
      omega
    rw [padLoopM]
    simp only [hlt, if_true, Buf.append, hc]
    rw [padLoopM_frame]
    · have : b.off + b.len < mem.length := by omega
      simp [List.getElem?_set, this]
    · intro s hs
      simp only [Buf.window.injEq] at hs
      subst hs
      simp only
      omega
  unfold base64DecodeM
  simp only [hne, if_false, hd, Bool.false_eq_true]
  split <;> exact hm

set_option maxRecDepth 1000000 in
/-- C18 fails: with the secret "secret-key", a SHA-1 digest hmac.New accepts and the other
arguments at their defaults, and the token in an array of exactly its length,
TimestampSignature.Unsign returns the value "my string" and
leaves '=' '=' in the array where the second separator and the first byte of the signature
were, so the same call on the same buffer then returns the mismatch error; Signature.UnsignB64
returns "hello" and leaves '=' where the separator was, so the second call finds no
separator; TimestampSignature.UnsignB64 overwrites both separators and the first byte of
the signature, and its second call finds no separator. -/
theorem Unsign_overwrites_token :
    ((NewTimestampSignature (ascii "secret-key") [] [] "" (some (sha1.Wrapped []))
        none).UnsignM storedZlib
        110395460 (ascii "my string.BpSAPw.NnKk1nQ206g1c1aJAS1Nxkt4aug") ⟨0, 44, 44⟩ 60).1
      = .ret (⟨0, 9, 44⟩, none) ∧
    ((NewTimestampSignature (ascii "secret-key") [] [] "" (some (sha1.Wrapped []))
        none).UnsignM storedZlib
        110395460 (ascii "my string.BpSAPw.NnKk1nQ206g1c1aJAS1Nxkt4aug") ⟨0, 44, 44⟩ 60).2.2
      = ascii "my string.BpSAPw==nKk1nQ206g1c1aJAS1Nxkt4aug" ∧
    Slice.bytes (ascii "my string.BpSAPw==nKk1nQ206g1c1aJAS1Nxkt4aug") ⟨0, 9, 44⟩
      = ascii "my string" ∧
    ((NewTimestampSignature (ascii "secret-key") [] [] "" (some (sha1.Wrapped []))
        none).UnsignM storedZlib
        110395460 (ascii "my string.BpSAPw==nKk1nQ206g1c1aJAS1Nxkt4aug") ⟨0, 44, 44⟩ 60).1
      = .ret (Slice.nil,
          some (.signatureMismatch (ascii "BpSAPw==nKk1nQ206g1c1aJAS1Nxkt4aug"))) ∧
    ((NewSignature (ascii "secret-key") [] [] ""
        (some (sha1.Wrapped [])) none).UnsignB64M storedZlib
        (ascii "aGVsbG8.08TU5AGOVrJSr05yeUGcGgGiZpk") ⟨0, 35, 35⟩).1
      = .ret (ascii "hello", none) ∧
    ((NewSignature (ascii "secret-key") [] [] ""
        (some (sha1.Wrapped [])) none).UnsignB64M storedZlib
        (ascii "aGVsbG8.08TU5AGOVrJSr05yeUGcGgGiZpk") ⟨0, 35, 35⟩).2.2
      = ascii "aGVsbG8=08TU5AGOVrJSr05yeUGcGgGiZpk" ∧
    ((NewSignature (ascii "secret-key") [] [] ""
        (some (sha1.Wrapped [])) none).UnsignB64M storedZlib
        (ascii "aGVsbG8=08TU5AGOVrJSr05yeUGcGgGiZpk") ⟨0, 35, 35⟩).1
      = .ret ([], some (.noSepFound (ascii "."))) ∧
    ((NewTimestampSignature (ascii "secret-key") [] [] "" (some (sha1.Wrapped []))
        none).UnsignB64M storedZlib
        110395460 (ascii "aGVsbG8.BpSAPw.8mKG43xQUckNFBkSr9BoqjaQtuU") ⟨0, 42, 42⟩ 60).1
      = .ret (ascii "hello", none) ∧
    ((NewTimestampSignature (ascii "secret-key") [] [] "" (some (sha1.Wrapped []))
        none).UnsignB64M storedZlib
        110395460 (ascii "aGVsbG8.BpSAPw.8mKG43xQUckNFBkSr9BoqjaQtuU") ⟨0, 42, 42⟩ 60).2.2
      = ascii "aGVsbG8=BpSAPw==mKG43xQUckNFBkSr9BoqjaQtuU" ∧
    ((NewTimestampSignature (ascii "secret-key") [] [] "" (some (sha1.Wrapped []))
        none).UnsignB64M storedZlib
        110395460 (ascii "aGVsbG8=BpSAPw==mKG43xQUckNFBkSr9BoqjaQtuU") ⟨0, 42, 42⟩ 60).1
      = .ret ([], some (.noSepFound (ascii "."))) := by
  refine ⟨by decide, by decide, by decide, by decide, by decide, by decide, by decide,
    by decide, by decide, by decide⟩

/-- Witness for C13: the derivation "bogus". -/
theorem unrecognised_derivation_witness :
    ¬ Recognised (NewSignature (ascii "secret-key") [] [] "bogus" none none).KeyDerivation ∧
    (NewSignature (ascii "secret-key") [] [] "bogus" none none).DeriveKey.1
      = .ret ([], some .unknownKeyDerivation) ∧
    ((NewSignature (ascii "secret-key") [] [] "bogus" none none).Sign (ascii "my string")).1
      = .ret ([], some .unknownKeyDerivation) :=
  ⟨by decide,
    (unrecognised_derivation storedZlib
      (NewSignature (ascii "secret-key") [] [] "bogus" none none) (ascii "my string")
      (ascii "my string.wh6tMHxLgJqB6oY1uT73iMlyrOA") (by decide)).1,
    (unrecognised_derivation storedZlib
      (NewSignature (ascii "secret-key") [] [] "bogus" none none) (ascii "my string")
      (ascii "my string.wh6tMHxLgJqB6oY1uT73iMlyrOA") (by decide)).2.2.1⟩

/-- Witness for C16: a signer with a digest hmac.New accepts, whose algorithm is
HMACAlgorithm. -/
theorem DeriveKey_state_independent_witness :
    (NewSignature (ascii "secret-key") [] [] "" (some (sha1.Wrapped [])) none).Algorithm
      = HMACAlgorithm ∧
    (((NewSignature (ascii "secret-key") [] [] "" (some (sha1.Wrapped [])) none).withDigest
        ((NewSignature (ascii "secret-key") [] [] "" (some (sha1.Wrapped [])) none).Sign
          (ascii "my string")).2).Sign (ascii "my string")).1
      = ((NewSignature (ascii "secret-key") [] [] "" (some (sha1.Wrapped [])) none).Sign
          (ascii "my string")).1 :=
  ⟨rfl,
    (DeriveKey_state_independent
      (NewSignature (ascii "secret-key") [] [] "" (some (sha1.Wrapped [])) none)
      (ascii "x") (ascii "yz") (ascii "my string")).2.2 rfl⟩
end itsdangerous
